import Mathlib

/-! Allwinner A133 DRAM bring-up: geometry, address map, ODT map, calibration retry,
auto-detection, read calibration and data-lane delay compensation of the PHY.

A shallow embedding of `arch/arm/mach-sunxi/dram_sun50i_a133.c`.

* Machine integers are natural numbers; a `u8`, `u32` or 64-bit result is reduced
  modulo `2^8`, `2^32`, `2^64` at the place where the C type would wrap.
* `panic(...)` is the `Except.error` result.
* Hardware that the code only observes (the outcome of a read-calibration run,
  the read-back of an aliasing probe) is an explicit oracle argument.
-/

namespace SunxiDram

/-! ## Data model -/

/-- The memory technology, `para->type`. -/
inductive sunxi_dram_type where
  | DDR3
  | DDR4
  | LPDDR3
  | LPDDR4
  deriving DecidableEq, Repr

/-- The geometry descriptor `struct dram_config`. The width fields are `u8` in the
driver (they are loaded into `u8` locals); `ranks` is the rank field (0 or 1,
meaning one or two physical ranks). -/
structure dram_config where
  cols : Nat
  rows : Nat
  banks : Nat
  bankgrps : Nat
  ranks : Nat
  bus_full_width : Bool
  deriving DecidableEq, Repr

/-- The part of the board parameters `struct dram_para` that the embedded functions
read. `tpr10_read_calibration` is the truth value of
`para->tpr10 & TPR10_READ_CALIBRATION`; the mask is declared in a header that is not
part of the sources at hand. -/
structure dram_para where
  type : sunxi_dram_type
  clk : Nat
  mr4 : Nat
  tpr10_read_calibration : Bool
  deriving DecidableEq, Repr

/-- The bounds of the data model: cols in [8,12], rows in [14,18], banks in {2,3},
bankgrps in {0,1,2}, ranks in {0,1}. -/
def in_bounds (c : dram_config) : Prop :=
  8 ≤ c.cols ∧ c.cols ≤ 12 ∧ 14 ≤ c.rows ∧ c.rows ≤ 18 ∧
  2 ≤ c.banks ∧ c.banks ≤ 3 ∧ c.bankgrps ≤ 2 ∧ c.ranks ≤ 1

instance (c : dram_config) : Decidable (in_bounds c) := by
  unfold in_bounds; infer_instance

/-- Every field of the descriptor fits the `u8` it is stored in. -/
def is_u8_config (c : dram_config) : Prop :=
  c.cols < 256 ∧ c.rows < 256 ∧ c.banks < 256 ∧ c.bankgrps < 256 ∧ c.ranks < 256

instance (c : dram_config) : Decidable (is_u8_config c) := by
  unfold is_u8_config; infer_instance

/-! ## Size calculator -/

/-- The C expression `1ULL << n`: a 64-bit value. (For `n ≥ 64` the C result is
undefined; the model gives the truncated value.) -/
def shl64 (n : Nat) : Nat := (1 <<< n) % 2 ^ 64

/-- The function `calculate_dram_size`:
`(1ULL << (cols + rows + banks + bankgrps)) * width * (1ULL << ranks)`
with `width = bus_full_width ? 4 : 2`, computed in 64 bits. -/
def calculate_dram_size (config : dram_config) : Nat :=
  let width : Nat := if config.bus_full_width then 4 else 2
  (shl64 (config.cols + config.rows + config.banks + config.bankgrps) * width % 2 ^ 64
    * shl64 config.ranks) % 2 ^ 64

/-- The descriptor `c'` is `c` with exactly one of cols, rows, banks, bankgrps, ranks
increased, the other four and the bus width unchanged. -/
def raises_one_field (c c' : dram_config) : Prop :=
  c'.bus_full_width = c.bus_full_width ∧
  ((c.cols < c'.cols ∧ c'.rows = c.rows ∧ c'.banks = c.banks ∧ c'.bankgrps = c.bankgrps ∧
      c'.ranks = c.ranks) ∨
   (c'.cols = c.cols ∧ c.rows < c'.rows ∧ c'.banks = c.banks ∧ c'.bankgrps = c.bankgrps ∧
      c'.ranks = c.ranks) ∨
   (c'.cols = c.cols ∧ c'.rows = c.rows ∧ c.banks < c'.banks ∧ c'.bankgrps = c.bankgrps ∧
      c'.ranks = c.ranks) ∨
   (c'.cols = c.cols ∧ c'.rows = c.rows ∧ c'.banks = c.banks ∧ c.bankgrps < c'.bankgrps ∧
      c'.ranks = c.ranks) ∨
   (c'.cols = c.cols ∧ c'.rows = c.rows ∧ c'.banks = c.banks ∧ c'.bankgrps = c.bankgrps ∧
      c.ranks < c'.ranks))

instance (c c' : dram_config) : Decidable (raises_one_field c c') := by
  unfold raises_one_field; infer_instance

/-! ## Address map -/

/-- The reasons for which `mctl_set_addrmap` calls `panic`, with the offending value. -/
inductive Panic where
  | bankgrps_bits (v : Nat)
  | col_bits (v : Nat)
  | bank_bits (v : Nat)
  | row_bits (v : Nat)
  | rank_bits (v : Nat)
  | bankgrp_bits_switch (v : Nat)
  deriving DecidableEq, Repr

/-- Modelled from the spec: the `ADDRMAPn_*` field macros and the
`ADDRMAP_DISABLED_*` sentinel macros are declared in a header that is not among the
sources. The argument that the driver passes to a field macro is kept as it is
written: either a HIF bit position (`hif pos`), or the reserved sentinel encoding by
which an unused bit position is marked disabled (`disabled`). -/
inductive HifSel where
  | hif (pos : Nat)
  | disabled
  deriving DecidableEq, Repr

/-- The arguments of the field macros in the nine `writel_relaxed` calls of
`mctl_set_addrmap` (registers `addrmap[8]`, `[2]`, `[3]`, `[4]`, `[1]`, `[5]`, `[6]`,
`[7]`, `[0]`), and the value of `offset` at the end of the function. -/
structure addrmap where
  bg0 : HifSel
  bg1 : HifSel
  col2 : HifSel
  col3 : HifSel
  col4 : HifSel
  col5 : HifSel
  col6 : HifSel
  col7 : HifSel
  col8 : HifSel
  col9 : HifSel
  col10 : HifSel
  col11 : HifSel
  bank0 : HifSel
  bank1 : HifSel
  bank2 : HifSel
  row0 : HifSel
  row1 : HifSel
  row2_10 : HifSel
  row11 : HifSel
  row12 : HifSel
  row13 : HifSel
  row14 : HifSel
  row15 : HifSel
  row16 : HifSel
  row17 : HifSel
  cs0 : HifSel
  final_offset : Nat
  deriving DecidableEq, Repr

/-- The constant `INITIAL_HIF_OFFSET`. -/
def INITIAL_HIF_OFFSET : Nat := 3

/-- The body of the loop `for (i = 6; i < 12; i++)`: the value stored in
`hif_bits[i - 6]`. -/
def col_hif_bits (offset col_bits i : Nat) : HifSel :=
  if i < col_bits then .hif (offset + (i - INITIAL_HIF_OFFSET)) else .disabled

/-- The body of the loop `for (i = 12; i < 18; i++)`: the value stored in
`hif_bits[i - 12]`. -/
def row_hif_bits (offset row_bits i : Nat) : HifSel :=
  if i < row_bits then .hif (offset + i) else .disabled

/-- The `switch (bankgrp_bits)`: the two fields written to `addrmap[8]`, or the panic
of the default case. -/
def bankgrp_fields (offset bankgrp_bits : Nat) : Except Panic (HifSel × HifSel) :=
  match bankgrp_bits with
  | 0 => .ok (.disabled, .disabled)
  | 1 => .ok (.hif offset, .disabled)
  | 2 => .ok (.hif offset, .hif (offset + 1))
  | v => .error (.bankgrp_bits_switch v)

/-- The part of `mctl_set_addrmap` after the validation: it starts from
`offset = INITIAL_HIF_OFFSET` and allocates bank groups, columns, banks, rows and the
rank bit. No `unsigned int` wraps here, the widths having passed the validation. -/
def addrmap_alloc (bankgrp_bits col_bits bank_bits row_bits rank_bits : Nat) :
    Except Panic addrmap :=
  let offset := INITIAL_HIF_OFFSET
  match bankgrp_fields offset bankgrp_bits with
  | .error e => .error e
  | .ok (bg0, bg1) =>
    let offset := offset + bankgrp_bits
    let col2 := HifSel.hif 2
    let col3 := HifSel.hif offset
    let col4 := HifSel.hif (offset + 1)
    let col5 := HifSel.hif (offset + 2)
    let hif_col := col_hif_bits offset col_bits
    let offset := bankgrp_bits + col_bits
    let bank0 := HifSel.hif offset
    let bank1 := HifSel.hif (offset + 1)
    let bank2 := if bank_bits = 3 then HifSel.hif (offset + 2) else HifSel.disabled
    let offset := offset + bank_bits
    let row0 := HifSel.hif offset
    let row1 := HifSel.hif (offset + 1)
    let row2_10 := HifSel.hif (offset + 2)
    let row11 := HifSel.hif (offset + 11)
    let hif_row := row_hif_bits offset row_bits
    let offset := offset + row_bits
    let cs0 := if rank_bits = 1 then HifSel.hif offset else HifSel.disabled
    let offset := offset + rank_bits
    .ok {
      bg0 := bg0, bg1 := bg1,
      col2 := col2, col3 := col3, col4 := col4, col5 := col5,
      col6 := hif_col 6, col7 := hif_col 7, col8 := hif_col 8, col9 := hif_col 9,
      col10 := hif_col 10, col11 := hif_col 11,
      bank0 := bank0, bank1 := bank1, bank2 := bank2,
      row0 := row0, row1 := row1, row2_10 := row2_10, row11 := row11,
      row12 := hif_row 12, row13 := hif_row 13, row14 := hif_row 14, row15 := hif_row 15,
      row16 := hif_row 16, row17 := hif_row 17,
      cs0 := cs0,
      final_offset := offset }

/-- The function `mctl_set_addrmap`. The five widths are loaded into `u8` locals,
`col_bits` is decremented (as a `u8`) on a half-width bus, then the five checks run
in the order of the source, each ending in `panic`; only then are the offsets
computed. -/
def mctl_set_addrmap (config : dram_config) : Except Panic addrmap :=
  let bankgrp_bits := config.bankgrps % 256
  let col_bits := config.cols % 256
  let bank_bits := config.banks % 256
  let row_bits := config.rows % 256
  let rank_bits := config.ranks % 256
  let col_bits := if config.bus_full_width then col_bits else (col_bits + 255) % 256
  if bankgrp_bits > 2 then .error (.bankgrps_bits bankgrp_bits)
  else if col_bits < 8 ∨ col_bits > 12 then .error (.col_bits col_bits)
  else if bank_bits < 2 ∨ bank_bits > 3 then .error (.bank_bits bank_bits)
  else if row_bits < 14 ∨ row_bits > 18 then .error (.row_bits row_bits)
  else if rank_bits > 1 then .error (.rank_bits rank_bits)
  else addrmap_alloc bankgrp_bits col_bits bank_bits row_bits rank_bits

/-- A logical DRAM address bit: bank-group bit, column bit, bank bit, row bit, or the
rank (chip-select) bit. -/
inductive addr_bit where
  | bg (g : Nat)
  | col (i : Nat)
  | bank (j : Nat)
  | row (k : Nat)
  | rank
  deriving DecidableEq, Repr

/-- A field that covers several consecutive address bits holds the position of its
first bit; the following bits sit at the following positions. -/
def HifSel.shift : HifSel → Nat → HifSel
  | .hif p, k => .hif (p + k)
  | .disabled, _ => .disabled

/-- The field that governs bank-group bit `g`. -/
def addrmap.bg (m : addrmap) (g : Nat) : HifSel :=
  if g = 0 then m.bg0 else if g = 1 then m.bg1 else .disabled

/-- The field that governs column bit `i`; column bits 0 and 1 are hardwired to HIF
bits 0 and 1 and have no field. -/
def addrmap.col (m : addrmap) (i : Nat) : HifSel :=
  if i = 2 then m.col2 else if i = 3 then m.col3 else if i = 4 then m.col4
  else if i = 5 then m.col5 else if i = 6 then m.col6 else if i = 7 then m.col7
  else if i = 8 then m.col8 else if i = 9 then m.col9 else if i = 10 then m.col10
  else if i = 11 then m.col11 else .disabled

/-- The field that governs bank bit `j`. -/
def addrmap.bank (m : addrmap) (j : Nat) : HifSel :=
  if j = 0 then m.bank0 else if j = 1 then m.bank1 else if j = 2 then m.bank2 else .disabled

/-- The field that governs row bit `k`. Row bits 2 to 10 share the field `ROW2_10`,
which holds the position of row bit 2. -/
def addrmap.row (m : addrmap) (k : Nat) : HifSel :=
  if k = 0 then m.row0 else if k = 1 then m.row1
  else if k ≤ 10 then m.row2_10.shift (k - 2)
  else if k = 11 then m.row11 else if k = 12 then m.row12 else if k = 13 then m.row13
  else if k = 14 then m.row14 else if k = 15 then m.row15 else if k = 16 then m.row16
  else if k = 17 then m.row17 else .disabled

/-- The selection that the map holds for a given address bit. -/
def addrmap.sel (m : addrmap) : addr_bit → HifSel
  | .bg g => m.bg g
  | .col i => m.col i
  | .bank j => m.bank j
  | .row k => m.row k
  | .rank => m.cs0

/-- The address bits whose position the map configures: bank-group bits 0 and 1,
column bits 3 to 11, bank bits 0 to 2, row bits 0 to 17 and the rank bit (column
bit 2 is written with the fixed position 2 and is not configurable). -/
def configurable_bits : List addr_bit :=
  [.bg 0, .bg 1] ++ (List.range' 3 9).map .col ++ (List.range 3).map .bank ++
    (List.range 18).map .row ++ [.rank]

/-- The enabled configurable address bits of a map, each with the HIF position
assigned to it. -/
def addrmap.assigned (m : addrmap) : List (addr_bit × Nat) :=
  configurable_bits.filterMap fun b =>
    match m.sel b with
    | .hif p => some (b, p)
    | .disabled => none

/-- The HIF positions assigned to the enabled configurable address bits. -/
def addrmap.positions (m : addrmap) : List Nat :=
  m.assigned.map Prod.snd

/-- The column count that `mctl_set_addrmap` validates and allocates: `cols` on a
full-width bus, `cols - 1` (in `u8` arithmetic) on a half-width bus. -/
def hif_col_bits (config : dram_config) : Nat :=
  if config.bus_full_width then config.cols % 256 else (config.cols % 256 + 255) % 256

/-! ## ODT map -/

/-- Subtraction of two `u32` values, as a `u32`. -/
def sub32 (a b : Nat) : Nat := (a + 2 ^ 32 - b % 2 ^ 32) % 2 ^ 32

/-- Left shift of a `u32` value, as a `u32`. -/
def shl32 (a n : Nat) : Nat := (a <<< n) % 2 ^ 32

/-- The registers written by `mctl_set_odtmap`: `odtmap`, `odtcfg` and the three
shadow registers that receive the same value as `odtcfg`. -/
structure odt_regs where
  odtmap : Nat
  odtcfg : Nat
  unk_0x2240 : Nat
  unk_0x3240 : Nat
  unk_0x4240 : Nat
  deriving DecidableEq, Repr

/-- The `switch (para->type)` of `mctl_set_odtmap`: the `u32` value `val`. The fields
`para->clk` and `para->mr4` are 32-bit values, and `temp1`, `temp2`, `val` are `u32`:
the product `clk * 7`, the difference `temp2 - temp1` and the shifts wrap at `2^32`. -/
def odtcfg_val (para : dram_para) : Nat :=
  match para.type with
  | .DDR3 => 0x06000400
  | .LPDDR3 =>
    let temp1 := (para.clk * 7) % 2 ^ 32 / 2000
    let temp2 := if para.clk < 400 then 0x3 else 0x4
    (0x400 ||| shl32 (sub32 temp2 temp1) 16) ||| shl32 temp1 24
  | .DDR4 =>
    (0x400 ||| (shl32 para.mr4 10 &&& 0x70000)) |||
      shl32 (((para.mr4 >>> 12) &&& 1) + 6) 24
  | .LPDDR4 => 0x4000400

/-- The function `mctl_set_odtmap`. -/
def mctl_set_odtmap (para : dram_para) (config : dram_config) : odt_regs :=
  let val := odtcfg_val para
  { odtmap := if config.bus_full_width then 0x0201 else 0x0303,
    odtcfg := val,
    unk_0x2240 := val,
    unk_0x3240 := val,
    unk_0x4240 := val }

/-- The ODT value for LPDDR3 as the specification words it:
`0x400 | ((temp2 - temp1) << 16) | (temp1 << 24)` as a 32-bit value, with
`temp1 = floor(clk * 7 / 2000)` and `temp2 = 4` when `clk ≥ 400`, `3` when
`clk < 400`. -/
def odtcfg_lpddr3_stated (clk : Nat) : Nat :=
  let temp1 := clk * 7 / 2000
  let temp2 := if 400 ≤ clk then 0x4 else 0x3
  (0x400 ||| shl32 (sub32 temp2 temp1) 16) ||| shl32 temp1 24

/-! ## Read-calibration retry -/

/-- The loop `for (i = 0; i < 5; i++) if (mctl_phy_read_calibration(config)) break;`
of `mctl_calibrate_phy`. The hardware is an oracle: `read_calibration n` is the
result of the invocation of `mctl_phy_read_calibration` that follows `n` earlier
ones. The loop state is the loop variable `i` and the number `n` of invocations made
so far; the result is that state at loop exit. -/
def read_calibration_loop (read_calibration : Nat → Bool) : Nat → Nat → Nat → Nat × Nat
  | 0, i, n => (i, n)
  | fuel + 1, i, n =>
    if i < 5 then
      if read_calibration n then (i, n + 1)
      else read_calibration_loop read_calibration fuel (i + 1) (n + 1)
    else (i, n)

/-- The function `mctl_calibrate_phy`: its return value and the number of invocations
of `mctl_phy_read_calibration` it made. The delay compensation and the register
writes after the loop do not influence either and are left out; the final
`mctl_await_completion` is taken to complete. -/
def mctl_calibrate_phy (read_calibration : dram_config → Nat → Bool) (para : dram_para)
    (config : dram_config) : Bool × Nat :=
  if para.tpr10_read_calibration then
    let r := read_calibration_loop (read_calibration config) 5 0 0
    if r.1 = 5 then (false, r.2) else (true, r.2)
  else (true, 0)

/-! ## Bring-up and auto-detection -/

/-- The hardware as the detection engine observes it. Both oracles see the list of
descriptors with which the controller has been brought up so far, the most recent
first (the head is the one currently programmed).

* `read_calibration programmed config n` is the result of the invocation of
  `mctl_phy_read_calibration` that follows `n` earlier ones within the bring-up of
  `config`.
* `mem_matches programmed offset` is the result of `mctl_mem_matches(offset)`. That
  helper is defined outside the sources at hand; it is true when the word written at
  the probed offset reads back at address 0 as well, that is, when the probed offset
  aliases address 0. -/
structure Hw where
  read_calibration : List dram_config → dram_config → Nat → Bool
  mem_matches : List dram_config → Nat → Bool

/-- The function `mctl_core_init`: clock, controller (`mctl_com_init`, which calls
`mctl_set_addrmap` and so may panic), PHY and DFI initialisation, then the result of
`mctl_calibrate_phy`. The status polls of the initialisation are taken to complete.
The descriptor is put in front of the list of bring-ups. -/
def mctl_core_init (hw : Hw) (para : dram_para) (config : dram_config)
    (programmed : List dram_config) : Except Panic (Bool × List dram_config) :=
  match mctl_set_addrmap config with
  | .error e => .error e
  | .ok _ =>
    .ok ((mctl_calibrate_phy (hw.read_calibration programmed) para config).1,
      config :: programmed)

/-- The loop `for (i = 1; i >= 0; i--)` of `auto_detect_ranks`; the first argument is
`i + 1`, so that `0` is the loop exit. -/
def auto_detect_ranks_loop (hw : Hw) (para : dram_para) :
    Nat → dram_config → List dram_config → Except Panic (dram_config × List dram_config)
  | 0, config, programmed => .ok (config, programmed)
  | i + 1, config, programmed =>
    let config := { config with ranks := i, bus_full_width := true }
    match mctl_core_init hw para config programmed with
    | .error e => .error e
    | .ok (true, programmed) => .ok (config, programmed)
    | .ok (false, programmed) =>
      let config := { config with bus_full_width := false }
      match mctl_core_init hw para config programmed with
      | .error e => .error e
      | .ok (true, programmed) => .ok (config, programmed)
      | .ok (false, programmed) => auto_detect_ranks_loop hw para i config programmed

/-- The function `auto_detect_ranks`. -/
def auto_detect_ranks (hw : Hw) (para : dram_para) (config : dram_config)
    (programmed : List dram_config) : Except Panic (dram_config × List dram_config) :=
  let config := { config with cols := 9, rows := 14, banks := 2, bankgrps := 0 }
  auto_detect_ranks_loop hw para 2 config programmed

/-- A probe loop of `mctl_auto_detect_dram_size`,
`for (w = lo; w < hi; w++) if (mctl_mem_matches(1ULL << (w + shift))) break;`,
started at `w` with `fuel` iterations allowed; the result is the width at loop
exit. -/
def probe_loop (mem_matches : Nat → Bool) (shift hi : Nat) : Nat → Nat → Nat
  | 0, w => w
  | fuel + 1, w =>
    if w < hi then
      if mem_matches (shl64 (w + shift)) then w
      else probe_loop mem_matches shift hi fuel (w + 1)
    else w

/-- The column probe: `for (config->cols = 8; config->cols < 12; config->cols++)`. -/
def detect_cols (mem_matches : Nat → Bool) (shift : Nat) : Nat :=
  probe_loop mem_matches shift 12 4 8

/-- The bank probe: `for (config->banks = 2; config->banks < 3; config->banks++)`. -/
def detect_banks (mem_matches : Nat → Bool) (shift : Nat) : Nat :=
  probe_loop mem_matches shift 3 1 2

/-- The row probe: `for (config->rows = 14; config->rows < 18; config->rows++)`. -/
def detect_rows (mem_matches : Nat → Bool) (shift : Nat) : Nat :=
  probe_loop mem_matches shift 18 4 14

/-- The bank-group step of `mctl_auto_detect_dram_size`: on DDR4 a bring-up with
`bankgrps = 2` and the probe at `1ULL << (shift + 4)`, otherwise `bankgrps = 0`. -/
def detect_bankgrps (hw : Hw) (para : dram_para) (config : dram_config)
    (programmed : List dram_config) (shift : Nat) :
    Except Panic (dram_config × List dram_config) :=
  if para.type = .DDR4 then
    let config := { config with bankgrps := 2 }
    match mctl_core_init hw para config programmed with
    | .error e => .error e
    | .ok (_, programmed) =>
      if hw.mem_matches programmed (shl64 (shift + 4)) then
        .ok ({ config with bankgrps := 1 }, programmed)
      else .ok (config, programmed)
  else .ok ({ config with bankgrps := 0 }, programmed)

/-- The function `mctl_auto_detect_dram_size`. The results of its bring-ups are
ignored, as in the source; a panic inside one ends the run. -/
def mctl_auto_detect_dram_size (hw : Hw) (para : dram_para) (config : dram_config)
    (programmed : List dram_config) : Except Panic (dram_config × List dram_config) :=
  let config := { config with cols := 8, banks := 2, rows := 14 }
  let shift := 1 + (if config.bus_full_width then 1 else 0)
  match detect_bankgrps hw para config programmed shift with
  | .error e => .error e
  | .ok (config, programmed) =>
    let config := { config with cols := 12 }
    match mctl_core_init hw para config programmed with
    | .error e => .error e
    | .ok (_, programmed) =>
      let shift := 1 + (if config.bus_full_width then 1 else 0) + config.bankgrps
      let config := { config with cols := detect_cols (hw.mem_matches programmed) shift }
      let config := { config with banks := 3 }
      match mctl_core_init hw para config programmed with
      | .error e => .error e
      | .ok (_, programmed) =>
        let shift := shift + config.cols
        let config :=
          { config with banks := detect_banks (hw.mem_matches programmed) shift }
        let config := { config with rows := 18 }
        match mctl_core_init hw para config programmed with
        | .error e => .error e
        | .ok (_, programmed) =>
          let shift := shift + config.banks
          let config :=
            { config with rows := detect_rows (hw.mem_matches programmed) shift }
          .ok (config, programmed)

/-- The loop of `mctl_auto_detect_dram_size` in which a probe is made. -/
inductive probe_kind where
  | bankgrp
  | col
  | bank
  | row
  deriving DecidableEq, Repr

/-- One call of `mctl_mem_matches` by `mctl_auto_detect_dram_size`: the loop that makes
it, the candidate width `w` of that loop at the call (for the bank-group step the
candidate 1 that the step selects when the call returns true), the bring-ups made
before the call (the most recent first) and the byte offset passed to the call. -/
structure probe where
  kind : probe_kind
  width : Nat
  programmed : List dram_config
  offset : Nat
  deriving DecidableEq, Repr

/-- The probe loop `probe_loop` together with the calls of `mctl_mem_matches` it makes,
in the order in which it makes them. -/
def probe_loop_traced (hw : Hw) (programmed : List dram_config) (kind : probe_kind)
    (shift hi : Nat) : Nat → Nat → Nat × List probe
  | 0, w => (w, [])
  | fuel + 1, w =>
    if w < hi then
      let pr : probe := ⟨kind, w, programmed, shl64 (w + shift)⟩
      if hw.mem_matches pr.programmed pr.offset then (w, [pr])
      else
        let r := probe_loop_traced hw programmed kind shift hi fuel (w + 1)
        (r.1, pr :: r.2)
    else (w, [])

/-- The bank-group step `detect_bankgrps` together with the call of `mctl_mem_matches`
it makes. -/
def detect_bankgrps_traced (hw : Hw) (para : dram_para) (config : dram_config)
    (programmed : List dram_config) (shift : Nat) :
    Except Panic (dram_config × List dram_config) × List probe :=
  if para.type = .DDR4 then
    let config := { config with bankgrps := 2 }
    match mctl_core_init hw para config programmed with
    | .error e => (.error e, [])
    | .ok (_, programmed) =>
      let pr : probe := ⟨.bankgrp, 1, programmed, shl64 (shift + 4)⟩
      if hw.mem_matches pr.programmed pr.offset then
        (.ok ({ config with bankgrps := 1 }, programmed), [pr])
      else (.ok (config, programmed), [pr])
  else (.ok ({ config with bankgrps := 0 }, programmed), [])

/-- The function `mctl_auto_detect_dram_size` together with the calls of
`mctl_mem_matches` it makes, in the order in which it makes them; a run that ends in a
panic keeps the calls made before the panic. -/
def mctl_auto_detect_dram_size_traced (hw : Hw) (para : dram_para) (config : dram_config)
    (programmed : List dram_config) :
    Except Panic (dram_config × List dram_config) × List probe :=
  let config := { config with cols := 8, banks := 2, rows := 14 }
  let shift := 1 + (if config.bus_full_width then 1 else 0)
  match detect_bankgrps_traced hw para config programmed shift with
  | (.error e, tr) => (.error e, tr)
  | (.ok (config, programmed), tr) =>
    let config := { config with cols := 12 }
    match mctl_core_init hw para config programmed with
    | .error e => (.error e, tr)
    | .ok (_, programmed) =>
      let shift := 1 + (if config.bus_full_width then 1 else 0) + config.bankgrps
      let r := probe_loop_traced hw programmed .col shift 12 4 8
      let tr := tr ++ r.2
      let config := { config with cols := r.1 }
      let config := { config with banks := 3 }
      match mctl_core_init hw para config programmed with
      | .error e => (.error e, tr)
      | .ok (_, programmed) =>
        let shift := shift + config.cols
        let r := probe_loop_traced hw programmed .bank shift 3 1 2
        let tr := tr ++ r.2
        let config := { config with banks := r.1 }
        let config := { config with rows := 18 }
        match mctl_core_init hw para config programmed with
        | .error e => (.error e, tr)
        | .ok (_, programmed) =>
          let shift := shift + config.banks
          let r := probe_loop_traced hw programmed .row shift 18 4 14
          let tr := tr ++ r.2
          let config := { config with rows := r.1 }
          (.ok (config, programmed), tr)

/-- The address bit that a probe tests, in the words of the specification: for
candidate width `w`, column bit `w` (HIF column index `w - 1` on a half-width bus),
bank bit `w`, row bit `w`; for the bank-group step, bank-group bit 1. -/
def bit_under_test (kind : probe_kind) (w : Nat) (bus_full_width : Bool) : addr_bit :=
  match kind with
  | .bankgrp => .bg w
  | .col => .col (if bus_full_width then w else w - 1)
  | .bank => .bank w
  | .row => .row w

/-- A probe agrees with the address map: the descriptor `d` of the bring-up made just
before it was accepted by `mctl_set_addrmap`, has the bus width `fw` and the geometry
of its loop (`cols = 12`, `banks = 3`, `rows = 18`, or `bankgrps = 2` on a full-width
bus), the probed offset is `1 << (w + shift)` with the shift of that loop
(`1 << (shift + 4)` for the bank-group step), and it equals `4 * 2^p` for `p` the HIF
position that the map of `d` gives the address bit under test. -/
def probe_agrees (fw : Bool) (pr : probe) : Prop :=
  ∃ d rest m p,
    pr.programmed = d :: rest ∧ d.bus_full_width = fw ∧ mctl_set_addrmap d = .ok m ∧
    m.sel (bit_under_test pr.kind pr.width fw) = .hif p ∧ pr.offset = 4 * 2 ^ p ∧
    match pr.kind with
    | .bankgrp => d.bankgrps = 2 ∧ fw = true ∧ pr.width = 1 ∧ pr.offset = shl64 (2 + 4)
    | .col => d.cols = 12 ∧ 8 ≤ pr.width ∧ pr.width < 12 ∧
        pr.offset = shl64 (pr.width + (1 + (if fw then 1 else 0) + d.bankgrps))
    | .bank => d.banks = 3 ∧ pr.width = 2 ∧
        pr.offset = shl64 (pr.width + (1 + (if fw then 1 else 0) + d.bankgrps + d.cols))
    | .row => d.rows = 18 ∧ 14 ≤ pr.width ∧ pr.width < 18 ∧
        pr.offset =
          shl64 (pr.width + (1 + (if fw then 1 else 0) + d.bankgrps + d.cols + d.banks))

/-- A hardware on which every read calibration succeeds and an offset aliases
address 0 exactly from 4 KiB on. -/
def hw_alias_from_4k : Hw :=
  { read_calibration := fun _ _ _ => true, mem_matches := fun _ offset => decide (4096 ≤ offset) }

/-- The first two steps of `sunxi_dram_init`: `auto_detect_ranks` followed by
`mctl_auto_detect_dram_size`, on the descriptor left by the former. -/
def detect_geometry (hw : Hw) (para : dram_para) (config : dram_config)
    (programmed : List dram_config) : Except Panic (dram_config × List dram_config) :=
  match auto_detect_ranks hw para config programmed with
  | .error e => .error e
  | .ok (config, programmed) => mctl_auto_detect_dram_size hw para config programmed

/-- The result of a probe as the specification words it: the smallest candidate width
in `[lo, hi)` for which the aliasing test fails (the probed offset does not alias
address 0), and `hi` when there is none. -/
def smallest_non_aliasing (mem_matches : Nat → Bool) (shift lo hi : Nat) : Nat :=
  ((List.range' lo (hi - lo)).find? fun w => !mem_matches (shl64 (w + shift))).getD hi

/-- A hardware on which every read-calibration run succeeds at once. -/
def always_calibrates : List dram_config → dram_config → Nat → Bool :=
  fun _ _ _ => true

/-! ### A synthetic memory of known geometry -/

/-- Whether an address bit is wired in a memory of geometry `T`. -/
def wired (T : dram_config) : addr_bit → Bool
  | .bg g => decide (g < T.bankgrps)
  | .col i => decide (i < T.cols)
  | .bank j => decide (j < T.banks)
  | .row k => decide (k < T.rows)
  | .rank => decide (0 < T.ranks)

/-- Whether HIF bit `p` of a word address reaches the memory of geometry `T` under
the map `m`: HIF bits 0 and 1 are hardwired to column bits 0 and 1; any other HIF bit
reaches the memory when the map assigns it to an address bit that `T` has. -/
def hif_bit_wired (T : dram_config) (m : addrmap) (p : Nat) : Bool :=
  decide (p < 2) ||
    ((addr_bit.col 2 :: configurable_bits).any fun b => m.sel b == .hif p && wired T b)

/-- A synthetic full-width memory of geometry `T` behind the currently programmed
address map, as `mctl_mem_matches` sees it: the byte offset `offset` (word address
`offset / 4`) aliases address 0 exactly when none of the HIF bits set in its word
address reaches the memory. For a probe that sets one address bit this is: the
probed address aliases address 0 exactly when that bit is not wired in `T`. -/
def synthetic_mem_matches (T : dram_config) (programmed : List dram_config)
    (offset : Nat) : Bool :=
  match programmed.head? with
  | none => false
  | some P =>
    match mctl_set_addrmap P with
    | .error _ => false
    | .ok m =>
      offset % 4 == 0 &&
        (List.range 62).all fun p => !(offset / 4).testBit p || !hif_bit_wired T m p

/-! ## Rank hypotheses and the whole of `sunxi_dram_init` -/

/-- The `k`-th hypothesis that `auto_detect_ranks` tries: (2 ranks, full width),
(2 ranks, half width), (1 rank, full width), (1 rank, half width), each with
cols 9, rows 14, banks 2, bankgrps 0. -/
def rank_hypothesis : Nat → dram_config
  | 0 => ⟨9, 14, 2, 0, 1, true⟩
  | 1 => ⟨9, 14, 2, 0, 1, false⟩
  | 2 => ⟨9, 14, 2, 0, 0, true⟩
  | _ => ⟨9, 14, 2, 0, 0, false⟩

/-- The result of the bring-up of a descriptor after the bring-ups in `programmed`:
the return value of `mctl_calibrate_phy` at the end of `mctl_core_init`. -/
def bringup_succeeds (hw : Hw) (para : dram_para) (programmed : List dram_config)
    (config : dram_config) : Bool :=
  (mctl_calibrate_phy (hw.read_calibration programmed) para config).1

/-- The function `sunxi_dram_init`: the capacity it returns, or the panic that ends
it. The descriptor `config` stands for the uninitialised local, the board parameters
for the static `para`. `simple_wr_test programmed size` is the result of
`libdram_dramc_simple_wr_test(size, 16384)`, true when the test reports a failure
(a non-zero return). The two writes to the SYS_CFG area are left out. -/
def sunxi_dram_init (hw : Hw) (simple_wr_test : List dram_config → Nat → Bool)
    (para : dram_para) (config : dram_config) : Except Panic Nat :=
  match auto_detect_ranks hw para config [] with
  | .error e => .error e
  | .ok (config, programmed) =>
    match mctl_auto_detect_dram_size hw para config programmed with
    | .error e => .error e
    | .ok (config, programmed) =>
      match mctl_core_init hw para config programmed with
      | .error e => .error e
      | .ok (false, _) => .ok 0
      | .ok (true, programmed) =>
        let size := calculate_dram_size config
        if simple_wr_test programmed size then .ok 0 else .ok size

/-- A hardware on which every read-calibration run fails. -/
def never_calibrates : List dram_config → dram_config → Nat → Bool :=
  fun _ _ _ => false

/-- A hardware on which read calibration succeeds exactly on a half-width bus. -/
def calibrates_half_width : List dram_config → dram_config → Nat → Bool :=
  fun _ config _ => !config.bus_full_width

/-! ## PHY register operations -/

/-- A register update of the PHY, as the driver issues it; offsets are byte offsets
from `SUNXI_DRAM_PHY0_BASE`. `clrsetbits`, `setbits` and `clrbits` are the
read-modify-write helpers `clrsetbits_le32`, `setbits_le32`, `clrbits_le32`; `write`
is `writel_relaxed`. -/
inductive phy_op where
  | clrsetbits (off clr set : Nat)
  | setbits (off set : Nat)
  | clrbits (off clr : Nat)
  | write (off val : Nat)
  deriving DecidableEq, Repr

/-- The register that an update writes. -/
def phy_op.offset : phy_op → Nat
  | .clrsetbits off _ _ => off
  | .setbits off _ => off
  | .clrbits off _ => off
  | .write off _ => off

/-- The effect of an update on the 32-bit registers: `clrsetbits` stores
`(old & ~clr) | set`, `setbits` stores `old | set`, `clrbits` stores `old & ~clr`,
`write` stores the value. -/
def phy_op.apply (regs : Nat → Nat) : phy_op → Nat → Nat
  | .clrsetbits off clr set => fun o =>
    if o = off then (regs off &&& (0xFFFFFFFF ^^^ clr)) ||| set else regs o
  | .setbits off set => fun o => if o = off then regs off ||| set else regs o
  | .clrbits off clr => fun o => if o = off then regs off &&& (0xFFFFFFFF ^^^ clr) else regs o
  | .write off val => fun o => if o = off then val else regs o

/-- The registers after a sequence of updates, issued from left to right. -/
def run_ops (regs : Nat → Nat) (ops : List phy_op) : Nat → Nat :=
  ops.foldl phy_op.apply regs

/-! ## Read calibration -/

/-- What the PHY returns during one invocation of `mctl_phy_read_calibration`:
`status k` is the value of the `k`-th read of the status register at `0x184`, the
other four are the calibration readouts at `0x274`, `0x26c`, `0x32c`, `0x334`. -/
structure phy_readback where
  status : Nat → Nat
  cal_0x274 : Nat
  cal_0x26c : Nat
  cal_0x32c : Nat
  cal_0x334 : Nat

/-- The polling loop
`while ((readl(0x184) & val) != val) { if (readl(0x184) & 0x20) { result = false; break; } }`
started at read number `k`: whether it left without seeing the failure flag, and the
number of the next read; `none` when the fuel runs out before the loop leaves. -/
def poll_calibration (status : Nat → Nat) (val : Nat) : Nat → Nat → Option (Bool × Nat)
  | 0, _ => none
  | fuel + 1, k =>
    if status k &&& val = val then some (true, k + 1)
    else if status (k + 1) &&& 0x20 ≠ 0 then some (false, k + 2)
    else poll_calibration status val fuel (k + 2)

/-- The maximum of the four readouts as the source computes it: `val = a & 7`, then
three times `tmp = x & 7; if (val < tmp) val = tmp;`. -/
def calibration_max (hw : phy_readback) : Nat :=
  let val := hw.cal_0x274 &&& 7
  let tmp := hw.cal_0x26c &&& 7
  let val := if val < tmp then tmp else val
  let tmp := hw.cal_0x32c &&& 7
  let val := if val < tmp then tmp else val
  let tmp := hw.cal_0x334 &&& 7
  if val < tmp then tmp else val

/-- The function `mctl_phy_read_calibration`: its return value and the register
updates it issues, in order; `none` when a polling loop does not leave within the
fuel. -/
def mctl_phy_read_calibration (hw : phy_readback) (config : dram_config) (fuel : Nat) :
    Option (Bool × List phy_op) :=
  let val := if config.bus_full_width then 0xf else 3
  match poll_calibration hw.status val fuel 0 with
  | none => none
  | some (ok1, k) =>
    let pass1 : List phy_op :=
      [.clrsetbits 8 0x30 0x20, .setbits 8 1, .clrbits 8 1, .clrbits 8 0x30]
    let second : Option (Bool × List phy_op) :=
      if config.ranks = 1 then
        match poll_calibration hw.status val fuel k with
        | none => none
        | some (ok2, _) => some (ok2, [.clrsetbits 8 0x30 0x10, .setbits 8 1, .clrbits 8 1])
      else some (true, [])
    match second with
    | none => none
    | some (ok2, pass2) =>
      some (ok1 && ok2,
        pass1 ++ pass2 ++
          [.clrbits 8 0x30, .clrsetbits 0x38 0x7 ((calibration_max hw + 2) &&& 7),
           .setbits 4 0x20])

/-- The status register lets every polling loop leave: from any read on, some read
of the loop condition shows all lanes of `val` done, or the read after it shows the
failure flag. -/
def polls_settle (status : Nat → Nat) (val : Nat) : Prop :=
  ∀ k, ∃ j, status (k + 2 * j) &&& val = val ∨ status (k + 2 * j + 1) &&& 0x20 ≠ 0

/-- A PHY whose status register shows all lanes done at every read. -/
def phy_done (a b c d : Nat) : phy_readback :=
  { status := fun _ => 0xf, cal_0x274 := a, cal_0x26c := b, cal_0x32c := c, cal_0x334 := d }

/-! ## Data-lane delay compensation -/

/-- The delay-compensation part of the board parameters `struct dram_para`: the truth
values of `para->tpr10 & TPR10_DX_BIT_DELAY1` and `para->tpr10 & TPR10_DX_BIT_DELAY0`
(the masks are declared in a header that is not part of the sources at hand) and the
packed parameter words. -/
structure dx_delay_para where
  tpr10_dx_bit_delay1 : Bool
  tpr10_dx_bit_delay0 : Bool
  tpr11 : Nat
  tpr12 : Nat
  tpr14 : Nat
  para0 : Nat
  deriving DecidableEq, Repr

/-- The loop `for (int i = 0; i < 9; i++) { writel(val1, ptr); writel(val1, ptr + 0x30);
ptr += 2; }` shared by both inner functions, with `n` iterations left: the writes and
the final `ptr`. The pointer is a `u32 *`, so one step is 4 bytes. -/
def dx_delay_loop (val1 : Nat) : Nat → Nat → List phy_op × Nat
  | 0, ptr => ([], ptr)
  | n + 1, ptr =>
    let r := dx_delay_loop val1 n (ptr + 2 * 4)
    (.write ptr val1 :: .write (ptr + 0x30 * 4) val1 :: r.1, r.2)

/-- The function `mctl_phy_dx_delay1_inner`. -/
def mctl_phy_dx_delay1_inner (base val1 val2 : Nat) : List phy_op :=
  let r := dx_delay_loop val1 9 base
  let ptr := r.2
  r.1 ++ [.write (ptr + 1 * 4) val2, .write (ptr + 49 * 4) val2, .write ptr val2,
    .write (ptr + 48 * 4) val2]

/-- The function `mctl_phy_dx_delay0_inner`. -/
def mctl_phy_dx_delay0_inner (base1 base2 val1 val2 : Nat) : List phy_op :=
  let r := dx_delay_loop val1 9 base1
  let ptr := r.2
  r.1 ++ [.write base2 val2, .write (base2 + 48 * 4) val2, .write ptr val2,
    .write (base2 + 44 * 4) val2]

/-- The control-bit updates of the 'bit delay 1' branch of
`mctl_phy_dx_delay_compensation`, before and after the lane calls. -/
def dx_bit_delay1_control (para : dram_para) : List phy_op × List phy_op :=
  ([.clrbits 0x60 1, .setbits 8 (1 <<< 3), .clrbits 0x190 (1 <<< 4)] ++
      (if para.type = .DDR4 then [.clrbits 0x4 (1 <<< 7)] else []),
   [.setbits 0x60 1])

/-- The four lane calls of the 'bit delay 1' branch; `lane` counts the calls from 0. -/
def dx_bit_delay1_lane (dx : dx_delay_para) (lane : Nat) : List phy_op :=
  match lane with
  | 0 => mctl_phy_dx_delay1_inner 0x484 (dx.tpr11 &&& 0x3f) (dx.para0 &&& 0x3f)
  | 1 => mctl_phy_dx_delay1_inner 0x4d8 ((dx.tpr11 >>> 8) &&& 0x3f) ((dx.para0 >>> 8) &&& 0x3f)
  | 2 => mctl_phy_dx_delay1_inner 0x604 ((dx.tpr11 >>> 16) &&& 0x3f)
      ((dx.para0 >>> 16) &&& 0x3f)
  | 3 => mctl_phy_dx_delay1_inner 0x658 ((dx.tpr11 >>> 24) &&& 0x3f)
      ((dx.para0 >>> 24) &&& 0x3f)
  | _ => []

/-- The 'bit delay 1' branch of `mctl_phy_dx_delay_compensation`. -/
def dx_bit_delay1_ops (para : dram_para) (dx : dx_delay_para) : List phy_op :=
  (dx_bit_delay1_control para).1 ++ dx_bit_delay1_lane dx 0 ++ dx_bit_delay1_lane dx 1 ++
    dx_bit_delay1_lane dx 2 ++ dx_bit_delay1_lane dx 3 ++ (dx_bit_delay1_control para).2

/-- The control-bit updates of the 'bit delay 0' branch, before and after the lane
calls. -/
def dx_bit_delay0_control : List phy_op × List phy_op :=
  ([.clrbits 0x54 (1 <<< 7), .clrbits 0x190 (1 <<< 2)], [.setbits 0x54 (1 <<< 7)])

/-- The four lane calls of the 'bit delay 0' branch, with the arguments of the
source; `lane` counts the calls from 0. -/
def dx_bit_delay0_lane (dx : dx_delay_para) (lane : Nat) : List phy_op :=
  match lane with
  | 0 => mctl_phy_dx_delay0_inner 0x480 0x528 (dx.tpr12 &&& 0x3f) (dx.tpr14 &&& 0x3f)
  | 1 => mctl_phy_dx_delay0_inner 0x4d4 0x52c ((dx.tpr12 >>> 8) &&& 0x3f)
      ((dx.tpr14 >>> 8) &&& 0x3f)
  | 2 => mctl_phy_dx_delay0_inner 0x600 0x6a8 ((dx.tpr12 >>> 16) &&& 0x3f)
      ((dx.tpr14 >>> 16) &&& 0x3f)
  | 3 => mctl_phy_dx_delay0_inner 0x6ac 0x528 ((dx.tpr12 >>> 24) &&& 0x3f)
      ((dx.tpr14 >>> 24) &&& 0x3f)
  | _ => []

/-- The 'bit delay 0' branch of `mctl_phy_dx_delay_compensation`. -/
def dx_bit_delay0_ops (dx : dx_delay_para) : List phy_op :=
  dx_bit_delay0_control.1 ++ dx_bit_delay0_lane dx 0 ++ dx_bit_delay0_lane dx 1 ++
    dx_bit_delay0_lane dx 2 ++ dx_bit_delay0_lane dx 3 ++ dx_bit_delay0_control.2

/-- The function `mctl_phy_dx_delay_compensation`: the register updates it issues. -/
def mctl_phy_dx_delay_compensation (para : dram_para) (dx : dx_delay_para) : List phy_op :=
  (if dx.tpr10_dx_bit_delay1 then dx_bit_delay1_ops para dx else []) ++
    (if dx.tpr10_dx_bit_delay0 then dx_bit_delay0_ops dx else [])

/-- The register offsets that a sequence of updates writes. -/
def written_offsets (ops : List phy_op) : List Nat :=
  ops.map phy_op.offset

/-- The offsets of the first list that the second list has too, in the order of the
first. -/
def common_offsets (l1 l2 : List Nat) : List Nat :=
  l1.filter fun o => decide (o ∈ l2)

/-- Delay parameters with both modes enabled and all delay values zero. -/
def dx_zero : dx_delay_para := ⟨true, true, 0, 0, 0, 0⟩

/-- Delay parameters with only the 'bit delay 0' mode enabled, whose `tpr14` gives
lane 0 the value 3 (byte 0) and lane 3 the value 5 (byte 3). -/
def dx_lane_clash : dx_delay_para := ⟨false, true, 0, 0, 0x05000003, 0⟩

/-- Delay parameters with both modes enabled: `tpr11` gives lane 3 of the 'bit
delay 1' mode the value `0x11` (byte 3) and `tpr14` gives lane 2 of the 'bit delay 0'
mode the value `0x22` (byte 2). -/
def dx_mode_clash : dx_delay_para := ⟨true, true, 0x11000000, 0, 0x220000, 0⟩

/-! ## Theorems -/

theorem shl64_of_lt {n : Nat} (h : n < 64) : shl64 n = 2 ^ n := by
  unfold shl64
  rw [Nat.one_shiftLeft]
  exact Nat.mod_eq_of_lt (Nat.pow_lt_pow_right (by norm_num) h)

/-- The size equals the unbounded product whenever the exponents leave room for the
word width inside 64 bits. -/
theorem calculate_dram_size_exact (c : dram_config)
    (h : c.cols + c.rows + c.banks + c.bankgrps + c.ranks + 2 < 64) :
    calculate_dram_size c =
      2 ^ (c.cols + c.rows + c.banks + c.bankgrps) * (if c.bus_full_width then 4 else 2)
        * 2 ^ c.ranks ∧
    2 ^ (c.cols + c.rows + c.banks + c.bankgrps) * (if c.bus_full_width then 4 else 2)
        * 2 ^ c.ranks < 2 ^ 64 := by
  have hw : (if c.bus_full_width then 4 else 2) ≤ 2 ^ 2 := by split <;> norm_num
  have hbig : 2 ^ (c.cols + c.rows + c.banks + c.bankgrps) * (if c.bus_full_width then 4 else 2)
        * 2 ^ c.ranks < 2 ^ 64 := by
    calc 2 ^ (c.cols + c.rows + c.banks + c.bankgrps) * (if c.bus_full_width then 4 else 2)
          * 2 ^ c.ranks
        ≤ 2 ^ (c.cols + c.rows + c.banks + c.bankgrps) * 2 ^ 2 * 2 ^ c.ranks := by gcongr
      _ = 2 ^ (c.cols + c.rows + c.banks + c.bankgrps + c.ranks + 2) := by ring
      _ < 2 ^ 64 := Nat.pow_lt_pow_right (by norm_num) h
  have hr : 0 < 2 ^ c.ranks := by positivity
  have hmid : 2 ^ (c.cols + c.rows + c.banks + c.bankgrps) * (if c.bus_full_width then 4 else 2)
      < 2 ^ 64 :=
    lt_of_le_of_lt (Nat.le_mul_of_pos_right _ hr) hbig
  refine ⟨?_, hbig⟩
  unfold calculate_dram_size
  simp only
  rw [shl64_of_lt (by omega), shl64_of_lt (by omega), Nat.mod_eq_of_lt hmid,
    Nat.mod_eq_of_lt hbig]

/-- C1: within the documented bounds `calculate_dram_size` returns exactly
`2^(cols+rows+banks+bankgrps) * w * 2^ranks` with `w = 4` on a full-width bus and
`w = 2` otherwise, and that product is below `2^64`. -/
theorem calculate_dram_size_in_bounds (c : dram_config) (h : in_bounds c) :
    calculate_dram_size c =
      2 ^ (c.cols + c.rows + c.banks + c.bankgrps) * (if c.bus_full_width then 4 else 2)
        * 2 ^ c.ranks ∧
    2 ^ (c.cols + c.rows + c.banks + c.bankgrps) * (if c.bus_full_width then 4 else 2)
        * 2 ^ c.ranks < 2 ^ 64 := by
  obtain ⟨h1, h2, h3, h4, h5, h6, h7, h8⟩ := h
  exact calculate_dram_size_exact c (by omega)

theorem calculate_dram_size_in_bounds_witness :
    in_bounds ⟨10, 16, 3, 2, 1, true⟩ ∧
    calculate_dram_size ⟨10, 16, 3, 2, 1, true⟩ = 2 ^ (10 + 16 + 3 + 2) * 4 * 2 ^ 1 :=
  ⟨by decide, (calculate_dram_size_in_bounds ⟨10, 16, 3, 2, 1, true⟩ (by decide)).1⟩

/-- C2 as stated fails: raising bankgrps from 28 to 29 (cols 12, rows 18, banks 3,
one rank, full width; every shift count stays below 64) takes the returned size from
`2^63` down to `0`, because `2^62 * 4` wraps in 64 bits. -/
theorem calculate_dram_size_not_monotone :
    raises_one_field ⟨12, 18, 3, 28, 0, true⟩ ⟨12, 18, 3, 29, 0, true⟩ ∧
    is_u8_config ⟨12, 18, 3, 29, 0, true⟩ ∧
    calculate_dram_size ⟨12, 18, 3, 28, 0, true⟩ = 2 ^ 63 ∧
    calculate_dram_size ⟨12, 18, 3, 29, 0, true⟩ = 0 ∧
    ¬ (calculate_dram_size ⟨12, 18, 3, 28, 0, true⟩ ≤
        calculate_dram_size ⟨12, 18, 3, 29, 0, true⟩) := by
  refine ⟨by decide, by decide, ?_, ?_, ?_⟩ <;>
    simp [calculate_dram_size, shl64, Nat.shiftLeft_eq]

/-- C2 (amended): when the larger descriptor leaves room for the word width inside 64
bits (`cols + rows + banks + bankgrps + ranks + 2 < 64`, which every descriptor within
the documented bounds satisfies), raising any one of cols, rows, banks, bankgrps, ranks
with the other fields and the bus width fixed strictly increases `calculate_dram_size`. -/
theorem calculate_dram_size_strict_mono (c c' : dram_config)
    (hfit : c'.cols + c'.rows + c'.banks + c'.bankgrps + c'.ranks + 2 < 64)
    (h : raises_one_field c c') :
    calculate_dram_size c < calculate_dram_size c' := by
  obtain ⟨hw, hcases⟩ := h
  have hsum : c.cols + c.rows + c.banks + c.bankgrps + c.ranks
      < c'.cols + c'.rows + c'.banks + c'.bankgrps + c'.ranks := by
    rcases hcases with h | h | h | h | h <;> omega
  rw [(calculate_dram_size_exact c (by omega)).1, (calculate_dram_size_exact c' hfit).1, hw]
  have hwpos : 0 < (if c.bus_full_width then 4 else 2) := by split <;> norm_num
  have e : ∀ s r w : Nat, 2 ^ s * w * 2 ^ r = w * 2 ^ (s + r) := by
    intro s r w; rw [pow_add]; ring
  rw [e, e]
  apply Nat.mul_lt_mul_of_pos_left _ hwpos
  apply Nat.pow_lt_pow_right (by norm_num)
  omega

theorem calculate_dram_size_strict_mono_witness :
    raises_one_field ⟨10, 16, 3, 1, 1, true⟩ ⟨10, 16, 3, 2, 1, true⟩ ∧
    calculate_dram_size ⟨10, 16, 3, 1, 1, true⟩ < calculate_dram_size ⟨10, 16, 3, 2, 1, true⟩ :=
  ⟨by decide,
   calculate_dram_size_strict_mono ⟨10, 16, 3, 1, 1, true⟩ ⟨10, 16, 3, 2, 1, true⟩
     (by decide) (by decide)⟩

/-! ### Address map: validation -/

theorem bankgrp_fields_ok (offset bankgrp_bits : Nat) (h : bankgrp_bits ≤ 2) :
    bankgrp_fields offset bankgrp_bits =
      .ok (if 0 < bankgrp_bits then .hif offset else .disabled,
           if 1 < bankgrp_bits then .hif (offset + 1) else .disabled) := by
  interval_cases bankgrp_bits <;> rfl

/-- Validation in terms of the locals: `mctl_set_addrmap` runs the allocation exactly
when the five `u8` widths (the column width after the half-width decrement) pass the
five checks. -/
theorem mctl_set_addrmap_eq (c : dram_config) (hu : is_u8_config c) :
    mctl_set_addrmap c =
      if 2 < c.bankgrps then .error (.bankgrps_bits c.bankgrps)
      else if hif_col_bits c < 8 ∨ 12 < hif_col_bits c then .error (.col_bits (hif_col_bits c))
      else if c.banks < 2 ∨ 3 < c.banks then .error (.bank_bits c.banks)
      else if c.rows < 14 ∨ 18 < c.rows then .error (.row_bits c.rows)
      else if 1 < c.ranks then .error (.rank_bits c.ranks)
      else addrmap_alloc c.bankgrps (hif_col_bits c) c.banks c.rows c.ranks := by
  obtain ⟨h1, h2, h3, h4, h5⟩ := hu
  unfold mctl_set_addrmap hif_col_bits
  simp only [Nat.mod_eq_of_lt h1, Nat.mod_eq_of_lt h2, Nat.mod_eq_of_lt h3,
    Nat.mod_eq_of_lt h4, Nat.mod_eq_of_lt h5, gt_iff_lt]

theorem addrmap_alloc_isOk (bg col bank row rank : Nat) (h : bg ≤ 2) :
    ∃ m, addrmap_alloc bg col bank row rank = .ok m := by
  simp only [addrmap_alloc, bankgrp_fields_ok _ _ h]
  exact ⟨_, rfl⟩

/-- A descriptor whose five widths pass the checks is accepted. -/
theorem mctl_set_addrmap_isOk (c : dram_config) (hu : is_u8_config c)
    (h1 : c.bankgrps ≤ 2) (h2 : 8 ≤ hif_col_bits c) (h3 : hif_col_bits c ≤ 12)
    (h4 : 2 ≤ c.banks) (h5 : c.banks ≤ 3) (h6 : 14 ≤ c.rows) (h7 : c.rows ≤ 18)
    (h8 : c.ranks ≤ 1) : ∃ m, mctl_set_addrmap c = .ok m := by
  rw [mctl_set_addrmap_eq c hu, if_neg (by omega), if_neg (by omega), if_neg (by omega),
    if_neg (by omega), if_neg (by omega)]
  exact addrmap_alloc_isOk _ _ _ _ _ h1

/-- C4 as stated fails in both directions: the descriptor cols 8, rows 14, banks 2,
bankgrps 0, one rank on a half-width bus lies within the bounds and is rejected (the
check sees `col_bits = 7`), and cols 13 on a half-width bus lies outside the bounds
and is accepted. -/
theorem mctl_set_addrmap_bounds_mismatch :
    (in_bounds ⟨8, 14, 2, 0, 0, false⟩ ∧
      mctl_set_addrmap ⟨8, 14, 2, 0, 0, false⟩ = .error (.col_bits 7)) ∧
    (¬ in_bounds ⟨13, 14, 2, 0, 0, false⟩ ∧
      ∃ m, mctl_set_addrmap ⟨13, 14, 2, 0, 0, false⟩ = .ok m) := by
  refine ⟨⟨by decide, by rfl⟩, ⟨by decide, ⟨_, rfl⟩⟩⟩

/-- C4 (amended): for a descriptor of `u8` fields, `mctl_set_addrmap` panics if and
only if bankgrps > 2, or banks is outside {2,3}, or rows is outside [14,18], or
ranks > 1, or the column width is outside [8,12] on a full-width bus and outside
[9,13] on a half-width bus (the check applies to the width after the half-width
decrement); every panic comes from one of the five checks that precede the offset
computation. -/
theorem mctl_set_addrmap_panics_iff (c : dram_config) (hu : is_u8_config c) :
    ((∃ e, mctl_set_addrmap c = .error e) ↔
      (2 < c.bankgrps ∨
       (if c.bus_full_width then c.cols < 8 ∨ 12 < c.cols else c.cols < 9 ∨ 13 < c.cols) ∨
       c.banks < 2 ∨ 3 < c.banks ∨ c.rows < 14 ∨ 18 < c.rows ∨ 1 < c.ranks)) ∧
    (∀ e, mctl_set_addrmap c = .error e → ∀ v, e ≠ .bankgrp_bits_switch v) := by
  have hcol : (hif_col_bits c < 8 ∨ 12 < hif_col_bits c) ↔
      (if c.bus_full_width then c.cols < 8 ∨ 12 < c.cols else c.cols < 9 ∨ 13 < c.cols) := by
    obtain ⟨h1, -⟩ := hu
    unfold hif_col_bits
    cases c.bus_full_width
    · simp only [Nat.mod_eq_of_lt h1, Bool.false_eq_true, if_false]
      omega
    · simp only [Nat.mod_eq_of_lt h1, if_true]
  rw [mctl_set_addrmap_eq c hu]
  by_cases hbg : 2 < c.bankgrps
  · simp [hbg]
  by_cases hc : hif_col_bits c < 8 ∨ 12 < hif_col_bits c
  · simp only [hbg, hc, if_true, if_false]
    simp [hcol.mp hc]
  by_cases hb : c.banks < 2 ∨ 3 < c.banks
  · simp only [hbg, hc, hb, if_true, if_false]
    refine ⟨⟨fun _ => ?_, fun _ => ⟨_, rfl⟩⟩, fun e he v => (by cases he; simp)⟩
    rcases hb with hb | hb
    · exact Or.inr (Or.inr (Or.inl hb))
    · exact Or.inr (Or.inr (Or.inr (Or.inl hb)))
  by_cases hr : c.rows < 14 ∨ 18 < c.rows
  · simp only [hbg, hc, hb, hr, if_true, if_false]
    refine ⟨⟨fun _ => ?_, fun _ => ⟨_, rfl⟩⟩, fun e he v => (by cases he; simp)⟩
    rcases hr with hr | hr
    · exact Or.inr (Or.inr (Or.inr (Or.inr (Or.inl hr))))
    · exact Or.inr (Or.inr (Or.inr (Or.inr (Or.inr (Or.inl hr)))))
  by_cases hk : 1 < c.ranks
  · simp only [hbg, hc, hb, hr, hk, if_true, if_false]
    simp [hk]
  simp only [hbg, hc, hb, hr, hk, if_false]
  obtain ⟨m, hm⟩ := addrmap_alloc_isOk c.bankgrps (hif_col_bits c) c.banks c.rows c.ranks
    (by omega)
  have hc' := mt hcol.mpr hc
  rw [hm]
  refine ⟨⟨fun ⟨e, he⟩ => (by cases he), fun h => ?_⟩, fun e he => (by cases he)⟩
  exfalso
  rcases h with h | h | h | h | h | h | h
  · exact h
  · exact hc' h
  · exact hb (Or.inl h)
  · exact hb (Or.inr h)
  · exact hr (Or.inl h)
  · exact hr (Or.inr h)
  · exact h

theorem mctl_set_addrmap_panics_iff_witness :
    is_u8_config ⟨9, 14, 2, 0, 0, false⟩ ∧
    ¬ (∃ e, mctl_set_addrmap ⟨9, 14, 2, 0, 0, false⟩ = .error e) :=
  ⟨by decide, fun h =>
    absurd ((mctl_set_addrmap_panics_iff ⟨9, 14, 2, 0, 0, false⟩ (by decide)).1.mp h)
      (by decide)⟩

/-! ### Address map: layout -/

/-- An accepted descriptor passed the five checks, and its map is the one allocated
from the checked widths. -/
theorem mctl_set_addrmap_accepted (c : dram_config) (m : addrmap) (hu : is_u8_config c)
    (h : mctl_set_addrmap c = .ok m) :
    c.bankgrps ≤ 2 ∧ 8 ≤ hif_col_bits c ∧ hif_col_bits c ≤ 12 ∧ 2 ≤ c.banks ∧ c.banks ≤ 3 ∧
    14 ≤ c.rows ∧ c.rows ≤ 18 ∧ c.ranks ≤ 1 ∧
    addrmap_alloc c.bankgrps (hif_col_bits c) c.banks c.rows c.ranks = .ok m := by
  rw [mctl_set_addrmap_eq c hu] at h
  split_ifs at h with h1 h2 h3 h4 h5
  exact ⟨by omega, by omega, by omega, by omega, by omega, by omega, by omega, by omega, h⟩

/-- The layout that the allocation produces, address bit by address bit: with `cb`
the validated column width, BG[g] sits at `3 + g`, COL[i] (for `3 ≤ i`) at `bg + i`,
BANK[j] at `bg + cb + j`, ROW[k] at `bg + cb + banks + k` and the rank bit at
`bg + cb + banks + rows`; a bit at or above the width of its field is disabled. -/
theorem addrmap_alloc_sel (bg cb banks rows ranks : Nat) (m : addrmap)
    (hbg : bg ≤ 2) (hcb1 : 8 ≤ cb) (hcb2 : cb ≤ 12) (hb1 : 2 ≤ banks) (hb2 : banks ≤ 3)
    (hr1 : 14 ≤ rows) (hr2 : rows ≤ 18)
    (h : addrmap_alloc bg cb banks rows ranks = .ok m) :
    (∀ g, m.sel (.bg g) = if g < bg then .hif (3 + g) else .disabled) ∧
    (∀ i, 3 ≤ i → m.sel (.col i) = if i < cb then .hif (bg + i) else .disabled) ∧
    (∀ j, m.sel (.bank j) = if j < banks then .hif (bg + cb + j) else .disabled) ∧
    (∀ k, m.sel (.row k) = if k < rows then .hif (bg + cb + banks + k) else .disabled) ∧
    (m.sel .rank = if ranks = 1 then .hif (bg + cb + banks + rows) else .disabled) ∧
    m.sel (.col 2) = .hif 2 ∧
    m.final_offset = bg + cb + banks + rows + ranks := by
  simp only [addrmap_alloc, bankgrp_fields_ok _ _ hbg, INITIAL_HIF_OFFSET] at h
  injection h with h
  subst h
  refine ⟨?_, ?_, ?_, ?_, ?_, ?_, ?_⟩
  · intro g
    simp only [addrmap.sel, addrmap.bg]
    split_ifs <;> first | omega | (congr 1; omega) | (subst_vars; rfl)
  · intro i hi
    by_cases hi12 : i < 12
    · interval_cases i <;>
        simp [addrmap.sel, addrmap.col, col_hif_bits, INITIAL_HIF_OFFSET] <;>
        (try split_ifs) <;> first | omega | (congr 1; omega) | rfl
    · simp only [addrmap.sel, addrmap.col]
      repeat rw [if_neg (by omega)]
  · intro j
    by_cases hj3 : j < 3
    · interval_cases j <;> simp [addrmap.sel, addrmap.bank] <;>
        (try split_ifs) <;> first | omega | congr 1
    · simp only [addrmap.sel, addrmap.bank]
      repeat rw [if_neg (by omega)]
  · intro k
    by_cases hk18 : k < 18
    · interval_cases k <;>
        simp [addrmap.sel, addrmap.row, row_hif_bits, HifSel.shift] <;>
        (try split_ifs) <;> first | omega | congr 1
    · simp only [addrmap.sel, addrmap.row]
      repeat rw [if_neg (by omega)]
  · simp only [addrmap.sel]
  · rfl
  · simp only

/-- The layout of an accepted descriptor, in terms of the descriptor. -/
theorem mctl_set_addrmap_sel (c : dram_config) (m : addrmap) (hu : is_u8_config c)
    (h : mctl_set_addrmap c = .ok m) :
    (∀ g, m.sel (.bg g) = if g < c.bankgrps then .hif (3 + g) else .disabled) ∧
    (∀ i, 3 ≤ i → m.sel (.col i) =
      if i < hif_col_bits c then .hif (c.bankgrps + i) else .disabled) ∧
    (∀ j, m.sel (.bank j) =
      if j < c.banks then .hif (c.bankgrps + hif_col_bits c + j) else .disabled) ∧
    (∀ k, m.sel (.row k) =
      if k < c.rows then .hif (c.bankgrps + hif_col_bits c + c.banks + k) else .disabled) ∧
    (m.sel .rank =
      if c.ranks = 1 then .hif (c.bankgrps + hif_col_bits c + c.banks + c.rows)
      else .disabled) ∧
    m.sel (.col 2) = .hif 2 ∧
    m.final_offset = c.bankgrps + hif_col_bits c + c.banks + c.rows + c.ranks := by
  obtain ⟨h1, h2, h3, h4, h5, h6, h7, h8, ha⟩ := mctl_set_addrmap_accepted c m hu h
  exact addrmap_alloc_sel _ _ _ _ _ m h1 h2 h3 h4 h5 h6 h7 ha

theorem in_bounds_is_u8 (c : dram_config) (h : in_bounds c) : is_u8_config c := by
  obtain ⟨h1, h2, h3, h4, h5, h6, h7, h8⟩ := h
  exact ⟨by omega, by omega, by omega, by omega, by omega⟩

theorem mem_assigned (m : addrmap) (b : addr_bit) (p : Nat) :
    (b, p) ∈ m.assigned ↔ b ∈ configurable_bits ∧ m.sel b = .hif p := by
  unfold addrmap.assigned
  rw [List.mem_filterMap]
  constructor
  · rintro ⟨a, ha, hs⟩
    cases hsel : m.sel a with
    | hif q =>
      rw [hsel] at hs
      simp only [Option.some.injEq, Prod.mk.injEq] at hs
      obtain ⟨rfl, rfl⟩ := hs
      exact ⟨ha, hsel⟩
    | disabled =>
      rw [hsel] at hs
      simp at hs
  · rintro ⟨hb, hs⟩
    exact ⟨b, hb, by rw [hs]⟩

theorem mem_configurable_bits (b : addr_bit) :
    b ∈ configurable_bits ↔
      match b with
      | .bg g => g < 2
      | .col i => 3 ≤ i ∧ i < 12
      | .bank j => j < 3
      | .row k => k < 18
      | .rank => True := by
  cases b <;> simp [configurable_bits, List.mem_range'_1]
  omega

/-- Where an enabled configurable address bit of an accepted descriptor sits. -/
theorem assigned_position (c : dram_config) (m : addrmap) (hu : is_u8_config c)
    (h : mctl_set_addrmap c = .ok m) (b : addr_bit) (p : Nat) :
    (b, p) ∈ m.assigned →
    match b with
    | .bg g => g < c.bankgrps ∧ p = 3 + g
    | .col i => 3 ≤ i ∧ i < hif_col_bits c ∧ p = c.bankgrps + i
    | .bank j => j < c.banks ∧ p = c.bankgrps + hif_col_bits c + j
    | .row k => k < c.rows ∧ p = c.bankgrps + hif_col_bits c + c.banks + k
    | .rank => c.ranks = 1 ∧ p = c.bankgrps + hif_col_bits c + c.banks + c.rows := by
  intro hb
  obtain ⟨hbg, hcol, hbank, hrow, hrank, -, -⟩ := mctl_set_addrmap_sel c m hu h
  rw [mem_assigned, mem_configurable_bits] at hb
  obtain ⟨hmem, hsel⟩ := hb
  cases b with
  | bg g =>
    rw [hbg g] at hsel
    split_ifs at hsel with hg
    · injection hsel with hsel
      exact ⟨hg, hsel.symm⟩
  | col i =>
    simp only at hmem
    rw [hcol i hmem.1] at hsel
    split_ifs at hsel with hg
    · injection hsel with hsel
      exact ⟨hmem.1, hg, hsel.symm⟩
  | bank j =>
    rw [hbank j] at hsel
    split_ifs at hsel with hg
    · injection hsel with hsel
      exact ⟨hg, hsel.symm⟩
  | row k =>
    rw [hrow k] at hsel
    split_ifs at hsel with hg
    · injection hsel with hsel
      exact ⟨hg, hsel.symm⟩
  | rank =>
    rw [hrank] at hsel
    split_ifs at hsel with hg
    · injection hsel with hsel
      exact ⟨hg, hsel.symm⟩

/-- Two enabled configurable address bits of an accepted descriptor never share a
HIF position. -/
theorem assigned_injective (c : dram_config) (m : addrmap) (hu : is_u8_config c)
    (h : mctl_set_addrmap c = .ok m) (b b' : addr_bit) (p : Nat)
    (hb : (b, p) ∈ m.assigned) (hb' : (b', p) ∈ m.assigned) : b = b' := by
  obtain ⟨a1, a2, a3, a4, a5, a6, a7, a8, -⟩ := mctl_set_addrmap_accepted c m hu h
  have e1 := assigned_position c m hu h b p hb
  have e2 := assigned_position c m hu h b' p hb'
  cases b <;> cases b' <;> simp only at e1 e2 <;>
    first
    | rfl
    | (exfalso; omega)
    | (congr 1; omega)

theorem configurable_bits_nodup : configurable_bits.Nodup := by
  decide

/-- C3: for every descriptor within the bounds, with either bus width, the HIF
positions that `mctl_set_addrmap` assigns to the enabled bank-group bits, column bits
3 and up, bank bits, row bits and rank bit are pairwise distinct and none of them is
0, 1 or 2. The map is produced on a full-width bus and, on a half-width bus, for
cols ≥ 9 (cols = 8 on a half-width bus is rejected, so nothing is assigned there). -/
theorem mctl_set_addrmap_positions_distinct (c : dram_config) (hb : in_bounds c) :
    (c.bus_full_width = true ∨ 9 ≤ c.cols → ∃ m, mctl_set_addrmap c = .ok m) ∧
    ∀ m, mctl_set_addrmap c = .ok m →
      m.positions.Nodup ∧ ∀ p ∈ m.positions, p ≠ 0 ∧ p ≠ 1 ∧ p ≠ 2 := by
  have hu := in_bounds_is_u8 c hb
  refine ⟨fun hacc => ?_, fun m h => ?_⟩
  · obtain ⟨h1, h2, h3, h4, h5, h6, h7, h8⟩ := hb
    have hcb : 8 ≤ hif_col_bits c ∧ hif_col_bits c ≤ 12 := by
      unfold hif_col_bits
      rw [Nat.mod_eq_of_lt hu.1]
      rcases hacc with hfw | h9
      · rw [hfw, if_pos rfl]
        omega
      · split_ifs <;> omega
    exact mctl_set_addrmap_isOk c hu h7 hcb.1 hcb.2 h5 h6 h3 h4 h8
  · obtain ⟨a1, a2, a3, a4, a5, a6, a7, a8, -⟩ := mctl_set_addrmap_accepted c m hu h
    have hpos := assigned_position c m hu h
    constructor
    · unfold addrmap.positions
      apply List.Nodup.map_on
      · rintro ⟨b, p⟩ hbp ⟨b', p'⟩ hbp' hpp
        simp only at hpp
        subst hpp
        rw [assigned_injective c m hu h b b' p hbp hbp']
      · unfold addrmap.assigned
        apply List.Nodup.filterMap _ configurable_bits_nodup
        intro a a' x hx hx'
        cases hs : m.sel a <;> cases hs' : m.sel a' <;> simp [hs, hs'] at hx hx'
        rw [← hx'] at hx
        exact (Prod.mk.inj hx).1
    · intro p hp
      unfold addrmap.positions at hp
      rw [List.mem_map] at hp
      obtain ⟨⟨b, q⟩, hbq, rfl⟩ := hp
      have e1 := hpos b q hbq
      cases b <;> simp only at e1 ⊢ <;> omega

theorem mctl_set_addrmap_positions_distinct_witness :
    in_bounds ⟨10, 16, 3, 2, 1, true⟩ ∧
    ∃ m, mctl_set_addrmap ⟨10, 16, 3, 2, 1, true⟩ = .ok m :=
  ⟨by decide,
   (mctl_set_addrmap_positions_distinct ⟨10, 16, 3, 2, 1, true⟩ (by decide)).1
     (Or.inl rfl)⟩

/-- C5: for every accepted full-width descriptor the fields are packed contiguously
from HIF bit 3 in the order bank groups, columns, banks, rows, rank: BG[g] at
`3 + g` for `g < bankgrps`, COL[i] at `bankgrps + i` for `3 ≤ i < cols`, BANK[j] at
`bankgrps + cols + j` for `j < banks`, ROW[k] at `bankgrps + cols + banks + k` for
`k < rows`, the rank bit at `bankgrps + cols + banks + rows` when `ranks = 1`; every
bit at or above the width of its field is disabled. With `bankgrps = 2` the fields
BG0 and BG1 hold `offset` and `offset + 1` for `offset = 3`, with `bankgrps = 0`
both are disabled. -/
theorem mctl_set_addrmap_full_width_layout (c : dram_config) (m : addrmap)
    (hu : is_u8_config c) (hfw : c.bus_full_width = true)
    (h : mctl_set_addrmap c = .ok m) :
    (∀ g, g < c.bankgrps → m.sel (.bg g) = .hif (3 + g)) ∧
    (∀ g, c.bankgrps ≤ g → m.sel (.bg g) = .disabled) ∧
    (∀ i, 3 ≤ i → i < c.cols → m.sel (.col i) = .hif (c.bankgrps + i)) ∧
    (∀ i, c.cols ≤ i → m.sel (.col i) = .disabled) ∧
    (∀ j, j < c.banks → m.sel (.bank j) = .hif (c.bankgrps + c.cols + j)) ∧
    (∀ j, c.banks ≤ j → m.sel (.bank j) = .disabled) ∧
    (∀ k, k < c.rows → m.sel (.row k) = .hif (c.bankgrps + c.cols + c.banks + k)) ∧
    (∀ k, c.rows ≤ k → m.sel (.row k) = .disabled) ∧
    (c.ranks = 1 → m.sel .rank = .hif (c.bankgrps + c.cols + c.banks + c.rows)) ∧
    (c.ranks ≠ 1 → m.sel .rank = .disabled) ∧
    (c.bankgrps = 2 →
      m.bg0 = .hif INITIAL_HIF_OFFSET ∧ m.bg1 = .hif (INITIAL_HIF_OFFSET + 1)) ∧
    (c.bankgrps = 0 → m.bg0 = .disabled ∧ m.bg1 = .disabled) := by
  obtain ⟨hbg, hcol, hbank, hrow, hrank, -, -⟩ := mctl_set_addrmap_sel c m hu h
  obtain ⟨a1, a2, a3, a4, a5, a6, a7, a8, -⟩ := mctl_set_addrmap_accepted c m hu h
  have hcb : hif_col_bits c = c.cols := by
    unfold hif_col_bits
    rw [hfw, if_pos rfl, Nat.mod_eq_of_lt hu.1]
  rw [hcb] at hcol hbank hrow hrank a2
  have hbg0 : m.sel (.bg 0) = m.bg0 := rfl
  have hbg1 : m.sel (.bg 1) = m.bg1 := rfl
  refine ⟨?_, ?_, ?_, ?_, ?_, ?_, ?_, ?_, ?_, ?_, ?_, ?_⟩
  · intro g hg
    rw [hbg g, if_pos hg]
  · intro g hg
    rw [hbg g, if_neg (by omega)]
  · intro i hi hic
    rw [hcol i hi, if_pos hic]
  · intro i hi
    rw [hcol i (by omega), if_neg (by omega)]
  · intro j hj
    rw [hbank j, if_pos hj]
  · intro j hj
    rw [hbank j, if_neg (by omega)]
  · intro k hk
    rw [hrow k, if_pos hk]
  · intro k hk
    rw [hrow k, if_neg (by omega)]
  · intro hr
    rw [hrank, if_pos hr]
  · intro hr
    rw [hrank, if_neg hr]
  · intro h2
    rw [← hbg0, ← hbg1, hbg 0, hbg 1, if_pos (by omega), if_pos (by omega)]
    exact ⟨rfl, rfl⟩
  · intro h0
    rw [← hbg0, ← hbg1, hbg 0, hbg 1, if_neg (by omega), if_neg (by omega)]
    exact ⟨rfl, rfl⟩

theorem mctl_set_addrmap_full_width_layout_witness :
    is_u8_config ⟨10, 16, 3, 2, 1, true⟩ ∧
    (∃ m, mctl_set_addrmap ⟨10, 16, 3, 2, 1, true⟩ = .ok m ∧
      m.sel (.col 9) = .hif (2 + 9) ∧ m.sel (.col 10) = .disabled ∧
      m.sel (.row 15) = .hif (2 + 10 + 3 + 15) ∧ m.sel .rank = .hif (2 + 10 + 3 + 16)) :=
  ⟨by decide, _, rfl,
    (mctl_set_addrmap_full_width_layout ⟨10, 16, 3, 2, 1, true⟩ _ (by decide) rfl rfl).2.2.1
      9 (by decide) (by decide),
    (mctl_set_addrmap_full_width_layout ⟨10, 16, 3, 2, 1, true⟩ _ (by decide) rfl rfl).2.2.2.1
      10 (by decide),
    (mctl_set_addrmap_full_width_layout ⟨10, 16, 3, 2, 1, true⟩ _ (by decide) rfl
      rfl).2.2.2.2.2.2.1 15 (by decide),
    (mctl_set_addrmap_full_width_layout ⟨10, 16, 3, 2, 1, true⟩ _ (by decide) rfl
      rfl).2.2.2.2.2.2.2.2.1 rfl⟩

/-! ### ODT map -/

/-- C6 as stated fails for a clock value whose product `clk * 7` leaves 32 bits: at
`clk = 613566757` the driver computes `temp1 = ((clk * 7) mod 2^32) / 2000 = 0` and
writes `0x00040400`, while `floor(clk * 7 / 2000) = 2147483` gives `0xBB690400`. -/
theorem mctl_set_odtmap_lpddr3_wraps :
    (mctl_set_odtmap ⟨.LPDDR3, 613566757, 0, true⟩ ⟨10, 16, 3, 0, 1, true⟩).odtcfg
      = 0x00040400 ∧
    odtcfg_lpddr3_stated 613566757 = 0xBB690400 ∧
    (mctl_set_odtmap ⟨.LPDDR3, 613566757, 0, true⟩ ⟨10, 16, 3, 0, 1, true⟩).odtcfg
      ≠ odtcfg_lpddr3_stated 613566757 := by
  decide

/-- C6 (amended): for LPDDR3 and every clock value with `clk * 7 < 2^32`,
`mctl_set_odtmap` writes to the ODT configuration register (and its three shadows)
the 32-bit value `0x400 | ((temp2 - temp1) << 16) | (temp1 << 24)` with
`temp1 = floor(clk * 7 / 2000)`, `temp2 = 4` when `clk ≥ 400` and `3` when
`clk < 400`. -/
theorem mctl_set_odtmap_lpddr3 (para : dram_para) (config : dram_config)
    (ht : para.type = .LPDDR3) (hclk : para.clk * 7 < 2 ^ 32) :
    (mctl_set_odtmap para config).odtcfg = odtcfg_lpddr3_stated para.clk ∧
    (mctl_set_odtmap para config).unk_0x2240 = odtcfg_lpddr3_stated para.clk ∧
    (mctl_set_odtmap para config).unk_0x3240 = odtcfg_lpddr3_stated para.clk ∧
    (mctl_set_odtmap para config).unk_0x4240 = odtcfg_lpddr3_stated para.clk := by
  have hval : odtcfg_val para = odtcfg_lpddr3_stated para.clk := by
    unfold odtcfg_val odtcfg_lpddr3_stated
    rw [ht]
    simp only [Nat.mod_eq_of_lt hclk]
    by_cases h : para.clk < 400
    · rw [if_pos h, if_neg (by omega)]
    · rw [if_neg h, if_pos (by omega)]
  exact ⟨hval, hval, hval, hval⟩

theorem mctl_set_odtmap_lpddr3_witness :
    (mctl_set_odtmap ⟨.LPDDR3, 400, 0, true⟩ ⟨10, 16, 3, 0, 1, true⟩).odtcfg
      = odtcfg_lpddr3_stated 400 ∧
    odtcfg_lpddr3_stated 400 = (0x400 ||| ((0x4 - 1) <<< 16)) ||| (1 <<< 24) ∧
    odtcfg_lpddr3_stated 399 = (0x400 ||| ((0x3 - 1) <<< 16)) ||| (1 <<< 24) :=
  ⟨(mctl_set_odtmap_lpddr3 ⟨.LPDDR3, 400, 0, true⟩ ⟨10, 16, 3, 0, 1, true⟩ rfl
      (by decide)).1, by decide, by decide⟩

theorem testBit_eq_false_of_lt (x i n : Nat) (hx : x < 2 ^ n) (hi : n ≤ i) :
    x.testBit i = false :=
  Nat.testBit_lt_two_pow (lt_of_lt_of_le hx (Nat.pow_le_pow_right (by norm_num) hi))

/-- Masking `mr4 << 10` with `0x70000` moves bits 6..8 of `mr4` to bits 16..18. -/
theorem shl32_and_70000 (x : Nat) :
    shl32 x 10 &&& 0x70000 = ((x >>> 6) &&& 7) <<< 16 := by
  apply Nat.eq_of_testBit_eq
  intro i
  simp only [shl32, Nat.testBit_and, Nat.testBit_mod_two_pow, Nat.testBit_shiftLeft,
    Nat.testBit_shiftRight]
  by_cases h1 : i < 16
  · have e : Nat.testBit 0x70000 i = false := by interval_cases i <;> rfl
    simp [e, h1]
  by_cases h2 : i < 19
  · have hi : i = 16 ∨ i = 17 ∨ i = 18 := by omega
    have e16 : Nat.testBit 0x70000 16 = true := by rfl
    have e17 : Nat.testBit 0x70000 17 = true := by rfl
    have e18 : Nat.testBit 0x70000 18 = true := by rfl
    have f0 : Nat.testBit 7 0 = true := by rfl
    have f1 : Nat.testBit 7 1 = true := by rfl
    have f2 : Nat.testBit 7 2 = true := by rfl
    rcases hi with rfl | rfl | rfl
    · simp [e16, f0]
    · simp [e17, f1]
    · simp [e18, f2]
  · have e : Nat.testBit 0x70000 i = false :=
      testBit_eq_false_of_lt _ i 19 (by norm_num) (by omega)
    have e7 : Nat.testBit 7 (i - 16) = false :=
      testBit_eq_false_of_lt _ _ 3 (by norm_num) (by omega)
    simp [e, e7]

theorem and_one_lt_two (x : Nat) : x &&& 1 < 2 := by
  have := @Nat.and_le_right x 1
  omega

theorem and_seven_lt_eight (x : Nat) : x &&& 7 < 8 := by
  have := @Nat.and_le_right x 7
  omega

/-- The DDR4 value in terms of the two sub-fields `b = (mr4 >> 12) & 1` and
`f = (mr4 >> 6) & 7`. -/
theorem odtcfg_val_ddr4 (para : dram_para) (ht : para.type = .DDR4) :
    odtcfg_val para =
      (0x400 ||| (((para.mr4 >>> 6) &&& 7) <<< 16)) |||
        shl32 (((para.mr4 >>> 12) &&& 1) + 6) 24 := by
  unfold odtcfg_val
  rw [ht]
  simp only [shl32_and_70000]

/-- C7: for DDR4 and every mode-register-4 value, the ODT configuration value has bits
24 and above equal to `((mr4 >> 12) & 1) + 6`, that is 7 when bit 12 of `mr4` is set
and 6 when it is clear, bits 16..18 equal to bits 6..8 of `mr4`, and low half-word
`0x0400`. -/
theorem mctl_set_odtmap_ddr4 (para : dram_para) (config : dram_config)
    (ht : para.type = .DDR4) :
    (mctl_set_odtmap para config).odtcfg >>> 24 = ((para.mr4 >>> 12) &&& 1) + 6 ∧
    (para.mr4.testBit 12 = true → (mctl_set_odtmap para config).odtcfg >>> 24 = 7) ∧
    (para.mr4.testBit 12 = false → (mctl_set_odtmap para config).odtcfg >>> 24 = 6) ∧
    ((mctl_set_odtmap para config).odtcfg >>> 16) &&& 7 = (para.mr4 >>> 6) &&& 7 ∧
    (mctl_set_odtmap para config).odtcfg &&& 0xFFFF = 0x0400 := by
  have hv : (mctl_set_odtmap para config).odtcfg = odtcfg_val para := rfl
  rw [hv, odtcfg_val_ddr4 para ht]
  have hb12 : (para.mr4 >>> 12) &&& 1 = if para.mr4.testBit 12 then 1 else 0 := by
    rw [Nat.testBit, Nat.one_and_eq_mod_two, Nat.and_one_is_mod]
    have := Nat.mod_two_eq_zero_or_one (para.mr4 >>> 12)
    rcases this with h | h <;> simp [h]
  have hb := and_one_lt_two (para.mr4 >>> 12)
  have hf := and_seven_lt_eight (para.mr4 >>> 6)
  generalize hbdef : (para.mr4 >>> 12) &&& 1 = b at hb hb12 ⊢
  generalize (para.mr4 >>> 6) &&& 7 = f at hf ⊢
  have key : ((0x400 ||| (f <<< 16)) ||| shl32 (b + 6) 24) >>> 24 = b + 6 ∧
      (((0x400 ||| (f <<< 16)) ||| shl32 (b + 6) 24) >>> 16) &&& 7 = f ∧
      ((0x400 ||| (f <<< 16)) ||| shl32 (b + 6) 24) &&& 0xFFFF = 0x0400 := by
    interval_cases b <;> interval_cases f <;> decide
  obtain ⟨k1, k2, k3⟩ := key
  refine ⟨k1, ?_, ?_, k2, k3⟩
  · intro h
    rw [k1, hb12, h]
    rfl
  · intro h
    rw [k1, hb12, h]
    rfl

theorem mctl_set_odtmap_ddr4_witness :
    (mctl_set_odtmap ⟨.DDR4, 792, 0x1040, true⟩ ⟨10, 16, 3, 2, 1, true⟩).odtcfg >>> 24 = 7 ∧
    (mctl_set_odtmap ⟨.DDR4, 792, 0x0040, true⟩ ⟨10, 16, 3, 2, 1, true⟩).odtcfg >>> 24 = 6 :=
  ⟨(mctl_set_odtmap_ddr4 ⟨.DDR4, 792, 0x1040, true⟩ ⟨10, 16, 3, 2, 1, true⟩ rfl).2.1
      (by decide),
   (mctl_set_odtmap_ddr4 ⟨.DDR4, 792, 0x0040, true⟩ ⟨10, 16, 3, 2, 1, true⟩ rfl).2.2.1
      (by decide)⟩

/-! ### Read-calibration retry -/

/-- C8: whatever the outcomes of the read-calibration runs, `mctl_calibrate_phy`
invokes `mctl_phy_read_calibration` at most 5 times, every invocation before the last
one failed and a successful invocation is the last one; it returns false exactly when
read calibration is enabled in `tpr10` and the first 5 invocations all fail (in which
case exactly 5 were made), and true otherwise. -/
theorem mctl_calibrate_phy_retry (read_calibration : dram_config → Nat → Bool)
    (para : dram_para) (config : dram_config) :
    (mctl_calibrate_phy read_calibration para config).2 ≤ 5 ∧
    (∀ k, k + 1 < (mctl_calibrate_phy read_calibration para config).2 →
      read_calibration config k = false) ∧
    (∀ k, k < (mctl_calibrate_phy read_calibration para config).2 →
      read_calibration config k = true →
      (mctl_calibrate_phy read_calibration para config).2 = k + 1) ∧
    ((mctl_calibrate_phy read_calibration para config).1 = false ↔
      para.tpr10_read_calibration = true ∧ ∀ k, k < 5 → read_calibration config k = false) ∧
    ((mctl_calibrate_phy read_calibration para config).1 = true ↔
      ¬ (para.tpr10_read_calibration = true ∧
          ∀ k, k < 5 → read_calibration config k = false)) ∧
    ((mctl_calibrate_phy read_calibration para config).1 = false →
      (mctl_calibrate_phy read_calibration para config).2 = 5) := by
  have hall : (∀ k, k < 5 → read_calibration config k = false) ↔
      (read_calibration config 0 = false ∧ read_calibration config 1 = false ∧
       read_calibration config 2 = false ∧ read_calibration config 3 = false ∧
       read_calibration config 4 = false) := by
    constructor
    · intro h
      exact ⟨h 0 (by omega), h 1 (by omega), h 2 (by omega), h 3 (by omega), h 4 (by omega)⟩
    · rintro ⟨h0, h1, h2, h3, h4⟩ k hk
      interval_cases k <;> assumption
  rw [hall]
  unfold mctl_calibrate_phy
  cases hen : para.tpr10_read_calibration
  · simp
  · simp only [if_true, read_calibration_loop]
    cases h0 : read_calibration config 0
    · cases h1 : read_calibration config 1
      · cases h2 : read_calibration config 2
        · cases h3 : read_calibration config 3
          · cases h4 : read_calibration config 4
            · simp
              refine ⟨fun k hk => ?_, fun k hk hs => ?_⟩
              · have hk5 : k < 5 := by omega
                interval_cases k <;> assumption
              · interval_cases k <;> simp_all
            · simp
              refine ⟨fun k hk => ?_, fun k hk hs => ?_⟩
              · have hk5 : k < 5 := by omega
                interval_cases k <;> first | assumption | omega
              · interval_cases k <;> simp_all
          · simp
            refine ⟨fun k hk => ?_, fun k hk hs => ?_⟩
            · have hk5 : k < 5 := by omega
              interval_cases k <;> first | assumption | omega
            · interval_cases k <;> simp_all
        · simp
          refine ⟨fun k hk => ?_, fun k hk hs => ?_⟩
          · have hk5 : k < 5 := by omega
            interval_cases k <;> first | assumption | omega
          · interval_cases k <;> simp_all
      · simp
        refine ⟨fun k hk => ?_, fun k hk hs => ?_⟩
        · have hk5 : k < 5 := by omega
          interval_cases k <;> first | assumption | omega
        · interval_cases k <;> simp_all
    · simp

/-! ### Aliasing probes -/

/-- A probe loop with enough fuel leaves by its own exit: the result lies in
`[w, hi]`, the test reported aliasing at the result unless it is `hi`, and reported
no aliasing at every candidate before it. -/
theorem probe_loop_spec (mem_matches : Nat → Bool) (shift hi : Nat) :
    ∀ fuel w, w ≤ hi → hi ≤ w + fuel →
      w ≤ probe_loop mem_matches shift hi fuel w ∧
      probe_loop mem_matches shift hi fuel w ≤ hi ∧
      (probe_loop mem_matches shift hi fuel w < hi →
        mem_matches (shl64 (probe_loop mem_matches shift hi fuel w + shift)) = true) ∧
      ∀ v, w ≤ v → v < probe_loop mem_matches shift hi fuel w →
        mem_matches (shl64 (v + shift)) = false := by
  intro fuel
  induction fuel with
  | zero =>
    intro w h1 h2
    have hw : w = hi := by omega
    subst hw
    simp only [probe_loop]
    exact ⟨le_refl _, le_refl _, fun h => absurd h (lt_irrefl _), fun v hv1 hv2 => by omega⟩
  | succ fuel ih =>
    intro w h1 h2
    unfold probe_loop
    by_cases hlt : w < hi
    · rw [if_pos hlt]
      cases hm : mem_matches (shl64 (w + shift))
      · simp only [Bool.false_eq_true, if_false]
        obtain ⟨i1, i2, i3, i4⟩ := ih (w + 1) (by omega) (by omega)
        refine ⟨by omega, i2, i3, fun v hv1 hv2 => ?_⟩
        by_cases hvw : v = w
        · rw [hvw]; exact hm
        · exact i4 v (by omega) hv2
      · simp only [if_true]
        exact ⟨le_refl _, h1, fun _ => hm, fun v hv1 hv2 => by omega⟩
    · rw [if_neg hlt]
      exact ⟨le_refl _, h1, fun h => absurd h hlt, fun v hv1 hv2 => by omega⟩

/-- C9 as stated fails. When no probed offset aliases address 0 (every test fails),
the smallest width at which the test fails is the minimum (8, 2, 14), but the probes
run to exhaustion and select 12, 3, 18; and when every probed offset aliases, the
probes select 8, 2, 14, widths for which aliasing was reported. The same is seen on
the whole of `mctl_auto_detect_dram_size` for DDR3 on a full-width bus. -/
theorem probes_do_not_select_non_aliasing :
    (detect_cols (fun _ => false) 2 = 12 ∧ smallest_non_aliasing (fun _ => false) 2 8 12 = 8) ∧
    (detect_banks (fun _ => false) 14 = 3 ∧
      smallest_non_aliasing (fun _ => false) 14 2 3 = 2) ∧
    (detect_rows (fun _ => false) 17 = 18 ∧
      smallest_non_aliasing (fun _ => false) 17 14 18 = 14) ∧
    (detect_cols (fun _ => true) 2 = 8 ∧ detect_banks (fun _ => true) 10 = 2 ∧
      detect_rows (fun _ => true) 12 = 14) ∧
    (mctl_auto_detect_dram_size ⟨always_calibrates, fun _ _ => false⟩
        ⟨.DDR3, 792, 0, true⟩ ⟨9, 14, 2, 0, 1, true⟩ []).toOption.map Prod.fst
      = some ⟨12, 18, 3, 0, 1, true⟩ ∧
    (mctl_auto_detect_dram_size ⟨always_calibrates, fun _ _ => true⟩
        ⟨.DDR3, 792, 0, true⟩ ⟨9, 14, 2, 0, 1, true⟩ []).toOption.map Prod.fst
      = some ⟨8, 14, 2, 0, 1, true⟩ := by
  refine ⟨⟨rfl, rfl⟩, ⟨rfl, rfl⟩, ⟨rfl, rfl⟩, ⟨rfl, rfl, rfl⟩, rfl, rfl⟩

/-- C9 (amended): for every outcome of the aliasing tests, each of the column, bank
and row probes terminates and selects the smallest candidate width (columns 8..11,
banks 2, rows 14..17) for which the aliasing test reports that the probed offset does
alias address 0 (`mctl_mem_matches` is true), taking the maximum (12, 3, 18) by loop
exhaustion; it never selects a candidate width for which the test reported no
aliasing. -/
theorem probes_select_smallest_aliasing (mem_matches : Nat → Bool) (shift : Nat) :
    (8 ≤ detect_cols mem_matches shift ∧ detect_cols mem_matches shift ≤ 12 ∧
      (detect_cols mem_matches shift < 12 →
        mem_matches (shl64 (detect_cols mem_matches shift + shift)) = true) ∧
      ∀ w, 8 ≤ w → w < detect_cols mem_matches shift →
        mem_matches (shl64 (w + shift)) = false) ∧
    (2 ≤ detect_banks mem_matches shift ∧ detect_banks mem_matches shift ≤ 3 ∧
      (detect_banks mem_matches shift < 3 →
        mem_matches (shl64 (detect_banks mem_matches shift + shift)) = true) ∧
      ∀ w, 2 ≤ w → w < detect_banks mem_matches shift →
        mem_matches (shl64 (w + shift)) = false) ∧
    (14 ≤ detect_rows mem_matches shift ∧ detect_rows mem_matches shift ≤ 18 ∧
      (detect_rows mem_matches shift < 18 →
        mem_matches (shl64 (detect_rows mem_matches shift + shift)) = true) ∧
      ∀ w, 14 ≤ w → w < detect_rows mem_matches shift →
        mem_matches (shl64 (w + shift)) = false) :=
  ⟨probe_loop_spec mem_matches shift 12 4 8 (by omega) (by omega),
   probe_loop_spec mem_matches shift 3 1 2 (by omega) (by omega),
   probe_loop_spec mem_matches shift 18 4 14 (by omega) (by omega)⟩

/-! ### The synthetic memory behind an address map -/

/-- An enabled configurable address bit of an accepted descriptor sits at position 3
or above. -/
theorem assigned_position_ge (c : dram_config) (m : addrmap) (hu : is_u8_config c)
    (h : mctl_set_addrmap c = .ok m) (b : addr_bit) (p : Nat)
    (hb : (b, p) ∈ m.assigned) : 3 ≤ p := by
  obtain ⟨a1, a2, a3, a4, a5, a6, a7, a8, -⟩ := mctl_set_addrmap_accepted c m hu h
  have e1 := assigned_position c m hu h b p hb
  cases b <;> simp only at e1 <;> omega

/-- Under the map of an accepted descriptor, the HIF bit assigned to an address bit
reaches the memory exactly when the memory has that address bit. -/
theorem hif_bit_wired_of_sel (T P : dram_config) (m : addrmap) (hu : is_u8_config P)
    (hm : mctl_set_addrmap P = .ok m) (b : addr_bit) (p : Nat)
    (hb : b ∈ configurable_bits) (hs : m.sel b = .hif p) :
    hif_bit_wired T m p = wired T b := by
  have hbp : (b, p) ∈ m.assigned := (mem_assigned m b p).mpr ⟨hb, hs⟩
  have hp3 := assigned_position_ge P m hu hm b p hbp
  have hcol2 : m.sel (.col 2) = .hif 2 := (mctl_set_addrmap_sel P m hu hm).2.2.2.2.2.1
  unfold hif_bit_wired
  rw [List.any_cons, hcol2]
  have h1 : decide (p < 2) = false := by simp; omega
  have h2 : (HifSel.hif 2 == HifSel.hif p) = false := by
    rw [beq_eq_false_iff_ne]
    intro h
    injection h with h
    omega
  rw [h1, h2]
  simp only [Bool.false_and, Bool.false_or]
  cases hw : wired T b
  · rw [List.any_eq_false]
    intro b' hb' hf
    simp only [Bool.and_eq_true, beq_iff_eq] at hf
    have hb'p : (b', p) ∈ m.assigned := (mem_assigned m b' p).mpr ⟨hb', hf.1⟩
    have hbb := assigned_injective P m hu hm b b' p hbp hb'p
    rw [← hbb, hw] at hf
    exact absurd hf.2 (by simp)
  · rw [List.any_eq_true]
    exact ⟨b, hb, by simp [hs, hw]⟩

/-- The synthetic memory at a one-bit word address: the byte offset `1 << (p + 2)`
aliases address 0 exactly when HIF bit `p` does not reach the memory. -/
theorem synthetic_mem_matches_bit (T P : dram_config) (l : List dram_config) (m : addrmap)
    (hm : mctl_set_addrmap P = .ok m) (p : Nat) (hp : p < 62) :
    synthetic_mem_matches T (P :: l) (shl64 (p + 2)) = !hif_bit_wired T m p := by
  unfold synthetic_mem_matches
  simp only [List.head?_cons, hm]
  rw [shl64_of_lt (by omega)]
  have h4 : 2 ^ (p + 2) = 2 ^ p * 4 := by rw [pow_add]; norm_num
  have hmod : 2 ^ (p + 2) % 4 = 0 := by rw [h4]; exact Nat.mul_mod_left _ _
  have hdiv : 2 ^ (p + 2) / 4 = 2 ^ p := by rw [h4]; exact Nat.mul_div_cancel _ (by norm_num)
  rw [hmod, hdiv]
  simp only [beq_self_eq_true, Bool.true_and, Nat.testBit_two_pow]
  cases hw : hif_bit_wired T m p
  · simp only [Bool.not_false]
    rw [List.all_eq_true]
    intro q _
    by_cases hq : p = q
    · subst hq; simp [hw]
    · simp [hq]
  · simp only [Bool.not_true]
    rw [List.all_eq_false]
    exact ⟨p, List.mem_range.mpr hp, by simp [hw]⟩

/-- A probe that sets the HIF bit of one address bit of the programmed map aliases
address 0 exactly when the memory does not have that address bit. -/
theorem synthetic_mem_matches_of_sel (T P : dram_config) (l : List dram_config)
    (m : addrmap) (hu : is_u8_config P) (hm : mctl_set_addrmap P = .ok m) (b : addr_bit)
    (p : Nat) (hb : b ∈ configurable_bits) (hs : m.sel b = .hif p) (hp : p < 62) :
    synthetic_mem_matches T (P :: l) (shl64 (p + 2)) = !wired T b := by
  rw [synthetic_mem_matches_bit T P l m hm p hp, hif_bit_wired_of_sel T P m hu hm b p hb hs]

/-! ### Detection round trip -/

/-- A probe loop whose test reports aliasing exactly from width `t` on returns `t`. -/
theorem probe_loop_eq (mem_matches : Nat → Bool) (shift lo hi fuel t : Nat)
    (h1 : lo ≤ hi) (h2 : hi ≤ lo + fuel) (ht1 : lo ≤ t) (ht2 : t ≤ hi)
    (hkey : ∀ w, lo ≤ w → w < hi → (mem_matches (shl64 (w + shift)) = true ↔ t ≤ w)) :
    probe_loop mem_matches shift hi fuel lo = t := by
  obtain ⟨s1, s2, s3, s4⟩ := probe_loop_spec mem_matches shift hi fuel lo h1 h2
  generalize probe_loop mem_matches shift hi fuel lo = r at s1 s2 s3 s4
  rcases Nat.lt_trichotomy r t with hlt | heq | hgt
  · have := (hkey r s1 (by omega)).mp (s3 (by omega))
    omega
  · exact heq
  · have hf := s4 t ht1 hgt
    have ht := (hkey t ht1 (by omega)).mpr (le_refl _)
    rw [hf] at ht
    exact absurd ht (by simp)

theorem hif_col_bits_full (c : dram_config) (hu : is_u8_config c)
    (hfw : c.bus_full_width = true) : hif_col_bits c = c.cols := by
  unfold hif_col_bits
  rw [hfw, if_pos rfl, Nat.mod_eq_of_lt hu.1]

/-- A full-width descriptor within the bounds is accepted. -/
theorem mctl_set_addrmap_isOk_full (c : dram_config) (hb : in_bounds c)
    (hfw : c.bus_full_width = true) : ∃ m, mctl_set_addrmap c = .ok m := by
  have hu := in_bounds_is_u8 c hb
  obtain ⟨h1, h2, h3, h4, h5, h6, h7, h8⟩ := hb
  have hcb := hif_col_bits_full c hu hfw
  exact mctl_set_addrmap_isOk c hu h7 (by omega) (by omega) h5 h6 h3 h4 h8

/-- The bring-up of an accepted descriptor returns the result of the calibration and
records the descriptor. -/
theorem mctl_core_init_ok (hw : Hw) (para : dram_para) (c : dram_config)
    (l : List dram_config) (m : addrmap) (hm : mctl_set_addrmap c = .ok m) :
    mctl_core_init hw para c l =
      .ok ((mctl_calibrate_phy (hw.read_calibration l) para c).1, c :: l) := by
  unfold mctl_core_init
  rw [hm]

/-- Bank-group probe against the synthetic memory: with `bankgrps = 2` programmed,
the offset `1 << 6` aliases address 0 exactly when the memory has fewer than two
bank-group bits. -/
theorem bankgrp_probe_synthetic (T : dram_config) (rk : Nat) (l : List dram_config)
    (hrk : rk ≤ 1) :
    synthetic_mem_matches T (⟨8, 14, 2, 2, rk, true⟩ :: l) (shl64 (2 + 4)) =
      !decide (1 < T.bankgrps) := by
  have hb : in_bounds ⟨8, 14, 2, 2, rk, true⟩ := by
    unfold in_bounds
    simp only
    omega
  have hu := in_bounds_is_u8 _ hb
  obtain ⟨m, hm⟩ := mctl_set_addrmap_isOk_full _ hb rfl
  have hsel := (mctl_set_addrmap_sel _ m hu hm).1 1
  simp only [show (1 : Nat) < 2 from by norm_num, if_true] at hsel
  exact synthetic_mem_matches_of_sel T _ l m hu hm (.bg 1) 4
    ((mem_configurable_bits _).mpr (by simp)) hsel (by norm_num)

/-- Column probe against the synthetic memory: with `cols = 12` programmed the probe
returns the column width of the memory. -/
theorem detect_cols_synthetic (T : dram_config) (bg rk : Nat) (l : List dram_config)
    (hT1 : 8 ≤ T.cols) (hT2 : T.cols ≤ 12) (hbg : bg ≤ 2) (hrk : rk ≤ 1) :
    detect_cols (synthetic_mem_matches T (⟨12, 14, 2, bg, rk, true⟩ :: l)) (2 + bg) =
      T.cols := by
  have hb : in_bounds ⟨12, 14, 2, bg, rk, true⟩ := by
    unfold in_bounds
    simp only
    omega
  have hu := in_bounds_is_u8 _ hb
  obtain ⟨m, hm⟩ := mctl_set_addrmap_isOk_full _ hb rfl
  have hcb := hif_col_bits_full _ hu (rfl : (⟨12, 14, 2, bg, rk, true⟩ : dram_config).bus_full_width = true)
  apply probe_loop_eq _ _ 8 12 4 T.cols (by omega) (by omega) hT1 hT2
  intro w hw1 hw2
  have hsel := (mctl_set_addrmap_sel _ m hu hm).2.1 w (by omega)
  rw [hcb] at hsel
  simp only [hw2, if_true] at hsel
  rw [show w + (2 + bg) = bg + w + 2 from by omega,
    synthetic_mem_matches_of_sel T _ l m hu hm (.col w) (bg + w)
      ((mem_configurable_bits _).mpr ⟨by omega, hw2⟩) hsel (by omega)]
  simp only [wired, Bool.not_eq_true', decide_eq_false_iff_not, not_lt]

/-- Bank probe against the synthetic memory: with `banks = 3` programmed the probe
returns the bank width of the memory. -/
theorem detect_banks_synthetic (T : dram_config) (cols bg rk : Nat)
    (l : List dram_config) (hT1 : 2 ≤ T.banks) (hT2 : T.banks ≤ 3)
    (hc1 : 8 ≤ cols) (hc2 : cols ≤ 12) (hbg : bg ≤ 2) (hrk : rk ≤ 1) :
    detect_banks (synthetic_mem_matches T (⟨cols, 14, 3, bg, rk, true⟩ :: l))
      (2 + bg + cols) = T.banks := by
  have hb : in_bounds ⟨cols, 14, 3, bg, rk, true⟩ := by
    unfold in_bounds
    simp only
    omega
  have hu := in_bounds_is_u8 _ hb
  obtain ⟨m, hm⟩ := mctl_set_addrmap_isOk_full _ hb rfl
  have hcb := hif_col_bits_full _ hu (rfl : (⟨cols, 14, 3, bg, rk, true⟩ : dram_config).bus_full_width = true)
  apply probe_loop_eq _ _ 2 3 1 T.banks (by omega) (by omega) hT1 hT2
  intro w hw1 hw2
  have hsel := (mctl_set_addrmap_sel _ m hu hm).2.2.1 w
  rw [hcb] at hsel
  simp only [hw2, if_true] at hsel
  rw [show w + (2 + bg + cols) = bg + cols + w + 2 from by omega,
    synthetic_mem_matches_of_sel T _ l m hu hm (.bank w) (bg + cols + w)
      ((mem_configurable_bits _).mpr hw2) hsel (by omega)]
  simp only [wired, Bool.not_eq_true', decide_eq_false_iff_not, not_lt]

/-- Row probe against the synthetic memory: with `rows = 18` programmed the probe
returns the row width of the memory. -/
theorem detect_rows_synthetic (T : dram_config) (cols banks bg rk : Nat)
    (l : List dram_config) (hT1 : 14 ≤ T.rows) (hT2 : T.rows ≤ 18)
    (hc1 : 8 ≤ cols) (hc2 : cols ≤ 12) (hk1 : 2 ≤ banks) (hk2 : banks ≤ 3)
    (hbg : bg ≤ 2) (hrk : rk ≤ 1) :
    detect_rows (synthetic_mem_matches T (⟨cols, 18, banks, bg, rk, true⟩ :: l))
      (2 + bg + cols + banks) = T.rows := by
  have hb : in_bounds ⟨cols, 18, banks, bg, rk, true⟩ := by
    unfold in_bounds
    simp only
    omega
  have hu := in_bounds_is_u8 _ hb
  obtain ⟨m, hm⟩ := mctl_set_addrmap_isOk_full _ hb rfl
  have hcb := hif_col_bits_full _ hu (rfl : (⟨cols, 18, banks, bg, rk, true⟩ : dram_config).bus_full_width = true)
  apply probe_loop_eq _ _ 14 18 4 T.rows (by omega) (by omega) hT1 hT2
  intro w hw1 hw2
  have hsel := (mctl_set_addrmap_sel _ m hu hm).2.2.2.1 w
  rw [hcb] at hsel
  simp only [hw2, if_true] at hsel
  rw [show w + (2 + bg + cols + banks) = bg + cols + banks + w + 2 from by omega,
    synthetic_mem_matches_of_sel T _ l m hu hm (.row w) (bg + cols + banks + w)
      ((mem_configurable_bits _).mpr hw2) hsel (by omega)]
  simp only [wired, Bool.not_eq_true', decide_eq_false_iff_not, not_lt]

/-- When every bring-up succeeds, `auto_detect_ranks` stops at its first hypothesis:
two ranks on a full-width bus. -/
theorem auto_detect_ranks_all_succeed (hw : Hw) (para : dram_para) (init : dram_config)
    (l : List dram_config)
    (hsucc : ∀ l c, (mctl_calibrate_phy (hw.read_calibration l) para c).1 = true) :
    auto_detect_ranks hw para init l =
      .ok (⟨9, 14, 2, 0, 1, true⟩, ⟨9, 14, 2, 0, 1, true⟩ :: l) := by
  obtain ⟨m, hm⟩ := mctl_set_addrmap_isOk_full ⟨9, 14, 2, 0, 1, true⟩ (by decide) rfl
  have hci := mctl_core_init_ok hw para ⟨9, 14, 2, 0, 1, true⟩ l m hm
  rw [hsucc] at hci
  simp only [auto_detect_ranks, auto_detect_ranks_loop, hci]

/-- The bank-group step against the synthetic memory, started from the descriptor
that `mctl_auto_detect_dram_size` has at that point. -/
theorem detect_bankgrps_synthetic (T : dram_config) (para : dram_para)
    (rc : List dram_config → dram_config → Nat → Bool) (bg0 rk : Nat)
    (l : List dram_config) (hrk : rk ≤ 1) (hT : T.bankgrps ≤ 2)
    (hbg : if para.type = .DDR4 then 1 ≤ T.bankgrps else T.bankgrps = 0) :
    ∃ l', detect_bankgrps ⟨rc, synthetic_mem_matches T⟩ para ⟨8, 14, 2, bg0, rk, true⟩ l 2 =
      .ok (⟨8, 14, 2, T.bankgrps, rk, true⟩, l') := by
  unfold detect_bankgrps
  by_cases ht : para.type = .DDR4
  · rw [if_pos ht] at hbg
    have hb : in_bounds ⟨8, 14, 2, 2, rk, true⟩ := by
      unfold in_bounds
      simp only
      omega
    obtain ⟨m, hm⟩ := mctl_set_addrmap_isOk_full _ hb rfl
    simp only [if_pos ht, mctl_core_init_ok _ para ⟨8, 14, 2, 2, rk, true⟩ l m hm,
      bankgrp_probe_synthetic T rk l hrk]
    by_cases h2 : 1 < T.bankgrps
    · have e : T.bankgrps = 2 := by omega
      simp [h2, e]
    · have e : T.bankgrps = 1 := by omega
      simp [e]
  · rw [if_neg ht] at hbg
    simp only [if_neg ht, hbg]
    exact ⟨_, rfl⟩

/-- Detection of the widths against the synthetic memory of a geometry within the
bounds, on a full-width bus: `mctl_auto_detect_dram_size` returns the bank-group,
column, bank and row widths of the memory and leaves rank field and bus width as
they were. -/
theorem mctl_auto_detect_dram_size_synthetic (T : dram_config) (para : dram_para)
    (rc : List dram_config → dram_config → Nat → Bool) (c0 : dram_config)
    (l : List dram_config) (hT : in_bounds T) (hfw : c0.bus_full_width = true)
    (hrk : c0.ranks ≤ 1)
    (hbg : if para.type = .DDR4 then 1 ≤ T.bankgrps else T.bankgrps = 0) :
    ∃ l', mctl_auto_detect_dram_size ⟨rc, synthetic_mem_matches T⟩ para c0 l =
      .ok (⟨T.cols, T.rows, T.banks, T.bankgrps, c0.ranks, true⟩, l') := by
  obtain ⟨h1, h2, h3, h4, h5, h6, h7, h8⟩ := hT
  obtain ⟨l1, hl1⟩ := detect_bankgrps_synthetic T para rc c0.bankgrps c0.ranks l hrk h7 hbg
  have hb2 : in_bounds ⟨12, 14, 2, T.bankgrps, c0.ranks, true⟩ := by
    unfold in_bounds
    simp only
    omega
  obtain ⟨m2, hm2⟩ := mctl_set_addrmap_isOk_full _ hb2 rfl
  have hb3 : in_bounds ⟨T.cols, 14, 3, T.bankgrps, c0.ranks, true⟩ := by
    unfold in_bounds
    simp only
    omega
  obtain ⟨m3, hm3⟩ := mctl_set_addrmap_isOk_full _ hb3 rfl
  have hb4 : in_bounds ⟨T.cols, 18, T.banks, T.bankgrps, c0.ranks, true⟩ := by
    unfold in_bounds
    simp only
    omega
  obtain ⟨m4, hm4⟩ := mctl_set_addrmap_isOk_full _ hb4 rfl
  refine ⟨⟨T.cols, 18, T.banks, T.bankgrps, c0.ranks, true⟩ ::
    ⟨T.cols, 14, 3, T.bankgrps, c0.ranks, true⟩ ::
    ⟨12, 14, 2, T.bankgrps, c0.ranks, true⟩ :: l1, ?_⟩
  simp only [mctl_auto_detect_dram_size, hfw, if_true, show (1 + 1 : Nat) = 2 from rfl, hl1,
    mctl_core_init_ok _ para _ l1 m2 hm2,
    detect_cols_synthetic T T.bankgrps c0.ranks l1 h1 h2 h7 hrk,
    mctl_core_init_ok _ para _ (⟨12, 14, 2, T.bankgrps, c0.ranks, true⟩ :: l1) m3 hm3,
    detect_banks_synthetic T T.cols T.bankgrps c0.ranks
      (⟨12, 14, 2, T.bankgrps, c0.ranks, true⟩ :: l1) h5 h6 h1 h2 h7 hrk,
    mctl_core_init_ok _ para _
      (⟨T.cols, 14, 3, T.bankgrps, c0.ranks, true⟩ ::
        ⟨12, 14, 2, T.bankgrps, c0.ranks, true⟩ :: l1) m4 hm4,
    detect_rows_synthetic T T.cols T.banks T.bankgrps c0.ranks
      (⟨T.cols, 14, 3, T.bankgrps, c0.ranks, true⟩ ::
        ⟨12, 14, 2, T.bankgrps, c0.ranks, true⟩ :: l1) h3 h4 h1 h2 h5 h6 h7 hrk]

/-- C10 as stated fails for a single-rank memory: for the true geometry cols 10,
rows 16, banks 3, bankgrps 2, ranks field 0 (one rank), full width, on DDR4, with
every bring-up succeeding and the synthetic memory of that geometry,
`auto_detect_ranks` accepts its first hypothesis and the detection returns ranks
field 1 (two ranks), not the true rank count. -/
theorem detection_misses_single_rank :
    in_bounds ⟨10, 16, 3, 2, 0, true⟩ ∧
    (∀ l c, (mctl_calibrate_phy (always_calibrates l) ⟨.DDR4, 792, 0, true⟩ c).1 = true) ∧
    (detect_geometry ⟨always_calibrates, synthetic_mem_matches ⟨10, 16, 3, 2, 0, true⟩⟩
        ⟨.DDR4, 792, 0, true⟩ ⟨0, 0, 0, 0, 0, false⟩ []).toOption.map Prod.fst
      = some ⟨10, 16, 3, 2, 1, true⟩ ∧
    (⟨10, 16, 3, 2, 1, true⟩ : dram_config) ≠ ⟨10, 16, 3, 2, 0, true⟩ := by
  refine ⟨by decide, fun _ _ => rfl, rfl, by decide⟩

/-- C10 (amended): detection round trip for two-rank memories. For every true
geometry within the bounds with full bus width and ranks field 1 (DDR4 with 1 or 2
bank-group bits, other types with 0), when every bring-up succeeds and a probed
address aliases address 0 exactly when the address bit it sets is not wired in the
true geometry, `auto_detect_ranks` followed by `mctl_auto_detect_dram_size` returns
exactly the true descriptor, and `calculate_dram_size` of it is
`2^(cols+rows+banks+bankgrps) * 4 * 2`. -/
theorem detection_round_trip (T : dram_config) (para : dram_para)
    (rc : List dram_config → dram_config → Nat → Bool) (init : dram_config)
    (l : List dram_config) (hT : in_bounds T) (hfw : T.bus_full_width = true)
    (hrk : T.ranks = 1)
    (hbg : if para.type = .DDR4 then 1 ≤ T.bankgrps else T.bankgrps = 0)
    (hsucc : ∀ l c, (mctl_calibrate_phy (rc l) para c).1 = true) :
    (∃ l', detect_geometry ⟨rc, synthetic_mem_matches T⟩ para init l = .ok (T, l')) ∧
    calculate_dram_size T = 2 ^ (T.cols + T.rows + T.banks + T.bankgrps) * 4 * 2 := by
  constructor
  · obtain ⟨l', hl'⟩ := mctl_auto_detect_dram_size_synthetic T para rc ⟨9, 14, 2, 0, 1, true⟩
      (⟨9, 14, 2, 0, 1, true⟩ :: l) hT rfl (le_refl 1) hbg
    refine ⟨l', ?_⟩
    unfold detect_geometry
    rw [auto_detect_ranks_all_succeed ⟨rc, synthetic_mem_matches T⟩ para init l hsucc]
    simp only [hl']
    have e : (⟨T.cols, T.rows, T.banks, T.bankgrps, 1, true⟩ : dram_config) = T := by
      cases T
      simp only at hfw hrk
      simp only [hfw, hrk]
    rw [e]
  · obtain ⟨h1, h2, h3, h4, h5, h6, h7, h8⟩ := hT
    rw [(calculate_dram_size_exact T (by omega)).1, hfw, hrk]
    simp

theorem detection_round_trip_witness :
    (∃ l', detect_geometry ⟨always_calibrates, synthetic_mem_matches ⟨10, 16, 3, 2, 1, true⟩⟩
        ⟨.DDR4, 792, 0, true⟩ ⟨0, 0, 0, 0, 0, false⟩ [] = .ok (⟨10, 16, 3, 2, 1, true⟩, l')) ∧
    calculate_dram_size ⟨10, 16, 3, 2, 1, true⟩ = 2 ^ (10 + 16 + 3 + 2) * 4 * 2 :=
  detection_round_trip ⟨10, 16, 3, 2, 1, true⟩ ⟨.DDR4, 792, 0, true⟩ always_calibrates
    ⟨0, 0, 0, 0, 0, false⟩ [] (by decide) rfl rfl (by decide) (fun _ _ => rfl)

/-! ### Rank and width probe -/

theorem rank_hypothesis_isOk (k : Nat) : ∃ m, mctl_set_addrmap (rank_hypothesis k) = .ok m := by
  match k with
  | 0 => exact ⟨_, rfl⟩
  | 1 => exact ⟨_, rfl⟩
  | 2 => exact ⟨_, rfl⟩
  | n + 3 =>
    have e : rank_hypothesis (n + 3) = ⟨9, 14, 2, 0, 0, false⟩ := rfl
    rw [e]
    exact ⟨_, rfl⟩

/-- The bring-up of a rank hypothesis never panics. -/
theorem mctl_core_init_rank_hypothesis (hw : Hw) (para : dram_para) (k : Nat)
    (l : List dram_config) :
    mctl_core_init hw para (rank_hypothesis k) l =
      .ok (bringup_succeeds hw para l (rank_hypothesis k), rank_hypothesis k :: l) := by
  obtain ⟨m, hm⟩ := rank_hypothesis_isOk k
  exact mctl_core_init_ok hw para _ l m hm

/-- C11: `auto_detect_ranks` tries (2 ranks, full width), (2 ranks, half width),
(1 rank, full width), (1 rank, half width) in this order, each with cols 9, rows 14,
banks 2, bankgrps 0; it stops at the first hypothesis whose bring-up succeeds, the
list of bring-ups then ends with that hypothesis, and the descriptor it leaves is
that hypothesis. (When all four fail, all four were tried and the last one is
left.) -/
theorem auto_detect_ranks_order (hw : Hw) (para : dram_para) (init : dram_config)
    (l : List dram_config) :
    (auto_detect_ranks hw para init l =
      if bringup_succeeds hw para l (rank_hypothesis 0) then
        .ok (rank_hypothesis 0, rank_hypothesis 0 :: l)
      else if bringup_succeeds hw para (rank_hypothesis 0 :: l) (rank_hypothesis 1) then
        .ok (rank_hypothesis 1, rank_hypothesis 1 :: rank_hypothesis 0 :: l)
      else if bringup_succeeds hw para (rank_hypothesis 1 :: rank_hypothesis 0 :: l)
          (rank_hypothesis 2) then
        .ok (rank_hypothesis 2, rank_hypothesis 2 :: rank_hypothesis 1 :: rank_hypothesis 0 :: l)
      else
        .ok (rank_hypothesis 3,
          rank_hypothesis 3 :: rank_hypothesis 2 :: rank_hypothesis 1 :: rank_hypothesis 0 :: l)) ∧
    rank_hypothesis 0 = ⟨9, 14, 2, 0, 1, true⟩ ∧ rank_hypothesis 1 = ⟨9, 14, 2, 0, 1, false⟩ ∧
    rank_hypothesis 2 = ⟨9, 14, 2, 0, 0, true⟩ ∧ rank_hypothesis 3 = ⟨9, 14, 2, 0, 0, false⟩ := by
  refine ⟨?_, rfl, rfl, rfl, rfl⟩
  have e0 := mctl_core_init_rank_hypothesis hw para 0 l
  have e1 := mctl_core_init_rank_hypothesis hw para 1 (rank_hypothesis 0 :: l)
  have e2 := mctl_core_init_rank_hypothesis hw para 2 (rank_hypothesis 1 :: rank_hypothesis 0 :: l)
  have e3 := mctl_core_init_rank_hypothesis hw para 3
    (rank_hypothesis 2 :: rank_hypothesis 1 :: rank_hypothesis 0 :: l)
  simp only [rank_hypothesis] at e0 e1 e2 e3 ⊢
  simp only [auto_detect_ranks, auto_detect_ranks_loop, e0]
  cases h0 : bringup_succeeds hw para l ⟨9, 14, 2, 0, 1, true⟩
  · simp only [e1, Bool.false_eq_true, if_false]
    cases h1 : bringup_succeeds hw para (⟨9, 14, 2, 0, 1, true⟩ :: l) ⟨9, 14, 2, 0, 1, false⟩
    · simp only [e2, Bool.false_eq_true, if_false]
      cases h2 : bringup_succeeds hw para
          (⟨9, 14, 2, 0, 1, false⟩ :: ⟨9, 14, 2, 0, 1, true⟩ :: l) ⟨9, 14, 2, 0, 0, true⟩
      · simp only [e3, Bool.false_eq_true, if_false]
        cases h3 : bringup_succeeds hw para
          (⟨9, 14, 2, 0, 0, true⟩ :: ⟨9, 14, 2, 0, 1, false⟩ :: ⟨9, 14, 2, 0, 1, true⟩ :: l)
          ⟨9, 14, 2, 0, 0, false⟩ <;> rfl
      · simp only [if_true]
    · simp only [if_true]
  · simp only [if_true]

/-! ### Detection on a half-width bus -/

/-- C12, the code at a failing input: on DDR4 with read calibration enabled and a
hardware on which every calibration fails, all four rank hypotheses fail, yet
`sunxi_dram_init` does not return 0: the detection goes on with the last hypothesis
(one rank, half width) and its first bring-up (cols 8, bankgrps 2) panics in
`mctl_set_addrmap` with `col_bits = 7`. -/
theorem sunxi_dram_init_exhausted_ddr4 :
    (∀ l k, bringup_succeeds ⟨never_calibrates, fun _ _ => false⟩
        ⟨.DDR4, 792, 0, true⟩ l (rank_hypothesis k) = false) ∧
    auto_detect_ranks ⟨never_calibrates, fun _ _ => false⟩ ⟨.DDR4, 792, 0, true⟩
        ⟨0, 0, 0, 0, 0, false⟩ [] =
      .ok (⟨9, 14, 2, 0, 0, false⟩,
        [rank_hypothesis 3, rank_hypothesis 2, rank_hypothesis 1, rank_hypothesis 0]) ∧
    sunxi_dram_init ⟨never_calibrates, fun _ _ => false⟩ (fun _ _ => false)
        ⟨.DDR4, 792, 0, true⟩ ⟨0, 0, 0, 0, 0, false⟩ = .error (.col_bits 7) := by
  refine ⟨fun _ _ => rfl, rfl, rfl⟩

/-- C17, the code at a failing input: on DDR4 with a memory that calibrates only on
a half-width bus, `auto_detect_ranks` selects (2 ranks, half width), and the first
bring-up of `mctl_auto_detect_dram_size` (cols 8, rows 14, banks 2, bankgrps 2, half
width) is rejected by `mctl_set_addrmap`: the run ends in the panic
`invalid dram configuration (col_bits = 7)`. On LPDDR4 the same happens at the bring-up
that follows a column probe which selects 8 columns. -/
theorem detection_panics_on_half_width :
    auto_detect_ranks ⟨calibrates_half_width, fun _ _ => false⟩ ⟨.DDR4, 792, 0, true⟩
        ⟨0, 0, 0, 0, 0, false⟩ [] =
      .ok (⟨9, 14, 2, 0, 1, false⟩, [rank_hypothesis 1, rank_hypothesis 0]) ∧
    mctl_set_addrmap ⟨8, 14, 2, 2, 1, false⟩ = .error (.col_bits 7) ∧
    detect_geometry ⟨calibrates_half_width, fun _ _ => false⟩ ⟨.DDR4, 792, 0, true⟩
        ⟨0, 0, 0, 0, 0, false⟩ [] = .error (.col_bits 7) ∧
    sunxi_dram_init ⟨calibrates_half_width, fun _ _ => false⟩ (fun _ _ => false)
        ⟨.DDR4, 792, 0, true⟩ ⟨0, 0, 0, 0, 0, false⟩ = .error (.col_bits 7) ∧
    detect_geometry ⟨calibrates_half_width, fun _ _ => true⟩ ⟨.LPDDR4, 792, 0, true⟩
        ⟨0, 0, 0, 0, 0, false⟩ [] = .error (.col_bits 7) := by
  refine ⟨rfl, rfl, rfl, rfl, rfl⟩

/-! ### The steps of a completed width detection -/

/-- The bank-group step changes only the bank-group field, to 0, 1 or 2. -/
theorem detect_bankgrps_shape (hw : Hw) (para : dram_para) (c cb : dram_config)
    (l l1 : List dram_config) (shift : Nat)
    (h : detect_bankgrps hw para c l shift = .ok (cb, l1)) :
    cb = { c with bankgrps := cb.bankgrps } ∧ cb.bankgrps ≤ 2 := by
  unfold detect_bankgrps at h
  split_ifs at h with ht
  · unfold mctl_core_init at h
    cases hm : mctl_set_addrmap { c with bankgrps := 2 } with
    | error e => simp [hm] at h
    | ok m =>
      simp only [hm] at h
      split_ifs at h with hmm
      · injection h with h
        injection h with h1 h2
        subst h1
        exact ⟨rfl, by simp⟩
      · injection h with h
        injection h with h1 h2
        subst h1
        exact ⟨rfl, by simp⟩
  · injection h with h
    injection h with h1 h2
    subst h1
    exact ⟨rfl, by simp⟩

/-- What a completed run of `mctl_auto_detect_dram_size` went through: the bank-group
step, then three bring-ups, each accepted by `mctl_set_addrmap` and each followed by
its probe, with the shifts of the source. -/
theorem mctl_auto_detect_dram_size_steps (hw : Hw) (para : dram_para)
    (config c' : dram_config) (l l' : List dram_config)
    (h : mctl_auto_detect_dram_size hw para config l = .ok (c', l')) :
    ∃ l1 m1 m2 m3,
      detect_bankgrps hw para ⟨8, 14, 2, config.bankgrps, config.ranks, config.bus_full_width⟩
          l (1 + if config.bus_full_width then 1 else 0) =
        .ok (⟨8, 14, 2, c'.bankgrps, config.ranks, config.bus_full_width⟩, l1) ∧
      c'.bankgrps ≤ 2 ∧ c'.ranks = config.ranks ∧
      c'.bus_full_width = config.bus_full_width ∧
      mctl_set_addrmap ⟨12, 14, 2, c'.bankgrps, c'.ranks, c'.bus_full_width⟩ = .ok m1 ∧
      c'.cols = detect_cols
          (hw.mem_matches (⟨12, 14, 2, c'.bankgrps, c'.ranks, c'.bus_full_width⟩ :: l1))
          (1 + (if c'.bus_full_width then 1 else 0) + c'.bankgrps) ∧
      mctl_set_addrmap ⟨c'.cols, 14, 3, c'.bankgrps, c'.ranks, c'.bus_full_width⟩ = .ok m2 ∧
      c'.banks = detect_banks
          (hw.mem_matches (⟨c'.cols, 14, 3, c'.bankgrps, c'.ranks, c'.bus_full_width⟩ ::
            ⟨12, 14, 2, c'.bankgrps, c'.ranks, c'.bus_full_width⟩ :: l1))
          (1 + (if c'.bus_full_width then 1 else 0) + c'.bankgrps + c'.cols) ∧
      mctl_set_addrmap ⟨c'.cols, 18, c'.banks, c'.bankgrps, c'.ranks, c'.bus_full_width⟩
        = .ok m3 ∧
      c'.rows = detect_rows
          (hw.mem_matches
            (⟨c'.cols, 18, c'.banks, c'.bankgrps, c'.ranks, c'.bus_full_width⟩ ::
              ⟨c'.cols, 14, 3, c'.bankgrps, c'.ranks, c'.bus_full_width⟩ ::
              ⟨12, 14, 2, c'.bankgrps, c'.ranks, c'.bus_full_width⟩ :: l1))
          (1 + (if c'.bus_full_width then 1 else 0) + c'.bankgrps + c'.cols + c'.banks) ∧
      l' = ⟨c'.cols, 18, c'.banks, c'.bankgrps, c'.ranks, c'.bus_full_width⟩ ::
              ⟨c'.cols, 14, 3, c'.bankgrps, c'.ranks, c'.bus_full_width⟩ ::
              ⟨12, 14, 2, c'.bankgrps, c'.ranks, c'.bus_full_width⟩ :: l1 := by
  unfold mctl_auto_detect_dram_size at h
  simp only at h
  cases hb : detect_bankgrps hw para
      ⟨8, 14, 2, config.bankgrps, config.ranks, config.bus_full_width⟩ l
      (1 + if config.bus_full_width then 1 else 0) with
  | error e => simp [hb] at h
  | ok r =>
    obtain ⟨cb, l1⟩ := r
    obtain ⟨hshape, hbg2⟩ := detect_bankgrps_shape hw para _ cb l l1 _ hb
    generalize cb.bankgrps = bg at hshape hbg2
    subst hshape
    simp only [hb, mctl_core_init] at h
    cases hm1 : mctl_set_addrmap ⟨12, 14, 2, bg, config.ranks, config.bus_full_width⟩ with
    | error e => simp [hm1] at h
    | ok m1 =>
      simp only [hm1] at h
      generalize hc : detect_cols
        (hw.mem_matches (⟨12, 14, 2, bg, config.ranks, config.bus_full_width⟩ :: l1))
        (1 + (if config.bus_full_width then 1 else 0) + bg) = cc at h
      cases hm2 : mctl_set_addrmap ⟨cc, 14, 3, bg, config.ranks, config.bus_full_width⟩ with
      | error e => simp [hm2] at h
      | ok m2 =>
        simp only [hm2] at h
        generalize hk : detect_banks
          (hw.mem_matches (⟨cc, 14, 3, bg, config.ranks, config.bus_full_width⟩ ::
            ⟨12, 14, 2, bg, config.ranks, config.bus_full_width⟩ :: l1))
          (1 + (if config.bus_full_width then 1 else 0) + bg + cc) = bb at h
        cases hm3 : mctl_set_addrmap ⟨cc, 18, bb, bg, config.ranks, config.bus_full_width⟩ with
        | error e => simp [hm3] at h
        | ok m3 =>
          simp only [hm3] at h
          injection h with h
          injection h with h1 h2
          subst h1 h2
          exact ⟨l1, m1, m2, m3, rfl, hbg2, rfl, rfl, hm1, hc.symm, hm2, hk.symm, hm3, rfl, rfl⟩

/-- C13: the bank-group step of `mctl_auto_detect_dram_size`. For DDR4 the bring-up
is run with bankgrps 2, cols 8, banks 2, rows 14 (rank field and bus width as found
by the rank probe; `mctl_set_addrmap` accepts it on a full-width bus), and the
resulting bankgrps is 2 when the probed offset `1 << (shift + 4)` does not alias
address 0 and 1 when it does; for every other type bankgrps is 0, with no bring-up
and whatever a probe would report. The bankgrps of a completed run of
`mctl_auto_detect_dram_size` is the one left by this step. -/
theorem bankgrp_step (hw : Hw) (para : dram_para) (config : dram_config)
    (l : List dram_config) :
    (para.type = .DDR4 →
      detect_bankgrps hw para ⟨8, 14, 2, config.bankgrps, config.ranks, config.bus_full_width⟩
          l (1 + if config.bus_full_width then 1 else 0) =
        match mctl_set_addrmap ⟨8, 14, 2, 2, config.ranks, config.bus_full_width⟩ with
        | .error e => .error e
        | .ok _ =>
          .ok (⟨8, 14, 2,
                if hw.mem_matches (⟨8, 14, 2, 2, config.ranks, config.bus_full_width⟩ :: l)
                    (shl64 ((1 + if config.bus_full_width then 1 else 0) + 4))
                then 1 else 2,
                config.ranks, config.bus_full_width⟩,
              ⟨8, 14, 2, 2, config.ranks, config.bus_full_width⟩ :: l)) ∧
    (config.bus_full_width = true → config.ranks ≤ 1 →
      ∃ m, mctl_set_addrmap ⟨8, 14, 2, 2, config.ranks, config.bus_full_width⟩ = .ok m) ∧
    (para.type ≠ .DDR4 → ∀ hw' : Hw,
      detect_bankgrps hw' para ⟨8, 14, 2, config.bankgrps, config.ranks, config.bus_full_width⟩
          l (1 + if config.bus_full_width then 1 else 0) =
        .ok (⟨8, 14, 2, 0, config.ranks, config.bus_full_width⟩, l)) ∧
    (∀ c' l', mctl_auto_detect_dram_size hw para config l = .ok (c', l') →
      ∃ l1, detect_bankgrps hw para
          ⟨8, 14, 2, config.bankgrps, config.ranks, config.bus_full_width⟩
          l (1 + if config.bus_full_width then 1 else 0) =
        .ok (⟨8, 14, 2, c'.bankgrps, config.ranks, config.bus_full_width⟩, l1)) := by
  refine ⟨fun ht => ?_, fun hfw hrk => ?_, fun ht hw' => ?_, fun c' l' h => ?_⟩
  · unfold detect_bankgrps mctl_core_init
    simp only [if_pos ht]
    cases hm : mctl_set_addrmap ⟨8, 14, 2, 2, config.ranks, config.bus_full_width⟩ with
    | error e => rfl
    | ok m =>
      simp only
      split_ifs <;> rfl
  · refine mctl_set_addrmap_isOk_full
      ⟨8, 14, 2, 2, config.ranks, config.bus_full_width⟩ ?_ hfw
    unfold in_bounds
    simp only
    omega
  · unfold detect_bankgrps
    simp only [if_neg ht]
  · obtain ⟨l1, m1, m2, m3, hb, -⟩ := mctl_auto_detect_dram_size_steps hw para config c' l l' h
    exact ⟨l1, hb⟩

theorem bankgrp_step_witness :
    detect_bankgrps ⟨always_calibrates, synthetic_mem_matches ⟨10, 16, 3, 1, 1, true⟩⟩
        ⟨.DDR4, 792, 0, true⟩ ⟨8, 14, 2, 0, 1, true⟩ [rank_hypothesis 0] 2 =
      .ok (⟨8, 14, 2, 1, 1, true⟩, [⟨8, 14, 2, 2, 1, true⟩, rank_hypothesis 0]) :=
  ((bankgrp_step ⟨always_calibrates, synthetic_mem_matches ⟨10, 16, 3, 1, 1, true⟩⟩
    ⟨.DDR4, 792, 0, true⟩ ⟨9, 14, 2, 0, 1, true⟩ [rank_hypothesis 0]).1 rfl).trans rfl

/-! ### Size, probe offsets and the address map -/

theorem hif_col_bits_eq (c : dram_config) (hu : is_u8_config c) (h9 : 1 ≤ c.cols) :
    hif_col_bits c = if c.bus_full_width then c.cols else c.cols - 1 := by
  unfold hif_col_bits
  rw [Nat.mod_eq_of_lt hu.1]
  split_ifs
  · rfl
  · have := hu.1
    omega

/-- An accepted descriptor has at least 8 columns. -/
theorem accepted_cols_ge (c : dram_config) (m : addrmap) (hu : is_u8_config c)
    (h : mctl_set_addrmap c = .ok m) : 8 ≤ c.cols ∧ c.cols ≤ 13 := by
  obtain ⟨a1, a2, a3, -⟩ := mctl_set_addrmap_accepted c m hu h
  have hc := hu.1
  unfold hif_col_bits at a2 a3
  rw [Nat.mod_eq_of_lt hc] at a2 a3
  split_ifs at a2 a3 <;> omega

theorem four_mul_two_pow (n : Nat) : 4 * 2 ^ n = 2 ^ (n + 2) := by
  rw [pow_add]
  ring

/-- C19: for every descriptor that `mctl_set_addrmap` accepts, with either bus width,
`calculate_dram_size` equals `4 * 2^n` bytes, where `n` is the final HIF offset
computed by `mctl_set_addrmap`, namely bankgrps + column bits after the half-width
adjustment + banks + rows + ranks. -/
theorem size_matches_final_offset (c : dram_config) (m : addrmap) (hu : is_u8_config c)
    (h : mctl_set_addrmap c = .ok m) :
    calculate_dram_size c = 4 * 2 ^ m.final_offset ∧
    m.final_offset =
      c.bankgrps + (if c.bus_full_width then c.cols else c.cols - 1) + c.banks + c.rows
        + c.ranks := by
  obtain ⟨a1, a2, a3, a4, a5, a6, a7, a8, -⟩ := mctl_set_addrmap_accepted c m hu h
  obtain ⟨c1, c2⟩ := accepted_cols_ge c m hu h
  have hfin := (mctl_set_addrmap_sel c m hu h).2.2.2.2.2.2
  have hcb := hif_col_bits_eq c hu (by omega)
  rw [hcb] at hfin a2 a3
  refine ⟨?_, hfin⟩
  rw [hfin, (calculate_dram_size_exact c (by omega)).1, four_mul_two_pow]
  cases hfw : c.bus_full_width
  · simp only [hfw, Bool.false_eq_true, if_false] at a2 a3 ⊢
    have e : c.bankgrps + (c.cols - 1) + c.banks + c.rows + c.ranks + 2 =
        (c.cols + c.rows + c.banks + c.bankgrps) + 1 + c.ranks := by omega
    rw [e, pow_add, pow_add]
    ring
  · simp only [if_true]
    have e : c.bankgrps + c.cols + c.banks + c.rows + c.ranks + 2 =
        (c.cols + c.rows + c.banks + c.bankgrps) + 2 + c.ranks := by omega
    rw [e, pow_add, pow_add]
    ring

theorem size_matches_final_offset_witness :
    is_u8_config ⟨10, 16, 3, 2, 1, false⟩ ∧
    calculate_dram_size ⟨10, 16, 3, 2, 1, false⟩ = 4 * 2 ^ (2 + 9 + 3 + 16 + 1) :=
  ⟨by decide,
   (size_matches_final_offset ⟨10, 16, 3, 2, 1, false⟩ _ (by decide) rfl).1⟩

/-- The positions behind the probed offsets. Under a descriptor that
`mctl_set_addrmap` accepts, `1 << (w + shift)` is `4 * 2^p` with `p` the HIF position
of column bit `w` (column index `w - 1` on a half-width bus) under cols 12 with
`shift = 1 + width + bankgrps`, of bank bit `w` under banks 3 with `shift` increased
by cols, of row bit `w` under rows 18 with `shift` increased further by banks; on a
full-width bus `1 << (2 + 4)` is `4 * 2^p` for `p` the position of BG1 under
bankgrps 2. -/
theorem addrmap_probe_positions (bg rk c b : Nat) (fw : Bool) :
    (∀ m, is_u8_config ⟨12, 14, 2, bg, rk, fw⟩ →
      mctl_set_addrmap ⟨12, 14, 2, bg, rk, fw⟩ = .ok m →
      ∀ w, 8 ≤ w → w < 12 → ∃ p,
        m.sel (.col (if fw then w else w - 1)) = .hif p ∧
        shl64 (w + (1 + (if fw then 1 else 0) + bg)) = 4 * 2 ^ p) ∧
    (∀ m, is_u8_config ⟨c, 14, 3, bg, rk, fw⟩ →
      mctl_set_addrmap ⟨c, 14, 3, bg, rk, fw⟩ = .ok m →
      ∀ w, 2 ≤ w → w < 3 → ∃ p,
        m.sel (.bank w) = .hif p ∧
        shl64 (w + (1 + (if fw then 1 else 0) + bg + c)) = 4 * 2 ^ p) ∧
    (∀ m, is_u8_config ⟨c, 18, b, bg, rk, fw⟩ →
      mctl_set_addrmap ⟨c, 18, b, bg, rk, fw⟩ = .ok m →
      ∀ w, 14 ≤ w → w < 18 → ∃ p,
        m.sel (.row w) = .hif p ∧
        shl64 (w + (1 + (if fw then 1 else 0) + bg + c + b)) = 4 * 2 ^ p) ∧
    (∀ m, is_u8_config ⟨8, 14, 2, 2, rk, true⟩ →
      mctl_set_addrmap ⟨8, 14, 2, 2, rk, true⟩ = .ok m →
      ∃ p, m.sel (.bg 1) = .hif p ∧ shl64 ((1 + 1) + 4) = 4 * 2 ^ p) := by
  refine ⟨fun m hu hm w hw1 hw2 => ?_, fun m hu hm w hw1 hw2 => ?_,
    fun m hu hm w hw1 hw2 => ?_, fun m hu hm => ?_⟩
  · obtain ⟨a1, a2, a3, a4, a5, a6, a7, a8, -⟩ := mctl_set_addrmap_accepted _ m hu hm
    have hcb := hif_col_bits_eq _ hu (by simp : 1 ≤ (⟨12, 14, 2, bg, rk, fw⟩ : dram_config).cols)
    have hsel := (mctl_set_addrmap_sel _ m hu hm).2.1 (if fw then w else w - 1)
      (by split_ifs <;> omega)
    rw [hcb] at hsel
    simp only at hsel a1
    refine ⟨bg + (if fw then w else w - 1), ?_, ?_⟩
    · rw [hsel, if_pos]
      cases fw <;> simp <;> omega
    · rw [four_mul_two_pow, shl64_of_lt (by split_ifs <;> omega)]
      congr 1
      cases fw <;> simp <;> omega
  · obtain ⟨a1, a2, a3, a4, a5, a6, a7, a8, -⟩ := mctl_set_addrmap_accepted _ m hu hm
    obtain ⟨c1, c2⟩ := accepted_cols_ge _ m hu hm
    simp only at c1 c2 a1
    have hcb := hif_col_bits_eq _ hu (by simp only; omega)
    have hsel := (mctl_set_addrmap_sel _ m hu hm).2.2.1 w
    rw [hcb] at hsel
    simp only at hsel
    rw [if_pos hw2] at hsel
    refine ⟨_, hsel, ?_⟩
    rw [four_mul_two_pow, shl64_of_lt (by split_ifs <;> omega)]
    congr 1
    cases fw <;> simp <;> omega
  · obtain ⟨a1, a2, a3, a4, a5, a6, a7, a8, -⟩ := mctl_set_addrmap_accepted _ m hu hm
    obtain ⟨c1, c2⟩ := accepted_cols_ge _ m hu hm
    simp only at c1 c2 a1 a4 a5
    have hcb := hif_col_bits_eq _ hu (by simp only; omega)
    have hsel := (mctl_set_addrmap_sel _ m hu hm).2.2.2.1 w
    rw [hcb] at hsel
    simp only at hsel
    rw [if_pos hw2] at hsel
    refine ⟨_, hsel, ?_⟩
    rw [four_mul_two_pow, shl64_of_lt (by split_ifs <;> omega)]
    congr 1
    cases fw <;> simp <;> omega
  · have hsel := (mctl_set_addrmap_sel _ m hu hm).1 1
    simp only [show (1 : Nat) < 2 from by norm_num, if_true] at hsel
    exact ⟨_, hsel, by decide⟩

/-- The traced probe loop returns what `probe_loop` returns. -/
theorem probe_loop_traced_fst (hw : Hw) (l : List dram_config) (kind : probe_kind)
    (shift hi : Nat) :
    ∀ fuel w, (probe_loop_traced hw l kind shift hi fuel w).1 =
      probe_loop (hw.mem_matches l) shift hi fuel w := by
  intro fuel
  induction fuel with
  | zero => intro w; rfl
  | succ n ih =>
    intro w
    simp only [probe_loop_traced, probe_loop]
    split_ifs
    · rfl
    · exact ih (w + 1)
    · rfl

/-- Every call recorded by the traced probe loop is a call of that loop: made under
the bring-ups at hand, for a candidate width of the loop, at `1 << (w + shift)`. -/
theorem probe_loop_traced_mem (hw : Hw) (l : List dram_config) (kind : probe_kind)
    (shift hi : Nat) :
    ∀ fuel w pr, pr ∈ (probe_loop_traced hw l kind shift hi fuel w).2 →
      pr.kind = kind ∧ pr.programmed = l ∧ w ≤ pr.width ∧ pr.width < hi ∧
      pr.offset = shl64 (pr.width + shift) := by
  intro fuel
  induction fuel with
  | zero => intro w pr h; simp [probe_loop_traced] at h
  | succ n ih =>
    intro w pr h
    simp only [probe_loop_traced] at h
    split_ifs at h with h1 h2
    · simp only [List.mem_singleton] at h
      subst h
      exact ⟨rfl, rfl, le_refl _, h1, rfl⟩
    · simp only [List.mem_cons] at h
      rcases h with h | h
      · subst h
        exact ⟨rfl, rfl, le_refl _, h1, rfl⟩
      · obtain ⟨a1, a2, a3, a4, a5⟩ := ih (w + 1) pr h
        exact ⟨a1, a2, by omega, a4, a5⟩
    · simp at h

/-- A probe loop that is entered records the call for its first candidate width. -/
theorem probe_loop_traced_first (hw : Hw) (l : List dram_config) (kind : probe_kind)
    (shift hi fuel w : Nat) (h : w < hi) :
    (⟨kind, w, l, shl64 (w + shift)⟩ : probe) ∈
      (probe_loop_traced hw l kind shift hi (fuel + 1) w).2 := by
  simp only [probe_loop_traced, if_pos h]
  split_ifs <;> simp

/-- The traced bank-group step returns what `detect_bankgrps` returns. -/
theorem detect_bankgrps_traced_fst (hw : Hw) (para : dram_para) (config : dram_config)
    (l : List dram_config) (shift : Nat) :
    (detect_bankgrps_traced hw para config l shift).1 =
      detect_bankgrps hw para config l shift := by
  unfold detect_bankgrps_traced detect_bankgrps
  split_ifs with ht
  · simp only
    generalize mctl_core_init hw para _ l = r
    rcases r with e | ⟨b, l2⟩
    · rfl
    · simp only
      split_ifs <;> rfl
  · rfl

/-- The traced detection returns what `mctl_auto_detect_dram_size` returns. -/
theorem mctl_auto_detect_dram_size_traced_fst (hw : Hw) (para : dram_para)
    (config : dram_config) (l : List dram_config) :
    (mctl_auto_detect_dram_size_traced hw para config l).1 =
      mctl_auto_detect_dram_size hw para config l := by
  unfold mctl_auto_detect_dram_size_traced mctl_auto_detect_dram_size
  simp only [detect_cols, detect_banks, detect_rows]
  rw [← detect_bankgrps_traced_fst]
  generalize detect_bankgrps_traced hw para _ l _ = r0
  obtain ⟨r0, tr0⟩ := r0
  rcases r0 with e | ⟨c0, l0⟩
  · rfl
  · simp only [probe_loop_traced_fst]
    generalize mctl_core_init hw para _ l0 = r1
    rcases r1 with e | ⟨b1, l1⟩
    · rfl
    · simp only [probe_loop_traced_fst]
      generalize mctl_core_init hw para _ l1 = r2
      rcases r2 with e | ⟨b2, l2⟩
      · rfl
      · simp only [probe_loop_traced_fst]
        generalize mctl_core_init hw para _ l2 = r3
        rcases r3 with e | ⟨b3, l3⟩
        · rfl
        · simp only [probe_loop_traced_fst]

/-- The calls of the column probe agree with the map of the bring-up before it. -/
theorem col_probes_agree (hw : Hw) (l1 : List dram_config) (bg rk : Nat) (fw : Bool)
    (m : addrmap) (hu : is_u8_config ⟨12, 14, 2, bg, rk, fw⟩)
    (hm : mctl_set_addrmap ⟨12, 14, 2, bg, rk, fw⟩ = .ok m) :
    ∀ pr ∈ (probe_loop_traced hw (⟨12, 14, 2, bg, rk, fw⟩ :: l1) .col
        (1 + (if fw then 1 else 0) + bg) 12 4 8).2, probe_agrees fw pr := by
  intro pr hpr
  obtain ⟨k1, k2, k3, k4, k5⟩ := probe_loop_traced_mem _ _ _ _ _ _ _ pr hpr
  obtain ⟨p, hp1, hp2⟩ := (addrmap_probe_positions bg rk 0 0 fw).1 m hu hm pr.width k3 k4
  refine ⟨_, l1, m, p, k2, rfl, hm, ?_, ?_, ?_⟩
  · rw [k1]
    exact hp1
  · rw [k5]
    exact hp2
  · rw [k1]
    exact ⟨rfl, k3, k4, k5⟩

/-- The call of the bank probe agrees with the map of the bring-up before it. -/
theorem bank_probes_agree (hw : Hw) (l1 : List dram_config) (c bg rk : Nat) (fw : Bool)
    (m : addrmap) (hu : is_u8_config ⟨c, 14, 3, bg, rk, fw⟩)
    (hm : mctl_set_addrmap ⟨c, 14, 3, bg, rk, fw⟩ = .ok m) :
    ∀ pr ∈ (probe_loop_traced hw (⟨c, 14, 3, bg, rk, fw⟩ :: l1) .bank
        (1 + (if fw then 1 else 0) + bg + c) 3 1 2).2, probe_agrees fw pr := by
  intro pr hpr
  obtain ⟨k1, k2, k3, k4, k5⟩ := probe_loop_traced_mem _ _ _ _ _ _ _ pr hpr
  obtain ⟨p, hp1, hp2⟩ :=
    (addrmap_probe_positions bg rk c 0 fw).2.1 m hu hm pr.width k3 k4
  refine ⟨_, l1, m, p, k2, rfl, hm, ?_, ?_, ?_⟩
  · rw [k1]
    exact hp1
  · rw [k5]
    exact hp2
  · rw [k1]
    exact ⟨rfl, by omega, k5⟩

/-- The calls of the row probe agree with the map of the bring-up before it. -/
theorem row_probes_agree (hw : Hw) (l1 : List dram_config) (c b bg rk : Nat) (fw : Bool)
    (m : addrmap) (hu : is_u8_config ⟨c, 18, b, bg, rk, fw⟩)
    (hm : mctl_set_addrmap ⟨c, 18, b, bg, rk, fw⟩ = .ok m) :
    ∀ pr ∈ (probe_loop_traced hw (⟨c, 18, b, bg, rk, fw⟩ :: l1) .row
        (1 + (if fw then 1 else 0) + bg + c + b) 18 4 14).2, probe_agrees fw pr := by
  intro pr hpr
  obtain ⟨k1, k2, k3, k4, k5⟩ := probe_loop_traced_mem _ _ _ _ _ _ _ pr hpr
  obtain ⟨p, hp1, hp2⟩ :=
    (addrmap_probe_positions bg rk c b fw).2.2.1 m hu hm pr.width k3 k4
  refine ⟨_, l1, m, p, k2, rfl, hm, ?_, ?_, ?_⟩
  · rw [k1]
    exact hp1
  · rw [k5]
    exact hp2
  · rw [k1]
    exact ⟨rfl, k3, k4, k5⟩

/-- The call of the bank-group step agrees with the map of the bring-up before it,
which is accepted on a full-width bus only; the step records a call exactly when it
returns on DDR4. -/
theorem bankgrp_probe_agrees (hw : Hw) (para : dram_para) (bg0 rk : Nat) (fw : Bool)
    (l : List dram_config) (hrk : rk < 256) :
    (∀ pr ∈ (detect_bankgrps_traced hw para ⟨8, 14, 2, bg0, rk, fw⟩ l
        (1 + if fw then 1 else 0)).2, probe_agrees fw pr) ∧
    (para.type = .DDR4 →
      ∀ r, (detect_bankgrps_traced hw para ⟨8, 14, 2, bg0, rk, fw⟩ l
          (1 + if fw then 1 else 0)).1 = .ok r →
        ∃ pr ∈ (detect_bankgrps_traced hw para ⟨8, 14, 2, bg0, rk, fw⟩ l
          (1 + if fw then 1 else 0)).2, pr.kind = .bankgrp) := by
  unfold detect_bankgrps_traced mctl_core_init
  by_cases ht : para.type = .DDR4
  · simp only [if_pos ht]
    rcases hm : mctl_set_addrmap ⟨8, 14, 2, 2, rk, fw⟩ with e | m
    · simp
    · have hu : is_u8_config ⟨8, 14, 2, 2, rk, fw⟩ := by
        unfold is_u8_config
        simp only
        omega
      obtain ⟨a1, a2, -⟩ := mctl_set_addrmap_accepted _ m hu hm
      rw [hif_col_bits_eq _ hu (by simp)] at a2
      simp only at a2
      have hfw : fw = true := by
        cases fw
        · simp at a2
        · rfl
      subst hfw
      obtain ⟨p, hp1, hp2⟩ := (addrmap_probe_positions 0 rk 0 0 true).2.2.2 m hu hm
      have key : probe_agrees true
          ⟨.bankgrp, 1, ⟨8, 14, 2, 2, rk, true⟩ :: l, shl64 (1 + 1 + 4)⟩ :=
        ⟨_, l, m, p, rfl, rfl, hm, hp1, hp2, rfl, rfl, rfl, rfl⟩
      simp only [if_true]
      split_ifs
      · exact ⟨fun pr hpr => by
          simp only [List.mem_singleton] at hpr
          subst hpr
          exact key, fun _ _ _ => ⟨_, List.mem_singleton.mpr rfl, rfl⟩⟩
      · exact ⟨fun pr hpr => by
          simp only [List.mem_singleton] at hpr
          subst hpr
          exact key, fun _ _ _ => ⟨_, List.mem_singleton.mpr rfl, rfl⟩⟩
  · simp [if_neg ht, ht]

/-- Every call recorded by the traced detection agrees with the address map, and a run
that returns has recorded a call of each loop (of the bank-group step on DDR4). -/
theorem mctl_auto_detect_dram_size_traced_probes (hw : Hw) (para : dram_para)
    (config : dram_config) (l : List dram_config) (hr : config.ranks < 256) :
    (∀ pr ∈ (mctl_auto_detect_dram_size_traced hw para config l).2,
      probe_agrees config.bus_full_width pr) ∧
    (∀ r, (mctl_auto_detect_dram_size_traced hw para config l).1 = .ok r →
      ∀ kind, (kind = .bankgrp → para.type = .DDR4) →
        ∃ pr ∈ (mctl_auto_detect_dram_size_traced hw para config l).2, pr.kind = kind) := by
  obtain ⟨c0, r0, b0, bg0, rk, fw⟩ := config
  simp only at hr
  obtain ⟨hbg1, hbg2⟩ := bankgrp_probe_agrees hw para bg0 rk fw l hr
  have hshape : ∀ cb l1,
      (detect_bankgrps_traced hw para ⟨8, 14, 2, bg0, rk, fw⟩ l
        (1 + if fw then 1 else 0)).1 = .ok (cb, l1) →
      cb = { (⟨8, 14, 2, bg0, rk, fw⟩ : dram_config) with bankgrps := cb.bankgrps } ∧
        cb.bankgrps ≤ 2 := fun cb l1 h =>
    detect_bankgrps_shape hw para _ cb l l1 _ (by rw [← detect_bankgrps_traced_fst]; exact h)
  unfold mctl_auto_detect_dram_size_traced
  simp only
  generalize detect_bankgrps_traced hw para ⟨8, 14, 2, bg0, rk, fw⟩ l
    (1 + if fw then 1 else 0) = d at hbg1 hbg2 hshape
  obtain ⟨r, tr0⟩ := d
  rcases r with e | ⟨cb, l1⟩
  · exact ⟨hbg1, fun r h => by simp at h⟩
  · obtain ⟨hs, hb2⟩ := hshape cb l1 rfl
    generalize cb.bankgrps = bg at hs hb2
    subst hs
    simp only at hbg1 hbg2
    simp only [mctl_core_init]
    rcases hm1 : mctl_set_addrmap ⟨12, 14, 2, bg, rk, fw⟩ with e | m1
    · exact ⟨hbg1, fun r h => by simp at h⟩
    · simp only
      have hu1 : is_u8_config ⟨12, 14, 2, bg, rk, fw⟩ := by
        unfold is_u8_config
        simp only
        omega
      have hcol := col_probes_agree hw l1 bg rk fw m1 hu1 hm1
      have hcol1 := probe_loop_traced_first hw (⟨12, 14, 2, bg, rk, fw⟩ :: l1) .col
        (1 + (if fw then 1 else 0) + bg) 12 3 8 (by omega)
      obtain ⟨c1, c2, -, -⟩ := probe_loop_spec
        (hw.mem_matches (⟨12, 14, 2, bg, rk, fw⟩ :: l1))
        (1 + (if fw then 1 else 0) + bg) 12 4 8 (by omega) (by omega)
      rw [← probe_loop_traced_fst hw _ .col] at c1 c2
      generalize probe_loop_traced hw (⟨12, 14, 2, bg, rk, fw⟩ :: l1) .col
        (1 + (if fw then 1 else 0) + bg) 12 4 8 = rc at hcol hcol1 c1 c2
      obtain ⟨cc, trc⟩ := rc
      simp only at hcol hcol1 c1 c2
      rcases hm2 : mctl_set_addrmap ⟨cc, 14, 3, bg, rk, fw⟩ with e | m2
      · refine ⟨fun pr hpr => ?_, fun r h => by simp at h⟩
        rcases List.mem_append.mp hpr with h | h
        · exact hbg1 pr h
        · exact hcol pr h
      · simp only
        have hu2 : is_u8_config ⟨cc, 14, 3, bg, rk, fw⟩ := by
          unfold is_u8_config
          simp only
          omega
        have hbank := bank_probes_agree hw (⟨12, 14, 2, bg, rk, fw⟩ :: l1) cc bg rk fw m2
          hu2 hm2
        have hbank1 := probe_loop_traced_first hw
          (⟨cc, 14, 3, bg, rk, fw⟩ :: ⟨12, 14, 2, bg, rk, fw⟩ :: l1) .bank
          (1 + (if fw then 1 else 0) + bg + cc) 3 0 2 (by omega)
        obtain ⟨b1, b2, -, -⟩ := probe_loop_spec
          (hw.mem_matches (⟨cc, 14, 3, bg, rk, fw⟩ :: ⟨12, 14, 2, bg, rk, fw⟩ :: l1))
          (1 + (if fw then 1 else 0) + bg + cc) 3 1 2 (by omega) (by omega)
        rw [← probe_loop_traced_fst hw _ .bank] at b1 b2
        generalize probe_loop_traced hw
          (⟨cc, 14, 3, bg, rk, fw⟩ :: ⟨12, 14, 2, bg, rk, fw⟩ :: l1) .bank
          (1 + (if fw then 1 else 0) + bg + cc) 3 1 2 = rb at hbank hbank1 b1 b2
        obtain ⟨bb, trb⟩ := rb
        simp only at hbank hbank1 b1 b2
        rcases hm3 : mctl_set_addrmap ⟨cc, 18, bb, bg, rk, fw⟩ with e | m3
        · refine ⟨fun pr hpr => ?_, fun r h => by simp at h⟩
          rcases List.mem_append.mp hpr with h | h
          · rcases List.mem_append.mp h with h | h
            · exact hbg1 pr h
            · exact hcol pr h
          · exact hbank pr h
        · simp only
          have hu3 : is_u8_config ⟨cc, 18, bb, bg, rk, fw⟩ := by
            unfold is_u8_config
            simp only
            omega
          have hrow := row_probes_agree hw
            (⟨cc, 14, 3, bg, rk, fw⟩ :: ⟨12, 14, 2, bg, rk, fw⟩ :: l1) cc bb bg rk fw m3
            hu3 hm3
          have hrow1 := probe_loop_traced_first hw
            (⟨cc, 18, bb, bg, rk, fw⟩ :: ⟨cc, 14, 3, bg, rk, fw⟩ ::
              ⟨12, 14, 2, bg, rk, fw⟩ :: l1) .row
            (1 + (if fw then 1 else 0) + bg + cc + bb) 18 3 14 (by omega)
          generalize probe_loop_traced hw
            (⟨cc, 18, bb, bg, rk, fw⟩ :: ⟨cc, 14, 3, bg, rk, fw⟩ ::
              ⟨12, 14, 2, bg, rk, fw⟩ :: l1) .row
            (1 + (if fw then 1 else 0) + bg + cc + bb) 18 4 14 = rw at hrow hrow1
          obtain ⟨rr, trr⟩ := rw
          simp only at hrow hrow1
          refine ⟨fun pr hpr => ?_, fun r _ kind hk => ?_⟩
          · rcases List.mem_append.mp hpr with h | h
            · rcases List.mem_append.mp h with h | h
              · rcases List.mem_append.mp h with h | h
                · exact hbg1 pr h
                · exact hcol pr h
              · exact hbank pr h
            · exact hrow pr h
          · cases kind with
            | bankgrp =>
              obtain ⟨pr, h1, h2⟩ := hbg2 (hk rfl) _ rfl
              exact ⟨pr, by simp [h1], h2⟩
            | col =>
              exact ⟨_, List.mem_append_left _ (List.mem_append_left _
                (List.mem_append_right _ hcol1)), rfl⟩
            | bank => exact ⟨_, List.mem_append_left _ (List.mem_append_right _ hbank1), rfl⟩
            | row => exact ⟨_, List.mem_append_right _ hrow1, rfl⟩

/-- The traced probe loop depends on the hardware only through the answers to the
calls it records. -/
theorem probe_loop_traced_congr (hw hw' : Hw) (l : List dram_config) (kind : probe_kind)
    (shift hi : Nat) :
    ∀ fuel w,
      (∀ pr ∈ (probe_loop_traced hw l kind shift hi fuel w).2,
        hw'.mem_matches pr.programmed pr.offset = hw.mem_matches pr.programmed pr.offset) →
      probe_loop_traced hw' l kind shift hi fuel w =
        probe_loop_traced hw l kind shift hi fuel w := by
  intro fuel
  induction fuel with
  | zero => intro w _; rfl
  | succ n ih =>
    intro w h
    simp only [probe_loop_traced] at h ⊢
    by_cases h1 : w < hi
    · simp only [if_pos h1] at h ⊢
      by_cases h2 : hw.mem_matches l (shl64 (w + shift)) = true
      · simp only [if_pos h2] at h ⊢
        have h3 := h _ (List.mem_singleton.mpr rfl)
        simp only at h3
        rw [h2] at h3
        simp only [if_pos h3]
      · simp only [if_neg h2] at h ⊢
        have h3 := h _ (List.mem_cons_self _ _)
        simp only at h3
        rw [h3]
        simp only [if_neg h2]
        rw [ih (w + 1) fun pr hpr => h pr (List.mem_cons_of_mem _ hpr)]
    · simp only [if_neg h1]

/-- The traced bank-group step depends on the hardware only through the answer to the
call it records. -/
theorem detect_bankgrps_traced_congr (hw hw' : Hw) (para : dram_para)
    (config : dram_config) (l : List dram_config) (shift : Nat)
    (h : ∀ pr ∈ (detect_bankgrps_traced hw para config l shift).2,
      hw'.mem_matches pr.programmed pr.offset = hw.mem_matches pr.programmed pr.offset) :
    detect_bankgrps_traced hw' para config l shift =
      detect_bankgrps_traced hw para config l shift := by
  unfold detect_bankgrps_traced at h ⊢
  simp only [mctl_core_init] at h ⊢
  by_cases ht : para.type = .DDR4
  · simp only [if_pos ht] at h ⊢
    rcases hm : mctl_set_addrmap { config with bankgrps := 2 } with e | m
    · rfl
    · simp only [hm] at h ⊢
      by_cases h2 : hw.mem_matches ({ config with bankgrps := 2 } :: l) (shl64 (shift + 4))
          = true
      · simp only [if_pos h2] at h ⊢
        have h3 := h _ (List.mem_singleton.mpr rfl)
        simp only at h3
        rw [h2] at h3
        simp only [if_pos h3]
      · simp only [if_neg h2] at h ⊢
        have h3 := h _ (List.mem_singleton.mpr rfl)
        simp only at h3
        rw [h3]
        simp only [if_neg h2]
  · simp only [if_neg ht]

/-- The traced detection depends on the hardware only through the answers to the
calls it records: a hardware that gives the same answers at these calls gives the
same run. -/
theorem mctl_auto_detect_dram_size_traced_congr (hw hw' : Hw) (para : dram_para)
    (config : dram_config) (l : List dram_config)
    (h : ∀ pr ∈ (mctl_auto_detect_dram_size_traced hw para config l).2,
      hw'.mem_matches pr.programmed pr.offset = hw.mem_matches pr.programmed pr.offset) :
    mctl_auto_detect_dram_size_traced hw' para config l =
      mctl_auto_detect_dram_size_traced hw para config l := by
  obtain ⟨c0, r0, b0, bg0, rk, fw⟩ := config
  unfold mctl_auto_detect_dram_size_traced at h ⊢
  simp only [mctl_core_init] at h ⊢
  rcases hd : detect_bankgrps_traced hw para ⟨8, 14, 2, bg0, rk, fw⟩ l
    (1 + if fw then 1 else 0) with ⟨r, tr0⟩
  rw [hd] at h
  rcases r with e | ⟨cb, l1⟩
  · simp only at h
    rw [detect_bankgrps_traced_congr hw hw' para _ l _ (by rw [hd]; exact h), hd]
  · obtain ⟨cc0, rr0, bb0, bg, rk1, fw1⟩ := cb
    simp only at h ⊢
    rcases hm1 : mctl_set_addrmap ⟨12, rr0, bb0, bg, rk1, fw1⟩ with e | m1
    · simp only [hm1] at h
      rw [detect_bankgrps_traced_congr hw hw' para _ l _ (by rw [hd]; exact h), hd]
      simp only [hm1]
    · simp only [hm1] at h
      have e1 := probe_loop_traced_congr hw hw' (⟨12, rr0, bb0, bg, rk1, fw1⟩ :: l1) .col
        (1 + (if fw1 then 1 else 0) + bg) 12 4 8
      generalize hrc : probe_loop_traced hw (⟨12, rr0, bb0, bg, rk1, fw1⟩ :: l1) .col
        (1 + (if fw1 then 1 else 0) + bg) 12 4 8 = rc at h e1
      obtain ⟨cc, trc⟩ := rc
      simp only at h e1
      rcases hm2 : mctl_set_addrmap ⟨cc, rr0, 3, bg, rk1, fw1⟩ with e | m2
      · simp only [hm2] at h
        have h0 := fun pr hpr => h pr (List.mem_append_left trc hpr)
        rw [detect_bankgrps_traced_congr hw hw' para _ l _ (by rw [hd]; exact h0), hd]
        simp only [hm1]
        rw [e1 fun pr hpr => h pr (List.mem_append_right _ hpr), hrc]
        simp only [hm2]
      · simp only [hm2] at h
        have e2 := probe_loop_traced_congr hw hw'
          (⟨cc, rr0, 3, bg, rk1, fw1⟩ :: ⟨12, rr0, bb0, bg, rk1, fw1⟩ :: l1) .bank
          (1 + (if fw1 then 1 else 0) + bg + cc) 3 1 2
        generalize hrb : probe_loop_traced hw
          (⟨cc, rr0, 3, bg, rk1, fw1⟩ :: ⟨12, rr0, bb0, bg, rk1, fw1⟩ :: l1) .bank
          (1 + (if fw1 then 1 else 0) + bg + cc) 3 1 2 = rb at h e2
        obtain ⟨bb, trb⟩ := rb
        simp only at h e2
        rcases hm3 : mctl_set_addrmap ⟨cc, 18, bb, bg, rk1, fw1⟩ with e | m3
        · simp only [hm3] at h
          have h0 := fun pr hpr =>
            h pr (List.mem_append_left trb (List.mem_append_left trc hpr))
          have h1 := fun pr hpr =>
            h pr (List.mem_append_left trb (List.mem_append_right tr0 hpr))
          rw [detect_bankgrps_traced_congr hw hw' para _ l _ (by rw [hd]; exact h0), hd]
          simp only [hm1]
          rw [e1 h1, hrc]
          simp only [hm2]
          rw [e2 fun pr hpr => h pr (List.mem_append_right _ hpr), hrb]
          simp only [hm3]
        · simp only [hm3] at h
          have h0 := fun pr hpr => h pr (List.mem_append_left _
            (List.mem_append_left trb (List.mem_append_left trc hpr)))
          have h1 := fun pr hpr => h pr (List.mem_append_left _
            (List.mem_append_left trb (List.mem_append_right tr0 hpr)))
          have h2 := fun pr hpr => h pr (List.mem_append_left _
            (List.mem_append_right (tr0 ++ trc) hpr))
          rw [detect_bankgrps_traced_congr hw hw' para _ l _ (by rw [hd]; exact h0), hd]
          simp only [hm1]
          rw [e1 h1, hrc]
          simp only [hm2]
          rw [e2 h2, hrb]
          simp only [hm3]
          rw [probe_loop_traced_congr hw hw' _ .row _ 18 4 14
            fun pr hpr => h pr (List.mem_append_right _ hpr)]

/-- C18: the probe offsets agree with the address map, for both bus widths. The
traced detection is `mctl_auto_detect_dram_size` with a record of its calls of
`mctl_mem_matches`: it returns what `mctl_auto_detect_dram_size` returns, and that
result is the same on every hardware that answers the recorded calls alike. Every
call it makes, in a run that returns or in one that ends in a panic, is made right
after a bring-up whose descriptor `mctl_set_addrmap` accepted,
and the byte offset `1 << (w + shift)` it probes for candidate width `w` equals
`4 * 2^p`, where `p` is the HIF position that the map of that descriptor gives the
address bit under test: column bit `w` (column index `w - 1` on a half-width bus)
with cols 12, bank bit `w` with banks 3, row bit `w` with rows 18, and for the
bank-group step, which reaches its call on a full-width bus only, BG1 with
bankgrps 2 at offset `1 << (shift + 4)`. A run that returns has made a call of the
column, the bank and the row loop, and on DDR4 of the bank-group step. -/
theorem probe_offsets_agree (hw : Hw) (para : dram_para) (config : dram_config)
    (l : List dram_config) (hr : config.ranks < 256) :
    (mctl_auto_detect_dram_size_traced hw para config l).1 =
      mctl_auto_detect_dram_size hw para config l ∧
    (∀ pr ∈ (mctl_auto_detect_dram_size_traced hw para config l).2,
      ∃ d rest m p,
        pr.programmed = d :: rest ∧ d.bus_full_width = config.bus_full_width ∧
        mctl_set_addrmap d = .ok m ∧
        m.sel (bit_under_test pr.kind pr.width config.bus_full_width) = .hif p ∧
        pr.offset = 4 * 2 ^ p ∧
        match pr.kind with
        | .bankgrp => d.bankgrps = 2 ∧ config.bus_full_width = true ∧ pr.width = 1 ∧
            pr.offset = shl64 (2 + 4)
        | .col => d.cols = 12 ∧ 8 ≤ pr.width ∧ pr.width < 12 ∧
            pr.offset = shl64 (pr.width +
              (1 + (if config.bus_full_width then 1 else 0) + d.bankgrps))
        | .bank => d.banks = 3 ∧ pr.width = 2 ∧
            pr.offset = shl64 (pr.width +
              (1 + (if config.bus_full_width then 1 else 0) + d.bankgrps + d.cols))
        | .row => d.rows = 18 ∧ 14 ≤ pr.width ∧ pr.width < 18 ∧
            pr.offset = shl64 (pr.width +
              (1 + (if config.bus_full_width then 1 else 0) + d.bankgrps + d.cols
                + d.banks))) ∧
    (∀ r, mctl_auto_detect_dram_size hw para config l = .ok r →
      ∀ kind, (kind = .bankgrp → para.type = .DDR4) →
        ∃ pr ∈ (mctl_auto_detect_dram_size_traced hw para config l).2, pr.kind = kind) ∧
    (∀ hw' : Hw,
      (∀ pr ∈ (mctl_auto_detect_dram_size_traced hw para config l).2,
        hw'.mem_matches pr.programmed pr.offset = hw.mem_matches pr.programmed pr.offset) →
      mctl_auto_detect_dram_size hw' para config l =
        mctl_auto_detect_dram_size hw para config l) := by
  obtain ⟨h1, h2⟩ := mctl_auto_detect_dram_size_traced_probes hw para config l hr
  refine ⟨mctl_auto_detect_dram_size_traced_fst hw para config l, h1, fun r hr => ?_,
    fun hw' h => ?_⟩
  · rw [← mctl_auto_detect_dram_size_traced_fst] at hr
    exact h2 r hr
  · rw [← mctl_auto_detect_dram_size_traced_fst hw',
      ← mctl_auto_detect_dram_size_traced_fst hw,
      mctl_auto_detect_dram_size_traced_congr hw hw' para config l h]

theorem probe_offsets_agree_witness :
    (⟨0, 0, 0, 0, 1, false⟩ : dram_config).ranks < 256 ∧
    (mctl_auto_detect_dram_size_traced hw_alias_from_4k ⟨.LPDDR4, 792, 0, true⟩
        ⟨0, 0, 0, 0, 1, false⟩ []).2.map (fun pr => (pr.kind, pr.width, pr.offset)) =
      [(.col, 8, 512), (.col, 9, 1024), (.col, 10, 2048), (.col, 11, 4096),
        (.bank, 2, 16384), (.row, 14, 268435456)] ∧
    ∀ pr ∈ (mctl_auto_detect_dram_size_traced hw_alias_from_4k ⟨.LPDDR4, 792, 0, true⟩
        ⟨0, 0, 0, 0, 1, false⟩ []).2,
      ∃ d rest m p, pr.programmed = d :: rest ∧ mctl_set_addrmap d = .ok m ∧
        m.sel (bit_under_test pr.kind pr.width false) = .hif p ∧ pr.offset = 4 * 2 ^ p :=
  ⟨by decide, by decide, fun pr hpr =>
    let ⟨d, rest, m, p, h1, _, h3, h4, h5, _⟩ :=
      (probe_offsets_agree hw_alias_from_4k ⟨.LPDDR4, 792, 0, true⟩ ⟨0, 0, 0, 0, 1, false⟩ []
        (by decide)).2.1 pr hpr
    ⟨d, rest, m, p, h1, h3, h4, h5⟩⟩

/-! ### Read calibration -/

/-- More fuel does not change the result of a polling loop that left. -/
theorem poll_calibration_mono (status : Nat → Nat) (val : Nat) :
    ∀ fuel k r, poll_calibration status val fuel k = some r →
      ∀ fuel', fuel ≤ fuel' → poll_calibration status val fuel' k = some r := by
  intro fuel
  induction fuel with
  | zero => intro k r h; simp [poll_calibration] at h
  | succ fuel ih =>
    intro k r h fuel' hle
    obtain ⟨f, rfl⟩ : ∃ f, fuel' = f + 1 := ⟨fuel' - 1, by omega⟩
    unfold poll_calibration at h ⊢
    split_ifs at h ⊢ with h1 h2
    · exact h
    · exact h
    · exact ih _ _ h f (by omega)

/-- A polling loop leaves once the status register shows completion or failure. -/
theorem poll_calibration_of_exit (status : Nat → Nat) (val : Nat) :
    ∀ j k, (status (k + 2 * j) &&& val = val ∨ status (k + 2 * j + 1) &&& 0x20 ≠ 0) →
      ∃ r, poll_calibration status val (j + 1) k = some r := by
  intro j
  induction j with
  | zero =>
    intro k h
    unfold poll_calibration
    simp only [Nat.mul_zero, Nat.add_zero] at h
    split_ifs with h1 h2
    · exact ⟨_, rfl⟩
    · exact ⟨_, rfl⟩
    · rcases h with h | h
      · exact absurd h h1
      · exact absurd h h2
  | succ j ih =>
    intro k h
    unfold poll_calibration
    split_ifs with h1 h2
    · exact ⟨_, rfl⟩
    · exact ⟨_, rfl⟩
    · apply ih (k + 2)
      have e1 : k + 2 + 2 * j = k + 2 * (j + 1) := by omega
      rw [e1]
      exact h

/-- When the status register lets the polling loops leave, `mctl_phy_read_calibration`
returns with enough fuel, and the updates it issues are: the first pass with rank
select `0x20`; for `ranks = 1` the second pass with rank select `0x10`; the write of
the coarse compensation value to `0x38`; the final update of register 4. -/
theorem mctl_phy_read_calibration_returns (hw : phy_readback) (config : dram_config)
    (hs : polls_settle hw.status (if config.bus_full_width then 0xf else 3)) :
    ∃ fuel res,
      ∀ fuel', fuel ≤ fuel' →
        mctl_phy_read_calibration hw config fuel' =
          some (res,
            [.clrsetbits 8 0x30 0x20, .setbits 8 1, .clrbits 8 1, .clrbits 8 0x30] ++
            (if config.ranks = 1 then
               [.clrsetbits 8 0x30 0x10, .setbits 8 1, .clrbits 8 1] else []) ++
            [.clrbits 8 0x30, .clrsetbits 0x38 0x7 ((calibration_max hw + 2) &&& 7),
             .setbits 4 0x20]) := by
  obtain ⟨j1, hj1⟩ := hs 0
  obtain ⟨⟨ok1, k1⟩, hp1⟩ := poll_calibration_of_exit hw.status _ j1 0 hj1
  obtain ⟨j2, hj2⟩ := hs k1
  obtain ⟨⟨ok2, k2⟩, hp2⟩ := poll_calibration_of_exit hw.status _ j2 k1 hj2
  by_cases hr : config.ranks = 1
  · refine ⟨max (j1 + 1) (j2 + 1), ok1 && ok2, fun fuel' hf => ?_⟩
    have q1 := poll_calibration_mono hw.status _ _ _ _ hp1 fuel' (by omega)
    have q2 := poll_calibration_mono hw.status _ _ _ _ hp2 fuel' (by omega)
    unfold mctl_phy_read_calibration
    simp only [q1, q2, hr, if_true]
  · refine ⟨j1 + 1, ok1, fun fuel' hf => ?_⟩
    have q1 := poll_calibration_mono hw.status _ _ _ _ hp1 fuel' (by omega)
    unfold mctl_phy_read_calibration
    simp only [q1, hr, if_false, Bool.and_true]

/-- C14 as stated fails: with the ranks field 0 (one physical rank) only the first
pass is run, no update selects rank slot `0x10` and the calibration is triggered
once; with the ranks field 1 (two physical ranks) the second pass is run. -/
theorem second_pass_not_for_single_rank :
    mctl_phy_read_calibration (phy_done 1 2 3 4) ⟨10, 16, 3, 2, 0, true⟩ 1 =
      some (true,
        [.clrsetbits 8 0x30 0x20, .setbits 8 1, .clrbits 8 1, .clrbits 8 0x30,
         .clrbits 8 0x30, .clrsetbits 0x38 0x7 6, .setbits 4 0x20]) ∧
    mctl_phy_read_calibration (phy_done 1 2 3 4) ⟨10, 16, 3, 2, 1, true⟩ 1 =
      some (true,
        [.clrsetbits 8 0x30 0x20, .setbits 8 1, .clrbits 8 1, .clrbits 8 0x30,
         .clrsetbits 8 0x30 0x10, .setbits 8 1, .clrbits 8 1,
         .clrbits 8 0x30, .clrsetbits 0x38 0x7 6, .setbits 4 0x20]) := by
  exact ⟨rfl, rfl⟩

/-- C14 (amended): when the status register lets the polling loops leave,
`mctl_phy_read_calibration` returns, and it performs the second calibration pass,
targeting the alternate rank slot (rank select `0x10`), exactly when the ranks field
of the descriptor is 1 (two physical ranks); otherwise it performs only the first
pass: the calibration is triggered twice in the first case and once in the second. -/
theorem second_pass_iff_two_ranks (hw : phy_readback) (config : dram_config)
    (hs : polls_settle hw.status (if config.bus_full_width then 0xf else 3)) :
    ∃ fuel res ops,
      (∀ fuel', fuel ≤ fuel' → mctl_phy_read_calibration hw config fuel' = some (res, ops)) ∧
      (phy_op.clrsetbits 8 0x30 0x10 ∈ ops ↔ config.ranks = 1) ∧
      ops.count (.setbits 8 1) = (if config.ranks = 1 then 2 else 1) ∧
      ops.count (.clrsetbits 8 0x30 0x20) = 1 := by
  obtain ⟨fuel, res, h⟩ := mctl_phy_read_calibration_returns hw config hs
  refine ⟨fuel, res, _, h, ?_⟩
  generalize (calibration_max hw + 2) &&& 7 = v
  by_cases hr : config.ranks = 1
  · simp [hr]
  · simp [hr]

theorem second_pass_iff_two_ranks_witness :
    ∃ fuel res ops,
      (∀ fuel', fuel ≤ fuel' →
        mctl_phy_read_calibration (phy_done 1 2 3 4) ⟨10, 16, 3, 2, 1, true⟩ fuel' =
          some (res, ops)) ∧
      (phy_op.clrsetbits 8 0x30 0x10 ∈ ops ↔ (1 : Nat) = 1) ∧
      ops.count (.setbits 8 1) = (if (1 : Nat) = 1 then 2 else 1) ∧
      ops.count (.clrsetbits 8 0x30 0x20) = 1 :=
  second_pass_iff_two_ranks (phy_done 1 2 3 4) ⟨10, 16, 3, 2, 1, true⟩
    (fun _ => ⟨0, Or.inl (by simp [phy_done])⟩)

/-- The sequential comparison of the source computes the maximum of the four masked
readouts. -/
theorem calibration_max_eq (hw : phy_readback) :
    calibration_max hw =
      max (max (max (hw.cal_0x274 &&& 7) (hw.cal_0x26c &&& 7)) (hw.cal_0x32c &&& 7))
        (hw.cal_0x334 &&& 7) := by
  unfold calibration_max
  simp only
  generalize hw.cal_0x274 &&& 7 = a
  generalize hw.cal_0x26c &&& 7 = b
  generalize hw.cal_0x32c &&& 7 = c
  generalize hw.cal_0x334 &&& 7 = d
  split_ifs <;> omega

theorem testBit_clear_low3 (i : Nat) :
    (0xFFFFFFFF ^^^ 7 : Nat).testBit i = decide (3 ≤ i ∧ i < 32) := by
  by_cases h : i < 32
  · interval_cases i <;> rfl
  · rw [testBit_eq_false_of_lt _ i 32 (by decide) (by omega)]
    simp
    omega

theorem testBit_seven (i : Nat) : (7 : Nat).testBit i = decide (i < 3) := by
  by_cases h : i < 3
  · interval_cases i <;> rfl
  · rw [testBit_eq_false_of_lt _ i 3 (by norm_num) (by omega)]
    simp
    omega

/-- The update `clrsetbits(0x7, v)` of a 32-bit register, for `v < 8`: the low three
bits become `v` and the other bits stay. -/
theorem clrsetbits_low3 (x v : Nat) (hx : x < 2 ^ 32) (hv : v < 8) :
    ((x &&& (0xFFFFFFFF ^^^ 7)) ||| v) &&& 7 = v ∧
    ∀ i, 3 ≤ i → ((x &&& (0xFFFFFFFF ^^^ 7)) ||| v).testBit i = x.testBit i := by
  have hvi : ∀ i, 3 ≤ i → v.testBit i = false := fun i hi =>
    testBit_eq_false_of_lt v i 3 (by omega) hi
  constructor
  · apply Nat.eq_of_testBit_eq
    intro i
    simp only [Nat.testBit_and, Nat.testBit_or, testBit_clear_low3, testBit_seven]
    by_cases h : i < 3
    · have h3 : ¬ (3 ≤ i ∧ i < 32) := by omega
      simp [h, h3]
    · simp [h, hvi i (by omega)]
  · intro i hi
    simp only [Nat.testBit_or, Nat.testBit_and, testBit_clear_low3, hvi i hi, Bool.or_false]
    by_cases h : i < 32
    · have h3 : 3 ≤ i ∧ i < 32 := ⟨hi, h⟩
      simp [h3]
    · have h3 : ¬ (3 ≤ i ∧ i < 32) := by omega
      simp [h3, testBit_eq_false_of_lt x i 32 hx (by omega)]

/-- C16: whatever the four calibration readouts a, b, c, d at `0x274`, `0x26c`,
`0x32c`, `0x334`, when the status register lets the polling loops leave,
`mctl_phy_read_calibration` returns and leaves in the low 3 bits of the PHY register
at offset `0x38` the value `(max(a & 7, b & 7, c & 7, d & 7) + 2) & 7`, the other
bits of that 32-bit register being unchanged. -/
theorem coarse_compensation (hw : phy_readback) (config : dram_config)
    (regs : Nat → Nat)
    (hs : polls_settle hw.status (if config.bus_full_width then 0xf else 3))
    (h38 : regs 0x38 < 2 ^ 32) :
    ∃ fuel res ops,
      (∀ fuel', fuel ≤ fuel' → mctl_phy_read_calibration hw config fuel' = some (res, ops)) ∧
      run_ops regs ops 0x38 &&& 7 =
        (max (max (max (hw.cal_0x274 &&& 7) (hw.cal_0x26c &&& 7)) (hw.cal_0x32c &&& 7))
          (hw.cal_0x334 &&& 7) + 2) &&& 7 ∧
      ∀ i, 3 ≤ i → (run_ops regs ops 0x38).testBit i = (regs 0x38).testBit i := by
  obtain ⟨fuel, res, h⟩ := mctl_phy_read_calibration_returns hw config hs
  refine ⟨fuel, res, _, h, ?_⟩
  rw [← calibration_max_eq]
  have hv := and_seven_lt_eight (calibration_max hw + 2)
  generalize (calibration_max hw + 2) &&& 7 = v at hv ⊢
  have key : run_ops regs
      ([.clrsetbits 8 0x30 0x20, .setbits 8 1, .clrbits 8 1, .clrbits 8 0x30] ++
        (if config.ranks = 1 then
          [.clrsetbits 8 0x30 0x10, .setbits 8 1, .clrbits 8 1] else []) ++
        [.clrbits 8 0x30, .clrsetbits 0x38 0x7 v, .setbits 4 0x20]) 0x38 =
      (regs 0x38 &&& (0xFFFFFFFF ^^^ 7)) ||| v := by
    by_cases hr : config.ranks = 1
    · simp [hr, run_ops, phy_op.apply]
    · simp [hr, run_ops, phy_op.apply]
  rw [key]
  exact clrsetbits_low3 (regs 0x38) v h38 hv

theorem coarse_compensation_witness :
    ∃ fuel res ops,
      (∀ fuel', fuel ≤ fuel' →
        mctl_phy_read_calibration (phy_done 1 2 7 4) ⟨10, 16, 3, 2, 1, true⟩ fuel' =
          some (res, ops)) ∧
      run_ops (fun _ => 0xABCD) ops 0x38 &&& 7 =
        (max (max (max (1 &&& 7) (2 &&& 7)) (7 &&& 7)) (4 &&& 7) + 2) &&& 7 ∧
      ∀ i, 3 ≤ i → (run_ops (fun _ => 0xABCD) ops 0x38).testBit i = (0xABCD : Nat).testBit i :=
  coarse_compensation (phy_done 1 2 7 4) ⟨10, 16, 3, 2, 1, true⟩ (fun _ => 0xABCD)
    (fun _ => ⟨0, Or.inl (by simp [phy_done])⟩) (by norm_num)

/-! ### Data-lane delay compensation -/

/-- The offsets written by the 'bit delay 1' branch depend on the memory type only. -/
theorem dx_bit_delay1_offsets (para : dram_para) (dx : dx_delay_para) :
    written_offsets (dx_bit_delay1_ops para dx) =
      written_offsets (dx_bit_delay1_ops ⟨para.type, 0, 0, false⟩ dx_zero) := by
  obtain ⟨t, clk, mr4, rc⟩ := para
  cases t <;> rfl

/-- The offsets written by a lane call of the 'bit delay 0' branch do not depend on
the delay values. -/
theorem dx_bit_delay0_lane_offsets (dx : dx_delay_para) (lane : Nat) :
    written_offsets (dx_bit_delay0_lane dx lane) =
      written_offsets (dx_bit_delay0_lane dx_zero lane) := by
  match lane with
  | 0 => rfl
  | 1 => rfl
  | 2 => rfl
  | 3 => rfl
  | _ + 4 => rfl

/-- The 'bit delay 1' branch depends on the board parameters through the memory type
only. -/
theorem dx_bit_delay1_ops_type (para : dram_para) (dx : dx_delay_para) :
    dx_bit_delay1_ops para dx = dx_bit_delay1_ops ⟨para.type, 0, 0, false⟩ dx := rfl

theorem mctl_phy_dx_delay_compensation_type (para : dram_para) (dx : dx_delay_para) :
    mctl_phy_dx_delay_compensation para dx =
      mctl_phy_dx_delay_compensation ⟨para.type, 0, 0, false⟩ dx := rfl

/-- The offsets written by the 'bit delay 0' branch do not depend on the delay
values. -/
theorem dx_bit_delay0_offsets (dx : dx_delay_para) :
    written_offsets (dx_bit_delay0_ops dx) = written_offsets (dx_bit_delay0_ops dx_zero) :=
  rfl

set_option maxRecDepth 100000 in
/-- The offsets that both branches write, whatever the memory type. -/
theorem common_offsets_of_branches (t : sunxi_dram_type) :
    common_offsets (written_offsets (dx_bit_delay1_ops ⟨t, 0, 0, false⟩ dx_zero))
        (written_offsets (dx_bit_delay0_ops dx_zero)) =
      [0x190, 0x5d8, 0x6c4, 0x6cc, 0x6d4, 0x6dc, 0x6e4, 0x6ec, 0x6f4, 0x758] := by
  cases t <;> decide

set_option maxRecDepth 100000 in
/-- C15, the code against the claim: the two branches of
`mctl_phy_dx_delay_compensation` do not write disjoint registers. For every memory
type and all delay values the offsets written by both the 'bit delay 1' branch and the
'bit delay 0' branch are `0x190`, `0x5d8`, `0x6c4`, `0x6cc`, `0x6d4`, `0x6dc`, `0x6e4`,
`0x6ec`, `0x6f4` and `0x758`. Of these `0x190` is a control register in which the
branches clear different bits; `0x5d8` and `0x758` are `base2 + 44` of the calls for
lanes 0 and 2 of the 'bit delay 0' branch, which are registers of lanes 1 and 3 of the
'bit delay 1' branch, whereas the call for lane 1 shares no offset with that branch;
the other seven come from the fourth call. At the failing input, with both modes
enabled, the 'bit delay 1' branch leaves the value `0x11` of its lane 3 at `0x758` and
the whole function leaves there the value `0x22` of lane 2 of the 'bit delay 0'
mode. -/
theorem dx_delay_modes_overlap (para : dram_para) (dx : dx_delay_para) :
    common_offsets (written_offsets (dx_bit_delay1_ops para dx))
        (written_offsets (dx_bit_delay0_ops dx)) =
      [0x190, 0x5d8, 0x6c4, 0x6cc, 0x6d4, 0x6dc, 0x6e4, 0x6ec, 0x6f4, 0x758] ∧
    phy_op.clrbits 0x190 (1 <<< 4) ∈ dx_bit_delay1_ops para dx ∧
    phy_op.clrbits 0x190 (1 <<< 2) ∈ dx_bit_delay0_ops dx ∧
    common_offsets (written_offsets (dx_bit_delay1_ops para dx))
        (written_offsets (dx_bit_delay0_lane dx 0)) = [0x5d8] ∧
    common_offsets (written_offsets (dx_bit_delay1_ops para dx))
        (written_offsets (dx_bit_delay0_lane dx 1)) = [] ∧
    common_offsets (written_offsets (dx_bit_delay1_ops para dx))
        (written_offsets (dx_bit_delay0_lane dx 2)) = [0x758] ∧
    common_offsets (written_offsets (dx_bit_delay1_ops para dx))
        (written_offsets (dx_bit_delay0_lane dx 3)) =
      [0x5d8, 0x6c4, 0x6cc, 0x6d4, 0x6dc, 0x6e4, 0x6ec, 0x6f4] ∧
    (dx_mode_clash.tpr11 >>> 24) &&& 0x3f = 0x11 ∧
    (dx_mode_clash.tpr14 >>> 16) &&& 0x3f = 0x22 ∧
    phy_op.write 0x758 0x11 ∈ dx_bit_delay1_lane dx_mode_clash 3 ∧
    phy_op.write 0x758 0x22 ∈ dx_bit_delay0_lane dx_mode_clash 2 ∧
    run_ops (fun _ => 0) (dx_bit_delay1_ops para dx_mode_clash) 0x758 = 0x11 ∧
    run_ops (fun _ => 0) (mctl_phy_dx_delay_compensation para dx_mode_clash) 0x758 = 0x22 := by
  rw [dx_bit_delay1_offsets, dx_bit_delay0_offsets, dx_bit_delay0_lane_offsets dx 0,
    dx_bit_delay0_lane_offsets dx 1, dx_bit_delay0_lane_offsets dx 2,
    dx_bit_delay0_lane_offsets dx 3, common_offsets_of_branches,
    dx_bit_delay1_ops_type para dx, dx_bit_delay1_ops_type para dx_mode_clash,
    mctl_phy_dx_delay_compensation_type para dx_mode_clash]
  generalize para.type = t
  refine ⟨rfl, ?_, ?_, ?_, ?_, ?_, ?_, by decide, by decide, by decide, by decide, ?_, ?_⟩
  · cases t <;> simp [dx_bit_delay1_ops, dx_bit_delay1_control]
  · simp [dx_bit_delay0_ops, dx_bit_delay0_control]
  · cases t <;> decide
  · cases t <;> decide
  · cases t <;> decide
  · cases t <;> decide
  · cases t <;> decide
  · cases t <;> decide

set_option maxRecDepth 100000 in
/-- C20, the code at a failing input: with `tpr14 = 0x05000003` the first lane call
writes its value 3 to the offsets `0x528`, `0x5e8`, `0x5d8`, and the fourth lane call,
whose second base is again `0x528`, writes its value 5 to the same three offsets, so
that after `mctl_phy_dx_delay_compensation` the register at `0x528` holds 5. The
calls for lanes 0, 1 and 2 write pairwise disjoint offsets. -/
theorem dx_delay0_fourth_lane_overwrites_first :
    dx_lane_clash.tpr14 &&& 0x3f = 3 ∧ (dx_lane_clash.tpr14 >>> 24) &&& 0x3f = 5 ∧
    (written_offsets (dx_bit_delay0_lane dx_lane_clash 0)).filter
        (fun o => decide (o ∈ written_offsets (dx_bit_delay0_lane dx_lane_clash 3))) =
      [0x528, 0x5e8, 0x5d8] ∧
    phy_op.write 0x528 3 ∈ dx_bit_delay0_lane dx_lane_clash 0 ∧
    phy_op.write 0x528 5 ∈ dx_bit_delay0_lane dx_lane_clash 3 ∧
    run_ops (fun _ => 0) (dx_bit_delay0_lane dx_lane_clash 0) 0x528 = 3 ∧
    run_ops (fun _ => 0)
        (mctl_phy_dx_delay_compensation ⟨.DDR4, 792, 0, true⟩ dx_lane_clash) 0x528 = 5 ∧
    (written_offsets (dx_bit_delay0_lane dx_lane_clash 0)).filter
        (fun o => decide (o ∈ written_offsets (dx_bit_delay0_lane dx_lane_clash 1))) = [] ∧
    (written_offsets (dx_bit_delay0_lane dx_lane_clash 0)).filter
        (fun o => decide (o ∈ written_offsets (dx_bit_delay0_lane dx_lane_clash 2))) = [] ∧
    (written_offsets (dx_bit_delay0_lane dx_lane_clash 1)).filter
        (fun o => decide (o ∈ written_offsets (dx_bit_delay0_lane dx_lane_clash 2))) = [] := by
  decide

/-! ### Detection on a full-width bus -/

/-- On a full-width bus the bank-group step returns, with 0, 1 or 2 bank-group
bits. -/
theorem detect_bankgrps_full_width (hw : Hw) (para : dram_para) (bg0 rk : Nat)
    (l : List dram_config) (hrk : rk ≤ 1) :
    ∃ bg l1, detect_bankgrps hw para ⟨8, 14, 2, bg0, rk, true⟩ l 2 =
      .ok (⟨8, 14, 2, bg, rk, true⟩, l1) ∧ bg ≤ 2 := by
  unfold detect_bankgrps
  by_cases ht : para.type = .DDR4
  · have hb : in_bounds ⟨8, 14, 2, 2, rk, true⟩ := by
      unfold in_bounds
      simp only
      omega
    obtain ⟨m, hm⟩ := mctl_set_addrmap_isOk_full _ hb rfl
    simp only [if_pos ht, mctl_core_init_ok hw para ⟨8, 14, 2, 2, rk, true⟩ l m hm]
    split_ifs
    · exact ⟨1, _, rfl, by omega⟩
    · exact ⟨2, _, rfl, by omega⟩
  · simp only [if_neg ht]
    exact ⟨0, _, rfl, by omega⟩

/-- On a full-width bus, whatever the memory type, the calibration results and the
outcomes of the aliasing tests, `mctl_auto_detect_dram_size` gives every bring-up a
descriptor that `mctl_set_addrmap` accepts: it returns, and the descriptor it leaves
lies within the bounds. -/
theorem mctl_auto_detect_dram_size_full_width (hw : Hw) (para : dram_para)
    (config : dram_config) (l : List dram_config)
    (hfw : config.bus_full_width = true) (hrk : config.ranks ≤ 1) :
    ∃ c' l', mctl_auto_detect_dram_size hw para config l = .ok (c', l') ∧
      in_bounds c' ∧ c'.bus_full_width = true ∧ c'.ranks = config.ranks := by
  obtain ⟨bg, l1, hl1, hbg⟩ :=
    detect_bankgrps_full_width hw para config.bankgrps config.ranks l hrk
  have hb2 : in_bounds ⟨12, 14, 2, bg, config.ranks, true⟩ := by
    unfold in_bounds
    simp only
    omega
  obtain ⟨m2, hm2⟩ := mctl_set_addrmap_isOk_full _ hb2 rfl
  obtain ⟨c1, c2, -, -⟩ := probe_loop_spec
    (hw.mem_matches (⟨12, 14, 2, bg, config.ranks, true⟩ :: l1)) (2 + bg) 12 4 8
    (by omega) (by omega)
  generalize hcc : probe_loop (hw.mem_matches (⟨12, 14, 2, bg, config.ranks, true⟩ :: l1))
    (2 + bg) 12 4 8 = cc at c1 c2
  have hb3 : in_bounds ⟨cc, 14, 3, bg, config.ranks, true⟩ := by
    unfold in_bounds
    simp only
    omega
  obtain ⟨m3, hm3⟩ := mctl_set_addrmap_isOk_full _ hb3 rfl
  obtain ⟨b1, b2, -, -⟩ := probe_loop_spec
    (hw.mem_matches (⟨cc, 14, 3, bg, config.ranks, true⟩ ::
      ⟨12, 14, 2, bg, config.ranks, true⟩ :: l1)) (2 + bg + cc) 3 1 2 (by omega) (by omega)
  generalize hbb : probe_loop (hw.mem_matches (⟨cc, 14, 3, bg, config.ranks, true⟩ ::
      ⟨12, 14, 2, bg, config.ranks, true⟩ :: l1)) (2 + bg + cc) 3 1 2 = bb at b1 b2
  have hb4 : in_bounds ⟨cc, 18, bb, bg, config.ranks, true⟩ := by
    unfold in_bounds
    simp only
    omega
  obtain ⟨m4, hm4⟩ := mctl_set_addrmap_isOk_full _ hb4 rfl
  obtain ⟨r1, r2, -, -⟩ := probe_loop_spec
    (hw.mem_matches (⟨cc, 18, bb, bg, config.ranks, true⟩ ::
      ⟨cc, 14, 3, bg, config.ranks, true⟩ ::
      ⟨12, 14, 2, bg, config.ranks, true⟩ :: l1)) (2 + bg + cc + bb) 18 4 14
    (by omega) (by omega)
  generalize hrr : probe_loop (hw.mem_matches (⟨cc, 18, bb, bg, config.ranks, true⟩ ::
      ⟨cc, 14, 3, bg, config.ranks, true⟩ ::
      ⟨12, 14, 2, bg, config.ranks, true⟩ :: l1)) (2 + bg + cc + bb) 18 4 14 = rr at r1 r2
  refine ⟨⟨cc, rr, bb, bg, config.ranks, true⟩,
    ⟨cc, 18, bb, bg, config.ranks, true⟩ :: ⟨cc, 14, 3, bg, config.ranks, true⟩ ::
      ⟨12, 14, 2, bg, config.ranks, true⟩ :: l1, ?_, ?_, rfl, rfl⟩
  · simp only [mctl_auto_detect_dram_size, hfw, if_true, show (1 + 1 : Nat) = 2 from rfl, hl1,
      mctl_core_init_ok hw para _ l1 m2 hm2, detect_cols, hcc,
      mctl_core_init_ok hw para _ (⟨12, 14, 2, bg, config.ranks, true⟩ :: l1) m3 hm3,
      detect_banks, hbb,
      mctl_core_init_ok hw para _
        (⟨cc, 14, 3, bg, config.ranks, true⟩ :: ⟨12, 14, 2, bg, config.ranks, true⟩ :: l1)
        m4 hm4, detect_rows, hrr]
  · unfold in_bounds
    simp only
    omega

end SunxiDram
